import Mathlib

/-!
libepir: EC-ElGamal core of the PIR client (`src/src/epir.c`)

A shallow embedding of `epir.c`.

* Byte buffers (`unsigned char *`) are `List Nat`, every element a byte.
* `size_t` / `uint64_t` values are `Nat` reduced modulo `2^64` where the C
  arithmetic can wrap, `uint32_t` values modulo `2^32`, `int32_t` / `int`
  results are `Int` obtained through `toInt32`.
* A 32-byte scalar buffer is represented by the integer it encodes.
* Undefined behaviour of the C program (division by zero, an access outside
  a buffer, a call through a null pointer, an oversized shift) and a loop
  that has not finished within its fuel are the `Fault` results of
  `Except Fault _`.
* `#pragma omp parallel` regions are executed lane by lane, in index order.
-/

namespace Epir

/-! ## Machine integers and faults -/

/-- The modulus of `uint32_t`. -/
def U32 : Nat := 2 ^ 32

/-- The modulus of `size_t` and `uint64_t`. -/
def U64 : Nat := 2 ^ 64

/-- Conversion of an unsigned 32-bit pattern to `int32_t` (two's complement). -/
def toInt32 (x : Nat) : Int :=
  if x % U32 < 2 ^ 31 then ((x % U32 : Nat) : Int) else ((x % U32 : Nat) : Int) - (U32 : Int)

/-- The ways an execution of the C code can leave the defined behaviour. -/
inductive Fault where
  | div_by_zero
  | out_of_bounds
  | null_call
  | shift_too_wide
  | fuel
  deriving DecidableEq, Repr

/-! ## Constants of `epir.h` -/

/-- Modelled from the spec: `EPIR_SCALAR_SIZE` of the absent header `epir.h`. -/
def EPIR_SCALAR_SIZE : Nat := 32

/-- Modelled from the spec: `EPIR_POINT_SIZE` of the absent header `epir.h`. -/
def EPIR_POINT_SIZE : Nat := 32

/-- Modelled from the spec: `EPIR_CIPHER_SIZE = 2 * EPIR_POINT_SIZE` of `epir.h`. -/
def EPIR_CIPHER_SIZE : Nat := 64

/-- Modelled from the spec: `EPIR_DEFAULT_MG_MAX = 2^24` of `epir.h`. -/
def EPIR_DEFAULT_MG_MAX : Nat := 2 ^ 24

/-- Modelled from the spec: the record `epir_mG_t` of `epir.h`, a 32-byte
compressed point followed by a `uint32_t` scalar. -/
structure epir_mG_t where
  point : List Nat
  scalar : Nat
  deriving DecidableEq, Repr

/-! ## Byte primitives -/

/-- The libc `memcmp` on the first `n` bytes, reduced to its sign. A byte
missing from a list reads as `0`. -/
def memcmp : List Nat → List Nat → Nat → Int
  | _, _, 0 => 0
  | a, b, n + 1 =>
    if a.headD 0 < b.headD 0 then -1
    else if b.headD 0 < a.headD 0 then 1
    else memcmp a.tail b.tail n

/-- The function `load_uint32_t`: the first four bytes as a big-endian `uint32_t`. -/
def load_uint32_t (n : List Nat) : Nat :=
  (((n.getD 0 0 % U32) <<< 24) % U32 ||| ((n.getD 1 0 % U32) <<< 16) % U32
    ||| ((n.getD 2 0 % U32) <<< 8) % U32 ||| ((n.getD 3 0 % U32) <<< 0) % U32)

/-- The comparator `mG_compare`: `memcmp` over the point field only. -/
def mG_compare (x y : epir_mG_t) : Int :=
  memcmp x.point y.point EPIR_POINT_SIZE

/-! ## The curve primitives (libsodium), taken as a parameter -/

/-- Modelled from the spec: the curve primitive facade of section 4.A, whose
implementation (libsodium's `ge25519_*` / `sc25519_*`, reached through the
absent `common.h`) is not part of the sources. `Pt` is the group of curve
points, `B` the base point of order `ell`, `tobytes` the 32-byte compression
and `frombytes` the decompression with its status code (`0` on success).

The laws are those of the Ed25519 group: `B` has order `ell` (`order_B`), which
exceeds every `size_t` (`ell_large`; `ell = 2^252 + 27742317777372353535851937790883648493`);
compression is injective onto 32-byte strings and inverted by decompression;
the neutral element and the base point, compressed as `01 00 … 00` and
`58 66 … 66`, differ in their first four bytes (`key_zero_ne_key_B`). -/
structure Curve where
  Pt : Type
  [grp : AddCommGroup Pt]
  B : Pt
  ell : Nat
  tobytes : Pt → List Nat
  frombytes : List Nat → Int × Pt
  order_B : ∀ n : Nat, n • B = 0 ↔ ell ∣ n
  ell_large : U64 ≤ ell
  tobytes_length : ∀ P, (tobytes P).length = 32
  tobytes_byte : ∀ P, ∀ b ∈ tobytes P, b < 256
  tobytes_inj : ∀ P Q, tobytes P = tobytes Q → P = Q
  frombytes_tobytes : ∀ P, frombytes (tobytes P) = (0, P)
  key_zero_ne_key_B : load_uint32_t (tobytes 0) ≠ load_uint32_t (tobytes B)

attribute [instance] Curve.grp

/-- Modelled from the spec: `crypto_core_ed25519_scalar_random`; the injected
randomness source delivers the scalar `rnd`. -/
def crypto_core_ed25519_scalar_random (rnd : Nat) : Nat := rnd

/-- Modelled from the spec: `sc25519_load_uint64`, the canonical embedding of a
`uint64_t` as a scalar. -/
def sc25519_load_uint64 (x : Nat) : Nat := x % U64

/-- Modelled from the spec: `sc25519_muladd(s, a, b, c)`, `s = a*b + c mod ell`. -/
def sc25519_muladd (C : Curve) (a b c : Nat) : Nat := (a * b + c) % C.ell

/-- Modelled from the spec: `ge25519_scalarmult_base`, `s * B`. -/
def ge25519_scalarmult_base (C : Curve) (s : Nat) : C.Pt := s • C.B

/-- Modelled from the spec: `ge25519_scalarmult`, `s * P`. -/
def ge25519_scalarmult (C : Curve) (s : Nat) (P : C.Pt) : C.Pt := s • P

/-- Modelled from the spec: `ge25519_double_scalarmult_vartime(r, a, A, b)`,
`r = a*A + b*B`. -/
def ge25519_double_scalarmult_vartime (C : Curve) (a : Nat) (A : C.Pt) (b : Nat) : C.Pt :=
  a • A + b • C.B

/-- Modelled from the spec: `ge25519_sub_p3_p3`, point subtraction. -/
def ge25519_sub_p3_p3 (C : Curve) (P Q : C.Pt) : C.Pt := P - Q

/-- Modelled from the spec: `ge25519_p3_0`, the neutral element. -/
def ge25519_p3_0 (C : Curve) : C.Pt := 0

/-- Modelled from the spec: `ge25519_p3_to_precomp`, a change of representation. -/
def ge25519_p3_to_precomp (C : Curve) (P : C.Pt) : C.Pt := P

/-- Modelled from the spec: `ge25519_add_p3_precomp`, point addition. -/
def ge25519_add_p3_precomp (C : Curve) (P Q : C.Pt) : C.Pt := P + Q

/-- Modelled from the spec: `ge25519_p3_tobytes`, compression of a `p3` point. -/
def ge25519_p3_tobytes (C : Curve) (P : C.Pt) : List Nat := C.tobytes P

/-- Modelled from the spec: `ge25519_tobytes`, compression of a `p2` point. -/
def ge25519_tobytes (C : Curve) (P : C.Pt) : List Nat := C.tobytes P

/-- Modelled from the spec: `ge25519_frombytes`, decompression; the first
component is the status the C code discards. -/
def ge25519_frombytes (C : Curve) (s : List Nat) : Int × C.Pt := C.frombytes s

/-- Modelled from the spec: `crypto_scalarmult_ed25519_base_noclamp`, `q = n * B`
compressed. -/
def crypto_scalarmult_ed25519_base_noclamp (C : Curve) (n : Nat) : List Nat :=
  C.tobytes (n • C.B)

/-! ## Key generation and encryption -/

/-- The function `epir_create_privkey`. -/
def epir_create_privkey (rnd : Nat) : Nat := crypto_core_ed25519_scalar_random rnd

/-- The function `epir_pubkey_from_privkey`. -/
def epir_pubkey_from_privkey (C : Curve) (privkey : Nat) : List Nat :=
  crypto_scalarmult_ed25519_base_noclamp C privkey

/-- The function `epir_ecelgamal_encrypt`. `r = none` is the C `NULL`, for which
the scalar `rnd` is drawn. The result is the 64-byte cipher. -/
def epir_ecelgamal_encrypt (C : Curve) (pubkey : List Nat) (message : Nat)
    (r : Option Nat) (rnd : Nat) : List Nat :=
  let rr := match r with
    | none => crypto_core_ed25519_scalar_random rnd
    | some r => r
  let c1 := ge25519_scalarmult_base C rr
  let mm := sc25519_load_uint64 message
  let p := (ge25519_frombytes C pubkey).2
  let c2 := ge25519_double_scalarmult_vartime C rr p mm
  ge25519_p3_tobytes C c1 ++ ge25519_tobytes C c2

/-- The function `epir_ecelgamal_encrypt_fast`. -/
def epir_ecelgamal_encrypt_fast (C : Curve) (privkey : Nat) (message : Nat)
    (r : Option Nat) (rnd : Nat) : List Nat :=
  let rr := match r with
    | none => crypto_core_ed25519_scalar_random rnd
    | some r => r
  let c1 := ge25519_scalarmult_base C rr
  let mm := sc25519_load_uint64 message
  let rr := sc25519_muladd C rr privkey mm
  let c2 := ge25519_scalarmult_base C rr
  ge25519_p3_tobytes C c1 ++ ge25519_p3_tobytes C c2

/-! ## Interpolation search and decryption -/

/-- The loop of `interpolation_search`, one iteration per unit of fuel. -/
def interpolation_search_loop (find : List Nat) (mG : List epir_mG_t) (my : Nat) :
    Nat → Nat → Nat → Nat → Nat → Except Fault Int
  | fuel, imin, imax, left, right =>
    if imin ≤ imax then
      match fuel with
      | 0 => .error .fuel
      | fuel + 1 =>
        let den := (right + U32 - left) % U32
        if den = 0 then .error .div_by_zero
        else
          let imid := (imin + ((imax - imin) * ((my + U32 - left) % U32) % U64) / den) % U64
          match mG[imid]? with
          | none => .error .out_of_bounds
          | some e =>
            let cmp := memcmp e.point find EPIR_POINT_SIZE
            if cmp < 0 then
              interpolation_search_loop find mG my fuel ((imid + 1) % U64) imax
                (load_uint32_t e.point) right
            else if cmp > 0 then
              interpolation_search_loop find mG my fuel imin ((imid + U64 - 1) % U64) left
                (load_uint32_t e.point)
            else .ok (toInt32 e.scalar)
    else .ok (-1)

/-- The function `interpolation_search`. -/
def interpolation_search (fuel : Nat) (find : List Nat) (mG : List epir_mG_t) (mmax : Nat) :
    Except Fault Int :=
  let imin := 0
  let imax := (mmax + U64 - 1) % U64
  match mG[0]?, mG[(mmax + U64 - 1) % U64]? with
  | some e0, some e1 =>
    let left := load_uint32_t e0.point
    let right := load_uint32_t e1.point
    let my := load_uint32_t find
    interpolation_search_loop find mG my fuel imin imax left right
  | _, _ => .error .out_of_bounds

/-- The function `epir_ecelgamal_decrypt_to_mG`: the cipher buffer after the call. -/
def epir_ecelgamal_decrypt_to_mG (C : Curve) (privkey : Nat) (cipher : List Nat) : List Nat :=
  let c1 := (ge25519_frombytes C (cipher.take EPIR_POINT_SIZE)).2
  let c2 := (ge25519_frombytes C ((cipher.drop EPIR_POINT_SIZE).take EPIR_POINT_SIZE)).2
  let c1 := ge25519_scalarmult C privkey c1
  let c2 := ge25519_sub_p3_p3 C c2 c1
  ge25519_p3_tobytes C c2 ++ cipher.drop EPIR_POINT_SIZE

/-- The function `epir_ecelgamal_decrypt`. -/
def epir_ecelgamal_decrypt (C : Curve) (fuel : Nat) (privkey : Nat) (cipher : List Nat)
    (mG : List epir_mG_t) (mmax : Nat) : Except Fault Int :=
  let c1 := (ge25519_frombytes C (cipher.take EPIR_POINT_SIZE)).2
  let c2 := (ge25519_frombytes C ((cipher.drop EPIR_POINT_SIZE).take EPIR_POINT_SIZE)).2
  let c1 := ge25519_scalarmult C privkey c1
  let c2 := ge25519_sub_p3_p3 C c2 c1
  let M := ge25519_p3_tobytes C c2
  let m := interpolation_search fuel M mG mmax
  m

/-! ## Buffers -/

/-- A read of element `i` of a C array. -/
def load {α : Type} (buf : List α) (i : Nat) : Except Fault α :=
  match buf[i]? with
  | some v => .ok v
  | none => .error .out_of_bounds

/-- A write to element `i` of a C array. -/
def store {α : Type} (buf : List α) (i : Nat) (v : α) : Except Fault (List α) :=
  if i < buf.length then .ok (buf.set i v) else .error .out_of_bounds

/-- A read of the `n` bytes at offset `off`. -/
def read_bytes (buf : List Nat) (off n : Nat) : Except Fault (List Nat) :=
  if off + n ≤ buf.length then .ok ((buf.drop off).take n) else .error .out_of_bounds

/-- A write of the bytes `bs` at offset `off`. -/
def write_bytes (buf : List Nat) (off : Nat) (bs : List Nat) : Except Fault (List Nat) :=
  if off + bs.length ≤ buf.length then
    .ok (buf.take off ++ bs ++ buf.drop (off + bs.length))
  else .error .out_of_bounds

/-- The call `if(cb) cb(cb_data)`. -/
def call_cb {σ : Type} (cb : Option (σ → Except Fault σ)) (cb_data : σ) : Except Fault σ :=
  match cb with
  | none => .ok cb_data
  | some f => f cb_data

/-! ## The mG table builder -/

/-- Modelled from the spec: the record `epir_ecelgamal_mg_generate_context` of
`epir.h`, initialised in the code as `{ mmax, tG_precomp }`. -/
structure epir_ecelgamal_mg_generate_context (C : Curve) where
  mmax : Nat
  tG_precomp : C.Pt

/-- The loop `for(size_t m=1; m<n_threads; m++)` of the prepare stage; the
first argument counts the iterations left. -/
def mg_generate_prepare_loop {σ : Type} (C : Curve) (base_precomp : C.Pt)
    (cb : Option (σ → Except Fault σ)) :
    Nat → Nat → List epir_mG_t × List C.Pt × σ → Except Fault (List epir_mG_t × List C.Pt × σ)
  | 0, _, s => .ok s
  | k + 1, m, (mG, mG_p3, cb_data) => do
    let prev ← load mG_p3 (m - 1)
    let mG_p3 ← store mG_p3 m (ge25519_add_p3_precomp C prev base_precomp)
    let cur ← load mG_p3 m
    let mG ← store mG m ⟨ge25519_p3_tobytes C cur, m % U32⟩
    let cb_data ← call_cb cb cb_data
    mg_generate_prepare_loop C base_precomp cb k (m + 1) (mG, mG_p3, cb_data)

/-- The function `epir_ecelgamal_mg_generate_prepare`. -/
def epir_ecelgamal_mg_generate_prepare {σ : Type} (C : Curve)
    (ctx : epir_ecelgamal_mg_generate_context C) (mG : List epir_mG_t) (mG_p3 : List C.Pt)
    (n_threads : Nat) (cb : Option (σ → Except Fault σ)) (cb_data : σ) :
    Except Fault (epir_ecelgamal_mg_generate_context C × List epir_mG_t × List C.Pt × σ) := do
  let base_p3 := ge25519_scalarmult_base C 1
  let base_precomp := ge25519_p3_to_precomp C base_p3
  let mG_p3 ← store mG_p3 0 (ge25519_p3_0 C)
  let first ← load mG_p3 0
  let mG ← store mG 0 ⟨ge25519_p3_tobytes C first, 0⟩
  let cb_data ← call_cb cb cb_data
  let (mG, mG_p3, cb_data) ←
    mg_generate_prepare_loop C base_precomp cb (n_threads - 1) 1 (mG, mG_p3, cb_data)
  let last ← load mG_p3 ((n_threads + U32 - 1) % U32)
  let tG_p3 := ge25519_add_p3_precomp C last base_precomp
  .ok ({ ctx with tG_precomp := ge25519_p3_to_precomp C tG_p3 }, mG, mG_p3, cb_data)

/-- The function `epir_ecelgamal_mg_generate_compute`, from iteration `m` on;
`mG_p3` is the lane's running point. One iteration per unit of fuel. -/
def epir_ecelgamal_mg_generate_compute {σ : Type} (C : Curve)
    (ctx : epir_ecelgamal_mg_generate_context C) (mG_count offset interval : Nat)
    (cb : Option (σ → Except Fault σ)) :
    Nat → Nat → List epir_mG_t × C.Pt × σ → Except Fault (List epir_mG_t × C.Pt × σ)
  | fuel, m, (mG, mG_p3, cb_data) =>
    let idx := ((m * interval) % U64 + offset) % U64
    if idx ≥ mG_count then .ok (mG, mG_p3, cb_data)
    else
      match fuel with
      | 0 => .error .fuel
      | fuel + 1 => do
        let mG_p3 := ge25519_add_p3_precomp C mG_p3 ctx.tG_precomp
        let mG ← store mG idx ⟨ge25519_p3_tobytes C mG_p3, idx % U32⟩
        let cb_data ← call_cb cb cb_data
        epir_ecelgamal_mg_generate_compute C ctx mG_count offset interval cb fuel
          ((m + 1) % U64) (mG, mG_p3, cb_data)

/-- Modelled from the spec: the libc `qsort` over the first `mmax` entries with
the comparator `mG_compare`, as an insertion sort. -/
def epir_ecelgamal_mg_generate_sort (C : Curve) (ctx : epir_ecelgamal_mg_generate_context C)
    (mG : List epir_mG_t) : List epir_mG_t :=
  (mG.take ctx.mmax).insertionSort (fun x y => mG_compare x y ≤ 0) ++ mG.drop ctx.mmax

/-- The record `mg_cb_data`. `cb` tells whether the user callback is non-null,
`calls` lists the counts the user callback has received, oldest first. -/
structure mg_cb_data where
  points_computed : Nat
  cb : Bool
  calls : List Nat
  deriving DecidableEq, Repr

/-- The function `mg_cb`. -/
def mg_cb (cb_data : mg_cb_data) : Except Fault mg_cb_data :=
  let n := (cb_data.points_computed + 1) % U64
  if cb_data.cb then .ok { cb_data with points_computed := n, calls := cb_data.calls ++ [n] }
  else .error .null_call

/-- The parallel region of `epir_ecelgamal_mg_generate`, lane `omp_id` after
lane `omp_id - 1`; the first argument counts the lanes left. -/
def mg_generate_parallel (C : Curve) (fuel : Nat) (ctx : epir_ecelgamal_mg_generate_context C)
    (mmax omp_threads : Nat) :
    Nat → Nat → List epir_mG_t × List C.Pt × mg_cb_data →
      Except Fault (List epir_mG_t × List C.Pt × mg_cb_data)
  | 0, _, s => .ok s
  | k + 1, omp_id, (mG, mG_p3, cb_data) => do
    let p ← load mG_p3 omp_id
    let (mG, p, cb_data) ←
      epir_ecelgamal_mg_generate_compute C ctx mmax omp_id omp_threads (some mg_cb) fuel 1
        (mG, p, cb_data)
    let mG_p3 ← store mG_p3 omp_id p
    mg_generate_parallel C fuel ctx mmax omp_threads k (omp_id + 1) (mG, mG_p3, cb_data)

/-- The function `epir_ecelgamal_mg_generate` run with `omp_threads` lanes on
the caller's array `mG`; `cb` tells whether the progress callback is non-null. -/
def epir_ecelgamal_mg_generate (C : Curve) (fuel : Nat) (omp_threads : Nat)
    (mG : List epir_mG_t) (mmax : Nat) (cb : Bool) :
    Except Fault (List epir_mG_t × mg_cb_data) := do
  let mG_p3 : List C.Pt := List.replicate omp_threads 0
  let cb_data_ : mg_cb_data := { points_computed := 0, cb := cb, calls := [] }
  let ctx : epir_ecelgamal_mg_generate_context C := { mmax := mmax, tG_precomp := 0 }
  let (ctx, mG, mG_p3, cb_data_) ←
    epir_ecelgamal_mg_generate_prepare C ctx mG mG_p3 omp_threads (some mg_cb) cb_data_
  let (mG, _, cb_data_) ←
    mg_generate_parallel C fuel ctx mmax omp_threads omp_threads 0 (mG, mG_p3, cb_data_)
  .ok (epir_ecelgamal_mg_generate_sort C ctx mG, cb_data_)

/-! ## The selector generator -/

/-- Modelled from the spec: `epir_selector_elements_count` of `epir.h`, the
product of the index counts in `uint64_t`. -/
def epir_selector_elements_count (index_counts : List Nat) (n_indexes : Nat) : Nat :=
  (index_counts.take n_indexes).prod % U64

/-- Modelled from the spec: `epir_selector_ciphers_count` of `epir.h`, the sum of
the index counts in `uint64_t`. -/
def epir_selector_ciphers_count (index_counts : List Nat) (n_indexes : Nat) : Nat :=
  (index_counts.take n_indexes).sum % U64

/-- The loop `for(uint64_t r=0; r<index_counts[ic]; r++)`; the first argument
counts the iterations left. -/
def selector_create_choice_rows (rows : Nat) :
    Nat → Nat → List Nat × Nat → Except Fault (List Nat × Nat)
  | 0, _, s => .ok s
  | k + 1, r, (ciphers, offset) => do
    let ciphers ← store ciphers ((offset * EPIR_CIPHER_SIZE) % U64) (if r = rows then 1 else 0)
    selector_create_choice_rows rows k (r + 1) (ciphers, (offset + 1) % U64)

/-- The loop `for(size_t ic=0; ic<n_indexes; ic++)`; the first argument counts
the iterations left. `rows * prod` never exceeds `idx_`. -/
def selector_create_choice_loop (index_counts : List Nat) :
    Nat → Nat → List Nat × Nat × Nat × Nat → Except Fault (List Nat × Nat × Nat × Nat)
  | 0, _, s => .ok s
  | k + 1, ic, (ciphers, idx_, prod, offset) => do
    let cols ← load index_counts ic
    if cols = 0 then .error .div_by_zero
    else
      let prod := prod / cols
      if prod = 0 then .error .div_by_zero
      else
        let rows := idx_ / prod
        let idx_ := idx_ - rows * prod
        let (ciphers, offset) ← selector_create_choice_rows rows cols 0 (ciphers, offset)
        selector_create_choice_loop index_counts k (ic + 1) (ciphers, idx_, prod, offset)

/-- The function `epir_selector_create_choice`: the buffer `ciphers` after the call. -/
def epir_selector_create_choice (ciphers : List Nat) (index_counts : List Nat)
    (n_indexes : Nat) (idx : Nat) : Except Fault (List Nat) := do
  let idx_ := idx
  let prod := epir_selector_elements_count index_counts n_indexes
  let offset := 0
  let (ciphers, _, _, _) ←
    selector_create_choice_loop index_counts n_indexes 0 (ciphers, idx_, prod, offset)
  .ok ciphers

/-- The parallel loop of `epir_selector_create_`, slot `i` after slot `i - 1`;
slot `i` is encrypted with the fresh scalar `rnd i`. -/
def selector_create_encrypt {κ : Type} (key : κ)
    (encrypt : κ → Nat → Option Nat → Nat → List Nat) (rnd : Nat → Nat) :
    Nat → Nat → List Nat → Except Fault (List Nat)
  | 0, _, ciphers => .ok ciphers
  | k + 1, i, ciphers => do
    let flag ← load ciphers (i * EPIR_CIPHER_SIZE)
    let cipher := encrypt key (if flag ≠ 0 then 1 else 0) none (rnd i)
    let ciphers ← write_bytes ciphers (i * EPIR_CIPHER_SIZE) cipher
    selector_create_encrypt key encrypt rnd k (i + 1) ciphers

/-- The function `epir_selector_create_`. -/
def epir_selector_create_ {κ : Type} (ciphers : List Nat) (key : κ) (index_counts : List Nat)
    (n_indexes : Nat) (idx : Nat) (encrypt : κ → Nat → Option Nat → Nat → List Nat)
    (rnd : Nat → Nat) : Except Fault (List Nat) := do
  let n_ciphers := epir_selector_ciphers_count index_counts n_indexes
  let ciphers ← epir_selector_create_choice ciphers index_counts n_indexes idx
  selector_create_encrypt key encrypt rnd n_ciphers 0 ciphers

/-! ## The reply decryptor -/

/-- The loop `for(uint8_t p=0; p<packing; p++)`: the little-endian bytes of
`decrypted` written at `base`; the first argument counts the iterations left. -/
def reply_decrypt_pack (decrypted : Int) (base : Nat) :
    Nat → Nat → List Nat → Except Fault (List Nat)
  | 0, _, reply => .ok reply
  | k + 1, p, reply =>
    if 32 ≤ 8 * p then .error .shift_too_wide
    else do
      let reply ← store reply (base + p) ((decrypted.toNat >>> (8 * p)) &&& 0xFF)
      reply_decrypt_pack decrypted base k (p + 1) reply

/-- The parallel loop of `epir_reply_decrypt`, slot `i` after slot `i - 1`; the
state is the buffer and the flag `success`. -/
def reply_decrypt_slots (C : Curve) (fuel : Nat) (privkey : Nat) (packing : Nat)
    (mG : List epir_mG_t) (mmax : Nat) :
    Nat → Nat → List Nat × Bool → Except Fault (List Nat × Bool)
  | 0, _, s => .ok s
  | k + 1, i, (reply, success) => do
    let cipher ← read_bytes reply (i * EPIR_CIPHER_SIZE) EPIR_CIPHER_SIZE
    let decrypted ← epir_ecelgamal_decrypt C fuel privkey cipher mG mmax
    if decrypted < 0 then
      reply_decrypt_slots C fuel privkey packing mG mmax k (i + 1) (reply, false)
    else do
      let reply ← reply_decrypt_pack decrypted (i * EPIR_CIPHER_SIZE) packing 0 reply
      reply_decrypt_slots C fuel privkey packing mG mmax k (i + 1) (reply, success)

/-- The compaction loop `memcpy(&reply[i * packing], &reply[i * EPIR_CIPHER_SIZE], packing)`. -/
def reply_decrypt_compact (packing : Nat) : Nat → Nat → List Nat → Except Fault (List Nat)
  | 0, _, reply => .ok reply
  | k + 1, i, reply => do
    let src ← read_bytes reply (i * EPIR_CIPHER_SIZE) packing
    let reply ← write_bytes reply (i * packing) src
    reply_decrypt_compact packing k (i + 1) reply

/-- The loop over the phases of `epir_reply_decrypt`; the first argument counts
the phases left. The result is the buffer and the returned `int`. -/
def reply_decrypt_phases (C : Curve) (fuel : Nat) (privkey : Nat) (dimension packing : Nat)
    (mG : List epir_mG_t) (mmax : Nat) :
    Nat → Nat → List Nat × Nat → Except Fault (List Nat × Int)
  | 0, _, (reply, mid_count) => .ok (reply, toInt32 mid_count)
  | k + 1, phase, (reply, mid_count) => do
    let (reply, success) ←
      reply_decrypt_slots C fuel privkey packing mG mmax mid_count 0 (reply, true)
    if !success then .ok (reply, -1)
    else do
      let reply ← reply_decrypt_compact packing mid_count 0 reply
      if (phase : Int) = (dimension : Int) - 1 then
        .ok (reply, toInt32 ((mid_count * packing) % U64))
      else
        reply_decrypt_phases C fuel privkey dimension packing mG mmax k (phase + 1)
          (reply, (mid_count * packing) % U64 / EPIR_CIPHER_SIZE)

/-- The function `epir_reply_decrypt`: the buffer after the call and the
returned `int`. -/
def epir_reply_decrypt (C : Curve) (fuel : Nat) (reply : List Nat) (reply_size : Nat)
    (privkey : Nat) (dimension packing : Nat) (mG : List epir_mG_t) (mmax : Nat) :
    Except Fault (List Nat × Int) :=
  let mid_count := reply_size / EPIR_CIPHER_SIZE
  reply_decrypt_phases C fuel privkey dimension packing mG mmax dimension 0 (reply, mid_count)

/-! ## Specification vocabulary -/

/-- Big-endian value of a byte string. -/
def beVal : List Nat → Nat
  | [] => 0
  | b :: bs => b * 256 ^ bs.length + beVal bs

/-- The `n`-byte big-endian encoding of `x`. -/
def beBytes : Nat → Nat → List Nat
  | 0, _ => []
  | n + 1, x => (x / 256 ^ n) % 256 :: beBytes n x

/-- Little-endian value of a byte string. -/
def leVal : List Nat → Nat
  | [] => 0
  | b :: bs => b + 256 * leVal bs

/-- A well-formed compressed point: 32 bytes. -/
def IsPoint (p : List Nat) : Prop := p.length = 32 ∧ ∀ b ∈ p, b < 256

/-- A table of well-formed points, strictly ascending under `mG_compare`. -/
def SortedTable (mG : List epir_mG_t) : Prop :=
  (∀ e ∈ mG, IsPoint e.point) ∧ mG.Pairwise (fun x y => mG_compare x y < 0)

/-- Entry `m` of the table: the compressed point `m*B` with the scalar `m` as `uint32_t`. -/
def mG_entry (C : Curve) (m : Nat) : epir_mG_t := ⟨C.tobytes (m • C.B), m % U32⟩

/-- The table before sorting: entry `m` at index `m`. -/
def rawTable (C : Curve) (mmax : Nat) : List epir_mG_t :=
  (List.range mmax).map (mG_entry C)

/-- The table a successful build returns: the entries sorted by `mG_compare`. -/
def mG_table (C : Curve) (mmax : Nat) : List epir_mG_t :=
  (rawTable C mmax).insertionSort (fun x y => mG_compare x y ≤ 0)

/-- Slot `i` of a buffer of ciphers. -/
def slot (buf : List Nat) (i : Nat) : List Nat := (buf.drop (i * 64)).take 64

/-- Byte `p` of the little-endian serialisation the reply decryptor writes. -/
def packByte (d : Int) (p : Nat) : Nat := (d.toNat >>> (8 * p)) &&& 0xFF

/-- The cipher `(c1, c2)` decrypts under `sk` to the lifted point `m*B`. -/
def Encrypts (C : Curve) (sk : Nat) (cipher : List Nat) (m : Nat) : Prop :=
  ∃ c1 c2 : C.Pt, cipher = C.tobytes c1 ++ C.tobytes c2 ∧ c2 - sk • c1 = m • C.B

/-- The meaningful bytes after a phase without failure: the `packing` little-endian
bytes of each of the `n` decrypted values, in slot order. -/
def phase_data (dec : Nat → Int) (packing n : Nat) : List Nat :=
  (List.range (n * packing)).map (fun q => packByte (dec (q / packing)) (q % packing))

/-- The modulus of the model group, `2^255 - 19`. -/
def toyQ : Nat := 2 ^ 255 - 19

/-- The generator of the model group. -/
def toyG : Nat := 0x5866666666666666666666666666666666666666666666666666666666666658

instance toyQ_neZero : NeZero toyQ := ⟨by decide⟩

/-- A model of the curve facade: the integers modulo `2^255 - 19` with a fixed
generator, compressed to their 32-byte big-endian encoding. -/
def toyCurve : Curve where
  Pt := ZMod toyQ
  B := (toyG : ZMod toyQ)
  ell := toyQ
  tobytes := fun P => beBytes 32 P.val
  frombytes := fun s => (if beVal s < toyQ then 0 else -1, (beVal s : ZMod toyQ))
  order_B := by
    intro n
    rw [nsmul_eq_mul, ← Nat.cast_mul, ZMod.natCast_zmod_eq_zero_iff_dvd]
    have hc : Nat.Coprime toyQ toyG := by decide
    exact ⟨fun h => hc.dvd_of_dvd_mul_right h, fun h => Dvd.dvd.mul_right h _⟩
  ell_large := by decide
  tobytes_length := by
    have hlen : ∀ n x : Nat, (beBytes n x).length = n := by
      intro n x
      induction n with
      | zero => rfl
      | succ n ih => simp [beBytes, ih]
    exact fun P => hlen 32 _
  tobytes_byte := by
    have hbyte : ∀ n x : Nat, ∀ b ∈ beBytes n x, b < 256 := by
      intro n x
      induction n with
      | zero => simp [beBytes]
      | succ n ih =>
        intro b hb
        simp only [beBytes, List.mem_cons] at hb
        rcases hb with h | h
        · subst h; exact Nat.mod_lt _ (by norm_num)
        · exact ih b h
    exact fun P => hbyte 32 _
  tobytes_inj := by
    have hlen : ∀ n x : Nat, (beBytes n x).length = n := by
      intro n x
      induction n with
      | zero => rfl
      | succ n ih => simp [beBytes, ih]
    have hval : ∀ n x : Nat, beVal (beBytes n x) = x % 256 ^ n := by
      intro n x
      induction n with
      | zero => simp [beBytes, beVal, Nat.mod_one]
      | succ n ih =>
        simp only [beBytes, beVal, ih, hlen]
        rw [pow_succ, Nat.mod_mul, Nat.mul_comm]
        omega
    intro P Q h
    have hP : P.val < 256 ^ 32 := lt_trans (ZMod.val_lt P) (by decide)
    have hQ : Q.val < 256 ^ 32 := lt_trans (ZMod.val_lt Q) (by decide)
    have h2 := congrArg beVal h
    rw [hval, hval, Nat.mod_eq_of_lt hP, Nat.mod_eq_of_lt hQ] at h2
    exact ZMod.val_injective _ h2
  frombytes_tobytes := by
    have hlen : ∀ n x : Nat, (beBytes n x).length = n := by
      intro n x
      induction n with
      | zero => rfl
      | succ n ih => simp [beBytes, ih]
    have hval : ∀ n x : Nat, beVal (beBytes n x) = x % 256 ^ n := by
      intro n x
      induction n with
      | zero => simp [beBytes, beVal, Nat.mod_one]
      | succ n ih =>
        simp only [beBytes, beVal, ih, hlen]
        rw [pow_succ, Nat.mod_mul, Nat.mul_comm]
        omega
    intro P
    have hP : P.val < 256 ^ 32 := lt_trans (ZMod.val_lt P) (by decide)
    have h1 : beVal (beBytes 32 P.val) = P.val := by
      rw [hval, Nat.mod_eq_of_lt hP]
    simp only [h1, ZMod.val_lt P, if_true, ZMod.natCast_zmod_val]
  key_zero_ne_key_B := by
    have h0 : (0 : ZMod toyQ).val = 0 := ZMod.val_zero
    have h1 : ((toyG : ℕ) : ZMod toyQ).val = toyG := ZMod.val_natCast_of_lt (by decide)
    simp only [h0, h1]
    decide

/-! ## The table loader -/

/-- The macro `BATCH_SIZE` defined in the body of `epir_ecelgamal_load_mg`. -/
def BATCH_SIZE : Nat := 1 <<< 10

/-- Modelled from the spec: a `FILE` opened on a table file, taken as the sequence of
the complete 36-byte entries it holds, with the read position counted in entries;
`requests` lists the element counts `fread` has been asked for, oldest first. -/
structure FILE where
  entries : List epir_mG_t
  pos : Nat
  requests : List Nat

/-- Modelled from the spec: `fopen(path_, "r")`, where `file` is what the path, given
or default, holds; `none` is the C `NULL`. -/
def fopen (file : Option (List epir_mG_t)) : Option FILE :=
  file.map (fun entries => { entries := entries, pos := 0, requests := [] })

/-- Modelled from the spec: `fread(ptr, sizeof(epir_mG_t), nmemb, fp)`, which delivers
the next `min(nmemb, remaining)` entries and advances the position by as many. -/
def fread (nmemb : Nat) (fp : FILE) : List epir_mG_t × FILE :=
  let got := (fp.entries.drop fp.pos).take nmemb
  (got, { fp with pos := fp.pos + got.length, requests := fp.requests ++ [nmemb] })

/-- The loop `for(;;)` of `epir_ecelgamal_load_mg`, one iteration per unit of fuel; the
entries read are stored from `&mG[elemsRead]` on. -/
def load_mg_loop (mmax_ : Nat) :
    Nat → List epir_mG_t → Nat → FILE → Except Fault (List epir_mG_t × Nat × FILE)
  | 0, _, _, _ => .error .fuel
  | fuel + 1, mG, elemsRead, fp =>
    let left := (mmax_ + U64 - elemsRead) % U64
    let (got, fp) := fread (if BATCH_SIZE < left then BATCH_SIZE else left) fp
    let read := got.length
    if elemsRead + read ≤ mG.length then
      let mG := mG.take elemsRead ++ got ++ mG.drop (elemsRead + read)
      let elemsRead := (elemsRead + read) % U64
      if read < BATCH_SIZE then .ok (mG, elemsRead, fp)
      else load_mg_loop mmax_ fuel mG elemsRead fp
    else .error .out_of_bounds

/-- The function `epir_ecelgamal_load_mg`: the array after the call, the returned count
and the element counts passed to `fread`. -/
def epir_ecelgamal_load_mg (fuel : Nat) (mG : List epir_mG_t) (mmax : Nat)
    (file : Option (List epir_mG_t)) : Except Fault (List epir_mG_t × Nat × List Nat) :=
  let mmax_ := if mmax = 0 then EPIR_DEFAULT_MG_MAX else mmax
  match fopen file with
  | none => .ok (mG, 0, [])
  | some fp => do
    let (mG, elemsRead, fp) ← load_mg_loop mmax_ fuel mG 0 fp
    .ok (mG, elemsRead, fp.requests)

/-! ## The builder before sorting -/

/-- The body of `epir_ecelgamal_mg_generate` up to the call of
`epir_ecelgamal_mg_generate_sort`: the prepare stage, then the parallel region. The
result is the context, the unsorted array and the callback record. -/
def mg_generate_stages (C : Curve) (fuel : Nat) (omp_threads : Nat)
    (mG : List epir_mG_t) (mmax : Nat) (cb : Bool) :
    Except Fault (epir_ecelgamal_mg_generate_context C × List epir_mG_t × mg_cb_data) := do
  let mG_p3 : List C.Pt := List.replicate omp_threads 0
  let cb_data_ : mg_cb_data := { points_computed := 0, cb := cb, calls := [] }
  let ctx : epir_ecelgamal_mg_generate_context C := { mmax := mmax, tG_precomp := 0 }
  let (ctx, mG, mG_p3, cb_data_) ←
    epir_ecelgamal_mg_generate_prepare C ctx mG mG_p3 omp_threads (some mg_cb) cb_data_
  let (mG, _, cb_data_) ←
    mg_generate_parallel C fuel ctx mmax omp_threads omp_threads 0 (mG, mG_p3, cb_data_)
  .ok (ctx, mG, cb_data_)

/-- The serial table in the words of the specification: `mG[m] = (compress(m*G), m)` for
every `m` below `mmax`. -/
def serial_table (C : Curve) (mmax : Nat) : List epir_mG_t :=
  (List.range mmax).map (fun m => ⟨C.tobytes (m • C.B), m⟩)

/-- The callback record after `k` more calls of `mg_cb`. -/
def cb_advance (d : mg_cb_data) (k : Nat) : mg_cb_data :=
  { points_computed := d.points_computed + k, cb := d.cb,
    calls := d.calls ++ (List.range k).map (fun i => d.points_computed + i + 1) }

/-- The number of iterations of a compute lane that starts at the index `i`: the indices
`i`, `i + T`, `i + 2T`, … below `mmax`. -/
def lane_count (T mmax i : Nat) : Nat :=
  if i < mmax then (mmax - 1 - i) / T + 1 else 0

/-- The number of iterations of the compute lanes `0, …, id - 1` together. -/
def lanes_before (T mmax id : Nat) : Nat :=
  (mmax / T - 1) * id + min (mmax % T) id

/-! ## The decoder's status -/

/-- The facade `C` with another status reported by the decoder, the decoded point left
as it is; a decoder accepts every compressed point, so `st` is `0` on those. -/
def Curve.with_status (C : Curve) (st : List Nat → Int)
    (hst : ∀ P, st (C.tobytes P) = 0) : Curve :=
  { C with
    frombytes := fun s => (st s, (C.frombytes s).2)
    frombytes_tobytes := fun P => by
      show (st (C.tobytes P), (C.frombytes (C.tobytes P)).2) = (0, P)
      rw [hst, C.frombytes_tobytes] }

/-- The field prime of Ed25519, `2^255 - 19`. -/
def ed25519_p : Nat := 2 ^ 255 - 19

/-- The curve constant `d = -121665/121666` of Ed25519 in the field. -/
def ed25519_d : Nat :=
  37095705934669439343138083508754565189542113879843219016388785533085940283555

/-- The power `b ^ e` in the field of Ed25519 by repeated squaring, one bit of `e` per
unit of fuel. -/
def fe25519_pow (b : Nat) : Nat → Nat → Nat
  | 0, _ => 1
  | fuel + 1, e =>
    if e = 0 then 1
    else
      let h := fe25519_pow b fuel (e / 2)
      if e % 2 = 1 then h ^ 2 % ed25519_p * b % ed25519_p else h ^ 2 % ed25519_p

/-- Modelled from the spec: whether `point_decompress` succeeds on 32 bytes for the
curve of the library, computed as libsodium's `ge25519_frombytes` (absent from the
sources) does: with `y` the little-endian value of the low 255 bits, `u = y^2 - 1` and
`v = d*y^2 + 1`, the candidate root `x = u*v^3*(u*v^7)^((p-5)/8)` has to satisfy
`v*x^2 = u` or `v*x^2 = -u`. -/
def ed25519_on_curve (s : List Nat) : Bool :=
  let y := leVal s % 2 ^ 255
  let u := (y * y + ed25519_p - 1) % ed25519_p
  let v := (ed25519_d * y * y + 1) % ed25519_p
  let v3 := v ^ 3 % ed25519_p
  let x := v3 ^ 2 * v * u % ed25519_p
  let x := fe25519_pow x 256 ((ed25519_p - 5) / 8)
  let x := x * v3 % ed25519_p * u % ed25519_p
  let vxx := x ^ 2 * v % ed25519_p
  vxx == u || (vxx + u) % ed25519_p == 0

/-! ## The group contract -/

theorem Curve.ell_smul_B (C : Curve) : C.ell • C.B = 0 :=
  (C.order_B C.ell).2 (dvd_refl _)

theorem Curve.mod_ell_smul_B (C : Curve) (x : Nat) : (x % C.ell) • C.B = x • C.B := by
  conv_rhs => rw [← Nat.div_add_mod x C.ell]
  rw [add_nsmul, mul_nsmul, C.ell_smul_B, smul_zero, zero_add]

theorem Curve.ell_pos (C : Curve) : 0 < C.ell :=
  lt_of_lt_of_le (by decide) C.ell_large

/-- Multiples of the base point below the group order are pairwise distinct. -/
theorem Curve.smul_B_inj (C : Curve) {a b : Nat} (ha : a < C.ell) (hb : b < C.ell)
    (h : a • C.B = b • C.B) : a = b := by
  wlog hab : a ≤ b with H
  · exact (H C hb ha h.symm (le_of_not_le hab)).symm
  have h1 : (b - a) • C.B = 0 := by
    have : (b - a) • C.B + a • C.B = b • C.B := by
      rw [← add_nsmul, Nat.sub_add_cancel hab]
    rw [h] at this
    exact add_right_cancel (this.trans (zero_add _).symm)
  have h2 := (C.order_B (b - a)).1 h1
  have h3 : b - a = 0 := Nat.eq_zero_of_dvd_of_lt h2 (by omega)
  omega

theorem tobytes_smul_inj (C : Curve) {a b : Nat} (ha : a < C.ell) (hb : b < C.ell)
    (h : C.tobytes (a • C.B) = C.tobytes (b • C.B)) : a = b :=
  C.smul_B_inj ha hb (C.tobytes_inj _ _ h)

/-! ## The two encryption paths -/

theorem encrypt_eq (C : Curve) (sk m : Nat) (r : Option Nat) (rnd : Nat) :
    epir_ecelgamal_encrypt C (epir_pubkey_from_privkey C sk) m r rnd
      = C.tobytes ((r.getD rnd) • C.B)
        ++ C.tobytes (((r.getD rnd) * sk + m % U64) • C.B) := by
  cases r <;>
  simp only [epir_ecelgamal_encrypt, epir_pubkey_from_privkey,
    crypto_scalarmult_ed25519_base_noclamp, ge25519_frombytes, C.frombytes_tobytes,
    ge25519_double_scalarmult_vartime, ge25519_scalarmult_base, ge25519_p3_tobytes,
    ge25519_tobytes, sc25519_load_uint64, crypto_core_ed25519_scalar_random, Option.getD,
    add_nsmul, mul_nsmul']

theorem encrypt_fast_eq (C : Curve) (sk m : Nat) (r : Option Nat) (rnd : Nat) :
    epir_ecelgamal_encrypt_fast C sk m r rnd
      = C.tobytes ((r.getD rnd) • C.B)
        ++ C.tobytes (((r.getD rnd) * sk + m % U64) • C.B) := by
  cases r <;>
  simp only [epir_ecelgamal_encrypt_fast, sc25519_muladd, ge25519_scalarmult_base,
    ge25519_p3_tobytes, sc25519_load_uint64, crypto_core_ed25519_scalar_random, Option.getD,
    C.mod_ell_smul_B]

theorem take_tobytes_append (C : Curve) (P : C.Pt) (l : List Nat) :
    (C.tobytes P ++ l).take EPIR_POINT_SIZE = C.tobytes P := by
  rw [List.take_append_of_le_length (by rw [C.tobytes_length]; rfl)]
  exact List.take_of_length_le (by rw [C.tobytes_length]; exact le_of_eq rfl)

theorem drop_tobytes_append (C : Curve) (P : C.Pt) (l : List Nat) :
    (C.tobytes P ++ l).drop EPIR_POINT_SIZE = l := by
  have h : EPIR_POINT_SIZE = (C.tobytes P).length := by rw [C.tobytes_length]; rfl
  rw [h, List.drop_left]

theorem take_tobytes (C : Curve) (P : C.Pt) :
    (C.tobytes P).take EPIR_POINT_SIZE = C.tobytes P :=
  List.take_of_length_le (by rw [C.tobytes_length]; exact le_of_eq rfl)

/-- Decrypting the cipher `(r*B, (r*sk + m)*B)` searches the table for `m*B`. -/
theorem decrypt_cipher (C : Curve) (fuel sk r m : Nat) (mG : List epir_mG_t) (mmax : Nat) :
    epir_ecelgamal_decrypt C fuel sk
        (C.tobytes (r • C.B) ++ C.tobytes ((r * sk + m) • C.B)) mG mmax
      = interpolation_search fuel (C.tobytes (m • C.B)) mG mmax := by
  have h : (r * sk + m) • C.B - sk • r • C.B = m • C.B := by
    rw [add_nsmul, mul_nsmul, add_sub_cancel_left]
  simp only [epir_ecelgamal_decrypt, ge25519_frombytes, ge25519_scalarmult, ge25519_sub_p3_p3,
    ge25519_p3_tobytes, take_tobytes_append, drop_tobytes_append, take_tobytes,
    C.frombytes_tobytes, h]

/-! ## Byte strings -/


theorem Curve.tobytes_isPoint (C : Curve) (P : C.Pt) : IsPoint (C.tobytes P) :=
  ⟨C.tobytes_length P, C.tobytes_byte P⟩

theorem beVal_lt (l : List Nat) (h : ∀ b ∈ l, b < 256) : beVal l < 256 ^ l.length := by
  induction l with
  | nil => simp [beVal]
  | cons x xs ih =>
    have hx : x < 256 := h x (List.mem_cons_self _ _)
    have hxs := ih (fun b hb => h b (List.mem_cons_of_mem _ hb))
    simp only [beVal, List.length_cons, pow_succ]
    nlinarith

theorem beVal_append (l1 l2 : List Nat) :
    beVal (l1 ++ l2) = beVal l1 * 256 ^ l2.length + beVal l2 := by
  induction l1 with
  | nil => simp [beVal]
  | cons x xs ih =>
    simp only [List.cons_append, beVal, ih, List.length_append, pow_add, List.append_eq]
    ring

theorem beVal_inj : ∀ (a b : List Nat), a.length = b.length → (∀ x ∈ a, x < 256) →
    (∀ x ∈ b, x < 256) → beVal a = beVal b → a = b
  | [], [], _, _, _, _ => rfl
  | [], _ :: _, h, _, _, _ => by simp at h
  | _ :: _, [], h, _, _, _ => by simp at h
  | x :: xs, y :: ys, hl, ha, hb, hv => by
    have hl2 : xs.length = ys.length := by simpa using hl
    have hx : x < 256 := ha x (List.mem_cons_self _ _)
    have hy : y < 256 := hb y (List.mem_cons_self _ _)
    have h1 := beVal_lt xs (fun b hb => ha b (List.mem_cons_of_mem _ hb))
    have h2 := beVal_lt ys (fun b hb2 => hb b (List.mem_cons_of_mem _ hb2))
    simp only [beVal, hl2] at hv
    rw [hl2] at h1
    have hxy : x = y := by
      rcases Nat.lt_trichotomy x y with h | h | h
      · exfalso
        have : (x + 1) * 256 ^ ys.length ≤ y * 256 ^ ys.length := Nat.mul_le_mul_right _ h
        rw [Nat.add_mul] at this
        omega
      · exact h
      · exfalso
        have : (y + 1) * 256 ^ ys.length ≤ x * 256 ^ ys.length := Nat.mul_le_mul_right _ h
        rw [Nat.add_mul] at this
        omega
    subst hxy
    have := beVal_inj xs ys hl2 (fun b hb => ha b (List.mem_cons_of_mem _ hb))
      (fun b hb2 => hb b (List.mem_cons_of_mem _ hb2)) (by omega)
    rw [this]

/-- The sign `memcmp` returns is the comparison of the big-endian values. -/
theorem memcmp_spec : ∀ (n : Nat) (a b : List Nat), a.length = n → b.length = n →
    (∀ x ∈ a, x < 256) → (∀ x ∈ b, x < 256) →
    memcmp a b n = if beVal a < beVal b then -1 else if beVal b < beVal a then 1 else 0
  | 0, a, b, ha, hb, _, _ => by
    rw [List.length_eq_zero] at ha hb
    subst ha; subst hb
    simp [memcmp]
  | n + 1, [], _, ha, _, _, _ => by simp at ha
  | n + 1, _ :: _, [], _, hb, _, _ => by simp at hb
  | n + 1, x :: xs, y :: ys, ha, hb, hxa, hyb => by
    have hl1 : xs.length = n := by simpa using ha
    have hl2 : ys.length = n := by simpa using hb
    have hxs : ∀ b ∈ xs, b < 256 := fun b hb => hxa b (List.mem_cons_of_mem _ hb)
    have hys : ∀ b ∈ ys, b < 256 := fun b hb2 => hyb b (List.mem_cons_of_mem _ hb2)
    have h1 := beVal_lt xs hxs
    have h2 := beVal_lt ys hys
    rw [hl1] at h1
    rw [hl2] at h2
    have ih := memcmp_spec n xs ys hl1 hl2 hxs hys
    simp only [memcmp, List.headD_cons, List.tail_cons, beVal, hl1, hl2]
    rcases Nat.lt_trichotomy x y with h | h | h
    · have : (x + 1) * 256 ^ n ≤ y * 256 ^ n := Nat.mul_le_mul_right _ h
      rw [Nat.add_mul] at this
      rw [if_pos h, if_pos (by omega)]
    · subst h
      rw [if_neg (lt_irrefl _), if_neg (lt_irrefl _), ih]
      simp only [Nat.add_lt_add_iff_left]
    · have : (y + 1) * 256 ^ n ≤ x * 256 ^ n := Nat.mul_le_mul_right _ h
      rw [Nat.add_mul] at this
      rw [if_neg (by omega), if_pos h, if_neg (by omega), if_pos (by omega)]

theorem memcmp_point {a b : List Nat} (ha : IsPoint a) (hb : IsPoint b) :
    memcmp a b EPIR_POINT_SIZE
      = if beVal a < beVal b then -1 else if beVal b < beVal a then 1 else 0 :=
  memcmp_spec 32 a b ha.1 hb.1 ha.2 hb.2

theorem memcmp_lt_iff {a b : List Nat} (ha : IsPoint a) (hb : IsPoint b) :
    memcmp a b EPIR_POINT_SIZE < 0 ↔ beVal a < beVal b := by
  rw [memcmp_point ha hb]
  split_ifs <;> simp_all

theorem memcmp_gt_iff {a b : List Nat} (ha : IsPoint a) (hb : IsPoint b) :
    0 < memcmp a b EPIR_POINT_SIZE ↔ beVal b < beVal a := by
  rw [memcmp_point ha hb]
  split_ifs <;> simp_all
  omega

theorem memcmp_le_iff {a b : List Nat} (ha : IsPoint a) (hb : IsPoint b) :
    memcmp a b EPIR_POINT_SIZE ≤ 0 ↔ beVal a ≤ beVal b := by
  rw [memcmp_point ha hb]
  split_ifs <;> simp_all
  omega

theorem isPoint_eq_of_beVal {a b : List Nat} (ha : IsPoint a) (hb : IsPoint b)
    (h : beVal a = beVal b) : a = b :=
  beVal_inj a b (ha.1.trans hb.1.symm) ha.2 hb.2 h

/-- On well-formed points `load_uint32_t` is the top 32 bits of the big-endian value. -/
theorem load_uint32_t_eq {p : List Nat} (hp : IsPoint p) :
    load_uint32_t p = beVal p / 256 ^ 28 := by
  obtain ⟨hl, hb⟩ := hp
  match p, hl, hb with
  | a0 :: a1 :: a2 :: a3 :: rest, hl, hb =>
    have h0 : a0 < 256 := hb a0 (by simp)
    have h1 : a1 < 256 := hb a1 (by simp)
    have h2 : a2 < 256 := hb a2 (by simp)
    have h3 : a3 < 256 := hb a3 (by simp)
    have hr : rest.length = 28 := by simpa using hl
    have hrest := beVal_lt rest (fun b hb2 => hb b (by simp [hb2]))
    rw [hr] at hrest
    have e : beVal (a0 :: a1 :: a2 :: a3 :: rest)
        = (a0 * 2 ^ 24 + a1 * 2 ^ 16 + a2 * 2 ^ 8 + a3) * 256 ^ 28 + beVal rest := by
      simp only [beVal, List.length_cons, hr]
      ring
    rw [e, Nat.add_comm _ (beVal rest), Nat.add_mul_div_right _ _ (by positivity),
      Nat.div_eq_of_lt hrest, Nat.zero_add]
    simp only [load_uint32_t, List.getD_cons_zero, List.getD_cons_succ, U32, Nat.shiftLeft_eq,
      Nat.pow_zero, Nat.mul_one]
    have e0 : a0 % 2 ^ 32 = a0 := Nat.mod_eq_of_lt (by omega)
    have e1 : a1 % 2 ^ 32 = a1 := Nat.mod_eq_of_lt (by omega)
    have e2 : a2 % 2 ^ 32 = a2 := Nat.mod_eq_of_lt (by omega)
    have e3 : a3 % 2 ^ 32 = a3 := Nat.mod_eq_of_lt (by omega)
    have f0 : a0 * 2 ^ 24 % 2 ^ 32 = 2 ^ 24 * a0 := by
      rw [Nat.mod_eq_of_lt (by omega), Nat.mul_comm]
    have f1 : a1 * 2 ^ 16 % 2 ^ 32 = 2 ^ 16 * a1 := by
      rw [Nat.mod_eq_of_lt (by omega), Nat.mul_comm]
    have f2 : a2 * 2 ^ 8 % 2 ^ 32 = 2 ^ 8 * a2 := by
      rw [Nat.mod_eq_of_lt (by omega), Nat.mul_comm]
    simp only [e0, e1, e2, e3, f0, f1, f2, Nat.mod_mod]
    rw [Nat.lor_assoc, Nat.lor_assoc, ← Nat.mul_add_lt_is_or (by omega : a3 < 2 ^ 8),
      ← Nat.mul_add_lt_is_or (by omega : 2 ^ 8 * a2 + a3 < 2 ^ 16),
      ← Nat.mul_add_lt_is_or (by omega : 2 ^ 16 * a1 + (2 ^ 8 * a2 + a3) < 2 ^ 24)]
    omega

theorem load_uint32_t_lt {p : List Nat} (hp : IsPoint p) : load_uint32_t p < U32 := by
  rw [load_uint32_t_eq hp, Nat.div_lt_iff_lt_mul (by positivity)]
  have := beVal_lt p hp.2
  rw [hp.1] at this
  calc beVal p < 256 ^ 32 := this
    _ = U32 * 256 ^ 28 := by norm_num [U32]

theorem load_uint32_t_mono {a b : List Nat} (ha : IsPoint a) (hb : IsPoint b)
    (h : beVal a ≤ beVal b) : load_uint32_t a ≤ load_uint32_t b := by
  rw [load_uint32_t_eq ha, load_uint32_t_eq hb]
  exact Nat.div_le_div_right h

/-! ## Sorted tables and the search for a stored point -/


theorem SortedTable.entry_isPoint {mG : List epir_mG_t} (hs : SortedTable mG) {i : Nat}
    {e : epir_mG_t} (h : mG[i]? = some e) : IsPoint e.point :=
  hs.1 e (List.getElem?_mem h)

theorem SortedTable.val_lt {mG : List epir_mG_t} (hs : SortedTable mG) {i j : Nat}
    {a b : epir_mG_t} (hij : i < j) (ha : mG[i]? = some a) (hb : mG[j]? = some b) :
    beVal a.point < beVal b.point := by
  obtain ⟨hi, rfl⟩ := List.getElem?_eq_some.1 ha
  obtain ⟨hj, rfl⟩ := List.getElem?_eq_some.1 hb
  have := (List.pairwise_iff_getElem.1 hs.2) i j hi hj hij
  exact (memcmp_lt_iff (hs.entry_isPoint ha) (hs.entry_isPoint hb)).1 this

theorem SortedTable.key_le {mG : List epir_mG_t} (hs : SortedTable mG) {i j : Nat}
    {a b : epir_mG_t} (hij : i ≤ j) (ha : mG[i]? = some a) (hb : mG[j]? = some b) :
    load_uint32_t a.point ≤ load_uint32_t b.point := by
  rcases Nat.eq_or_lt_of_le hij with h | h
  · subst h
    rw [ha] at hb
    cases hb
    exact le_refl _
  · exact load_uint32_t_mono (hs.entry_isPoint ha) (hs.entry_isPoint hb) (le_of_lt (hs.val_lt h ha hb))

/-- The probe index of one iteration, when the cached keys bracket the target key. -/
theorem probe_bounds {imin imax left right my : Nat} (h1 : imin ≤ imax) (h2 : imax < U32)
    (hl : left ≤ my) (hr : my ≤ right) (hlr : left < right) (hR : right < U32) :
    (right + U32 - left) % U32 ≠ 0 ∧
    ∃ imid,
      (imin + ((imax - imin) * ((my + U32 - left) % U32) % U64)
          / ((right + U32 - left) % U32)) % U64 = imid ∧
      imin ≤ imid ∧ imid ≤ imax ∧ (my = left → imid = imin) ∧ (my = right → imid = imax) := by
  have hU : U32 = 2 ^ 32 := rfl
  have hden : (right + U32 - left) % U32 = right - left := by
    rw [show right + U32 - left = (right - left) + U32 by omega, Nat.add_mod_right]
    exact Nat.mod_eq_of_lt (by omega)
  have hnum : (my + U32 - left) % U32 = my - left := by
    rw [show my + U32 - left = (my - left) + U32 by omega, Nat.add_mod_right]
    exact Nat.mod_eq_of_lt (by omega)
  have hD : imax - imin < 2 ^ 32 := by omega
  have hN : my - left < 2 ^ 32 := by omega
  have hprod : (imax - imin) * (my - left) < U64 := by
    have : (imax - imin) * (my - left) < 2 ^ 32 * 2 ^ 32 :=
      Nat.mul_lt_mul'' hD hN
    calc (imax - imin) * (my - left) < 2 ^ 32 * 2 ^ 32 := this
      _ = U64 := by norm_num [U64]
  have hX : (imax - imin) * (my - left) / (right - left) ≤ imax - imin := by
    apply Nat.div_le_of_le_mul
    rw [Nat.mul_comm (right - left)]
    exact Nat.mul_le_mul_left _ (by omega)
  have hz : my = left → (imax - imin) * (my - left) / (right - left) = 0 := by
    intro h
    rw [h, Nat.sub_self, Nat.mul_zero, Nat.zero_div]
  have hfull : my = right → (imax - imin) * (my - left) / (right - left) = imax - imin := by
    intro h
    rw [h]
    exact Nat.mul_div_cancel _ (by omega)
  have hmod : (imin + ((imax - imin) * ((my + U32 - left) % U32) % U64)
      / ((right + U32 - left) % U32)) % U64
      = imin + (imax - imin) * (my - left) / (right - left) := by
    rw [hden, hnum, Nat.mod_eq_of_lt hprod]
    generalize (imax - imin) * (my - left) / (right - left) = X at hX
    apply Nat.mod_eq_of_lt
    have : (2 : Nat) ^ 32 < U64 := by norm_num [U64]
    omega
  rw [hmod]
  generalize (imax - imin) * (my - left) / (right - left) = X at hX hz hfull
  exact ⟨by omega, imin + X, rfl, by omega, by omega,
    fun h => by have := hz h; omega, fun h => by have := hfull h; omega⟩

/-- The loop invariant of `interpolation_search` for a target stored at index `t`:
the range contains `t` and the cached keys strictly bracket it. -/
theorem search_loop_found (mG : List epir_mG_t) (hs : SortedTable mG) (hlen : mG.length ≤ U32)
    (t : Nat) (et : epir_mG_t) (het : mG[t]? = some et) :
    ∀ (fuel imin imax left right : Nat) (ei ea : epir_mG_t),
      imin ≤ t → t ≤ imax → imax - imin < fuel →
      mG[imin]? = some ei → mG[imax]? = some ea →
      left ≤ load_uint32_t ei.point → load_uint32_t ea.point ≤ right →
      left < right → right < U32 →
      interpolation_search_loop et.point mG (load_uint32_t et.point) fuel imin imax left right
        = .ok (toInt32 et.scalar) := by
  intro fuel
  induction fuel with
  | zero => intro imin imax left right ei ea _ _ h; omega
  | succ fuel ih =>
    intro imin imax left right ei ea h1 h2 hf hei hea hl hr hlr hR
    have himax : imax < mG.length := (List.getElem?_eq_some.1 hea).1
    have hmyl : left ≤ load_uint32_t et.point := le_trans hl (hs.key_le h1 hei het)
    have hmyr : load_uint32_t et.point ≤ right := le_trans (hs.key_le h2 het hea) hr
    obtain ⟨hden, imid, hmid, hge, hle, hz, hfull⟩ :=
      probe_bounds (le_trans h1 h2) (lt_of_lt_of_le himax hlen) hmyl hmyr hlr hR
    rw [interpolation_search_loop, if_pos (le_trans h1 h2)]
    simp only [hmid]
    rw [if_neg hden]
    obtain ⟨e, hem⟩ : ∃ e, mG[imid]? = some e :=
      ⟨_, List.getElem?_eq_getElem (lt_of_le_of_lt hle himax)⟩
    rw [hem]
    simp only
    have hU : (2 : Nat) ^ 32 < U64 := by norm_num [U64]
    have hU32 : U32 = 2 ^ 32 := rfl
    rcases Nat.lt_trichotomy imid t with hlt | heq | hgt
    · -- the probe lies below the target
      have hv := hs.val_lt hlt hem het
      have hc := (memcmp_lt_iff (hs.entry_isPoint hem) (hs.entry_isPoint het)).2 hv
      rw [if_pos hc]
      have hnext : (imid + 1) % U64 = imid + 1 := Nat.mod_eq_of_lt (by omega)
      rw [hnext]
      obtain ⟨en, hen⟩ : ∃ e, mG[imid + 1]? = some e :=
        ⟨_, List.getElem?_eq_getElem (by omega)⟩
      refine ih (imid + 1) imax _ right en ea (by omega) h2 (by omega) hen hea
        (hs.key_le (Nat.le_succ _) hem hen) hr ?_ hR
      have hk := load_uint32_t_mono (hs.entry_isPoint hem) (hs.entry_isPoint het) (le_of_lt hv)
      rcases Nat.lt_or_ge (load_uint32_t et.point) right with h | h
      · omega
      · have := hfull (le_antisymm hmyr h)
        omega
    · -- the probe hits the target
      have hpe : e = et := by
        rw [heq] at hem
        rw [hem] at het
        exact Option.some.inj het
      rw [hpe]
      have hc : memcmp et.point et.point EPIR_POINT_SIZE = 0 := by
        rw [memcmp_point (hs.entry_isPoint het) (hs.entry_isPoint het)]
        simp
      rw [hc]
      simp
    · -- the probe lies above the target
      have hv := hs.val_lt hgt het hem
      have hc := (memcmp_gt_iff (hs.entry_isPoint hem) (hs.entry_isPoint het)).2 hv
      rw [if_neg (by omega), if_pos hc]
      have hprev : (imid + U64 - 1) % U64 = imid - 1 := by
        rw [show imid + U64 - 1 = (imid - 1) + U64 by omega, Nat.add_mod_right]
        exact Nat.mod_eq_of_lt (by omega)
      rw [hprev]
      obtain ⟨ep, hep⟩ : ∃ e, mG[imid - 1]? = some e :=
        ⟨_, List.getElem?_eq_getElem (by omega)⟩
      refine ih imin (imid - 1) left _ ei ep h1 (by omega) (by omega) hei hep hl
        (hs.key_le (Nat.sub_le _ _) hep hem) ?_ (load_uint32_t_lt (hs.entry_isPoint hem))
      have hk := load_uint32_t_mono (hs.entry_isPoint het) (hs.entry_isPoint hem) (le_of_lt hv)
      rcases Nat.lt_or_ge left (load_uint32_t et.point) with h | h
      · omega
      · have := hz (le_antisymm h hmyl)
        omega

/-- On a strictly sorted table of at most `2^32` entries whose first and last
points differ in their first four bytes, `interpolation_search` returns the
scalar stored with any point of the table. -/
theorem interpolation_search_found (mG : List epir_mG_t) (hs : SortedTable mG)
    (hlen : mG.length ≤ U32) (e0 e1 : epir_mG_t) (h0 : mG[0]? = some e0)
    (h1 : mG[mG.length - 1]? = some e1)
    (hkey : load_uint32_t e0.point ≠ load_uint32_t e1.point)
    (t : Nat) (et : epir_mG_t) (het : mG[t]? = some et) (fuel : Nat) (hf : mG.length ≤ fuel) :
    interpolation_search fuel et.point mG mG.length = .ok (toInt32 et.scalar) := by
  have htl : t < mG.length := (List.getElem?_eq_some.1 het).1
  have hU : (2 : Nat) ^ 32 < U64 := by norm_num [U64]
  have hU32 : U32 = 2 ^ 32 := rfl
  have hm : (mG.length + U64 - 1) % U64 = mG.length - 1 := by
    rw [show mG.length + U64 - 1 = (mG.length - 1) + U64 by omega, Nat.add_mod_right]
    exact Nat.mod_eq_of_lt (by omega)
  unfold interpolation_search
  simp only [hm, h0, h1]
  have hle := hs.key_le (Nat.zero_le _) h0 h1
  exact search_loop_found mG hs hlen t et het fuel 0 (mG.length - 1) _ _ e0 e1 (Nat.zero_le _)
    (by omega) (by omega) h0 h1 (le_refl _) (le_refl _) (lt_of_le_of_ne hle hkey)
    (load_uint32_t_lt (hs.entry_isPoint h1))

/-! ## The mG table builder -/



theorem load_ok {α : Type} {buf : List α} {i : Nat} {v : α} (h : buf[i]? = some v) :
    load buf i = .ok v := by
  simp [load, h]

theorem store_ok {α : Type} {buf : List α} {i : Nat} (v : α) (h : i < buf.length) :
    store buf i v = .ok (buf.set i v) := by
  simp [store, h]

theorem mg_cb_ok {d : mg_cb_data} (h : d.cb = true) :
    ∃ d', mg_cb d = .ok d' ∧ d'.cb = true := by
  simp [mg_cb, h]

/-- The prepare loop extends the prefix of finished entries from `m` to `m + k`. -/
theorem mg_generate_prepare_loop_spec (C : Curve) :
    ∀ (k m : Nat) (mG : List epir_mG_t) (mG_p3 : List C.Pt) (d : mg_cb_data),
      1 ≤ m → m + k ≤ mG.length → m + k ≤ mG_p3.length → d.cb = true →
      (∀ j, j < m → mG[j]? = some (mG_entry C j) ∧ mG_p3[j]? = some (j • C.B)) →
      ∃ mG' mG_p3' d',
        mg_generate_prepare_loop C C.B (some mg_cb) k m (mG, mG_p3, d) = .ok (mG', mG_p3', d') ∧
        mG'.length = mG.length ∧ mG_p3'.length = mG_p3.length ∧ d'.cb = true ∧
        (∀ j, j < m + k → mG'[j]? = some (mG_entry C j) ∧ mG_p3'[j]? = some (j • C.B)) := by
  intro k
  induction k with
  | zero =>
    intro m mG mG_p3 d _ _ _ hd hinv
    exact ⟨mG, mG_p3, d, rfl, rfl, rfl, hd, hinv⟩
  | succ k ih =>
    intro m mG mG_p3 d hm h1 h2 hd hinv
    obtain ⟨d1, hd1, hd1cb⟩ := mg_cb_ok hd
    have hprev := (hinv (m - 1) (by omega)).2
    have hset : (mG_p3.set m (m • C.B))[m]? = some (m • C.B) := by
      rw [List.getElem?_set_self (by omega)]
    have hsucc : (m - 1) • C.B + C.B = m • C.B := by
      rw [← succ_nsmul, Nat.sub_add_cancel hm]
    obtain ⟨mG', mG_p3', d', hrun, hl1, hl2, hcb, hfin⟩ :=
      ih (m + 1) (mG.set m ⟨C.tobytes (m • C.B), m % U32⟩) (mG_p3.set m (m • C.B)) d1
        (by omega) (by rw [List.length_set]; omega) (by rw [List.length_set]; omega) hd1cb
        (by
          intro j hj
          rcases Nat.lt_or_ge j m with h | h
          · rw [List.getElem?_set_ne (by omega), List.getElem?_set_ne (by omega)]
            exact hinv j h
          · have : j = m := by omega
            subst this
            rw [List.getElem?_set_self (by omega), List.getElem?_set_self (by omega)]
            exact ⟨rfl, rfl⟩)
    refine ⟨mG', mG_p3', d', ?_, by rw [hl1, List.length_set], by rw [hl2, List.length_set],
      hcb, fun j hj => hfin j (by omega)⟩
    rw [mg_generate_prepare_loop]
    simp only [load_ok hprev, ge25519_add_p3_precomp, store_ok _ (show m < mG_p3.length by omega),
      ge25519_p3_tobytes, store_ok _ (show m < mG.length by omega), call_cb, hd1,
      bind, Except.bind, hsucc, load_ok hset]
    exact hrun

/-- The prepare stage fills the first `n_threads` entries and leaves `n_threads * B`
in the context. -/
theorem mg_generate_prepare_spec (C : Curve) (ctx : epir_ecelgamal_mg_generate_context C)
    (mG : List epir_mG_t) (mG_p3 : List C.Pt) (T : Nat) (d : mg_cb_data)
    (hT1 : 1 ≤ T) (hT : T ≤ U32) (hlen : T ≤ mG.length) (hp3 : mG_p3.length = T)
    (hd : d.cb = true) :
    ∃ mG' mG_p3' d',
      epir_ecelgamal_mg_generate_prepare C ctx mG mG_p3 T (some mg_cb) d
        = .ok ({ ctx with tG_precomp := T • C.B }, mG', mG_p3', d') ∧
      mG'.length = mG.length ∧ mG_p3'.length = T ∧ d'.cb = true ∧
      (∀ j, j < T → mG'[j]? = some (mG_entry C j) ∧ mG_p3'[j]? = some (j • C.B)) := by
  obtain ⟨d1, hd1, hd1cb⟩ := mg_cb_ok hd
  have hset : (mG_p3.set 0 (0 : C.Pt))[0]? = some 0 := by
    rw [List.getElem?_set_self (by omega)]
  obtain ⟨mG', mG_p3', d', hrun, hl1, hl2, hcb, hfin⟩ :=
    mg_generate_prepare_loop_spec C (T - 1) 1 (mG.set 0 ⟨C.tobytes 0, 0⟩) (mG_p3.set 0 0) d1
      (le_refl _) (by rw [List.length_set]; omega) (by rw [List.length_set]; omega) hd1cb
      (by
        intro j hj
        have : j = 0 := by omega
        subst this
        rw [List.getElem?_set_self (by omega), List.getElem?_set_self (by omega)]
        simp [mG_entry])
  have hT' : 1 + (T - 1) = T := by omega
  rw [hT'] at hfin
  have hlast : mG_p3'[(T + U32 - 1) % U32]? = some ((T - 1) • C.B) := by
    have : (T + U32 - 1) % U32 = T - 1 := by
      rw [show T + U32 - 1 = (T - 1) + U32 by omega, Nat.add_mod_right]
      exact Nat.mod_eq_of_lt (by omega)
    rw [this]
    exact (hfin (T - 1) (by omega)).2
  have hsucc : (T - 1) • C.B + C.B = T • C.B := by
    rw [← succ_nsmul, Nat.sub_add_cancel hT1]
  refine ⟨mG', mG_p3', d', ?_, by rw [hl1, List.length_set],
    by rw [hl2, List.length_set, hp3], hcb, hfin⟩
  unfold epir_ecelgamal_mg_generate_prepare
  simp only [ge25519_p3_0, store_ok _ (show 0 < mG_p3.length by omega), load_ok hset,
    ge25519_p3_tobytes, store_ok _ (show 0 < mG.length by omega), call_cb, hd1,
    ge25519_scalarmult_base, ge25519_p3_to_precomp, one_nsmul, hrun, load_ok hlast,
    ge25519_add_p3_precomp, hsucc, bind, Except.bind]

/-- One compute lane, from the write of index `i = m * interval + offset` on: every
index `m' * interval + offset` below `mmax` with `m' ≥ m` receives its entry, and
no finished entry is disturbed. -/
theorem mg_generate_compute_spec (C : Curve) (ctx : epir_ecelgamal_mg_generate_context C)
    (mmax off T : Nat) (hT1 : 1 ≤ T) (hmm : mmax + T ≤ U64)
    (htG : ctx.tG_precomp = T • C.B) :
    ∀ (fuel m i : Nat) (mG : List epir_mG_t) (d : mg_cb_data),
      i = m * T + off → T ≤ i → i - T < mmax → mG.length = mmax → d.cb = true →
      mmax ≤ fuel + i →
      ∃ mG' P' d',
        epir_ecelgamal_mg_generate_compute C ctx mmax off T (some mg_cb) fuel m
          (mG, (i - T) • C.B, d) = .ok (mG', P', d') ∧
        mG'.length = mmax ∧ d'.cb = true ∧
        (∀ j, mG[j]? = some (mG_entry C j) → mG'[j]? = some (mG_entry C j)) ∧
        (∀ m', m ≤ m' → m' * T + off < mmax →
          mG'[m' * T + off]? = some (mG_entry C (m' * T + off))) := by
  have hU : (2 : Nat) ^ 32 < U64 := by norm_num [U64]
  have hU32 : U32 = 2 ^ 32 := rfl
  have hU64 : U64 = 2 ^ 64 := rfl
  intro fuel
  induction fuel with
  | zero =>
    intro m i mG d hi hTi hprev hlen hd hfuel
    have hidx : ((m * T) % U64 + off) % U64 = i := by
      have h1 : m * T % U64 = m * T := Nat.mod_eq_of_lt (by omega)
      rw [h1, ← hi]
      exact Nat.mod_eq_of_lt (by omega)
    refine ⟨mG, (i - T) • C.B, d, ?_, hlen, hd, fun j h => h, ?_⟩
    · rw [epir_ecelgamal_mg_generate_compute]
      simp only [hidx]
      rw [if_pos (by omega)]
    · intro m' hm' hlt
      have := Nat.mul_le_mul_right T hm'
      omega
  | succ fuel ih =>
    intro m i mG d hi hTi hprev hlen hd hfuel
    have hidx : ((m * T) % U64 + off) % U64 = i := by
      have h1 : m * T % U64 = m * T := Nat.mod_eq_of_lt (by omega)
      rw [h1, ← hi]
      exact Nat.mod_eq_of_lt (by omega)
    rcases Nat.lt_or_ge i mmax with hlt | hge
    · obtain ⟨d1, hd1, hd1cb⟩ := mg_cb_ok hd
      have hP : (i - T) • C.B + T • C.B = i • C.B := by
        rw [← add_nsmul, Nat.sub_add_cancel hTi]
      have hm1 : (m + 1) % U64 = m + 1 := by
        have : m * 1 ≤ m * T := Nat.mul_le_mul_left m hT1
        exact Nat.mod_eq_of_lt (by omega)
      have hi' : i + T = (m + 1) * T + off := by
        rw [Nat.add_mul, Nat.one_mul]
        omega
      obtain ⟨mG', P', d', hrun, hl, hcb, hkeep, hnew⟩ :=
        ih (m + 1) (i + T) (mG.set i (mG_entry C i)) d1 hi' (by omega) (by omega)
          (by rw [List.length_set, hlen]) hd1cb (by omega)
      have hiT : i + T - T = i := by omega
      rw [hiT] at hrun
      refine ⟨mG', P', d', ?_, hl, hcb, ?_, ?_⟩
      · rw [epir_ecelgamal_mg_generate_compute]
        simp only [hidx]
        rw [if_neg (by omega)]
        simp only [ge25519_add_p3_precomp, htG, hP, ge25519_p3_tobytes,
          store_ok _ (show i < mG.length by omega), call_cb, hd1, hm1, bind, Except.bind]
        exact hrun
      · intro j hj
        apply hkeep
        rcases eq_or_ne j i with h | h
        · subst h
          rw [List.getElem?_set_self (by omega)]
        · rw [List.getElem?_set_ne (Ne.symm h)]
          exact hj
      · intro m' hm' hlt'
        rcases Nat.eq_or_lt_of_le hm' with h | h
        · subst h
          rw [← hi]
          apply hkeep
          rw [List.getElem?_set_self (by omega)]
        · exact hnew m' h hlt'
    · refine ⟨mG, (i - T) • C.B, d, ?_, hlen, hd, fun j h => h, ?_⟩
      · rw [epir_ecelgamal_mg_generate_compute]
        simp only [hidx]
        rw [if_pos (by omega)]
      · intro m' hm' hlt
        have := Nat.mul_le_mul_right T hm'
        omega

/-- The parallel region: once every lane has run, all `mmax` entries are finished. -/
theorem mg_generate_parallel_spec (C : Curve) (fuel : Nat)
    (ctx : epir_ecelgamal_mg_generate_context C) (mmax T : Nat) (hT1 : 1 ≤ T)
    (hTm : T ≤ mmax) (hmm : mmax + T ≤ U64) (htG : ctx.tG_precomp = T • C.B)
    (hfuel : mmax ≤ fuel) :
    ∀ (k id : Nat) (mG : List epir_mG_t) (mG_p3 : List C.Pt) (d : mg_cb_data),
      id + k = T → mG.length = mmax → mG_p3.length = T → d.cb = true →
      (∀ j, j < mmax → (j < T ∨ j % T < id) → mG[j]? = some (mG_entry C j)) →
      (∀ j, id ≤ j → j < T → mG_p3[j]? = some (j • C.B)) →
      ∃ mG' mG_p3' d',
        mg_generate_parallel C fuel ctx mmax T k id (mG, mG_p3, d) = .ok (mG', mG_p3', d') ∧
        mG'.length = mmax ∧ d'.cb = true ∧
        (∀ j, j < mmax → mG'[j]? = some (mG_entry C j)) := by
  intro k
  induction k with
  | zero =>
    intro id mG mG_p3 d hid hlen _ hd hdone _
    refine ⟨mG, mG_p3, d, rfl, hlen, hd, fun j hj => hdone j hj (Or.inr ?_)⟩
    have : id = T := by omega
    rw [this]
    exact Nat.mod_lt _ (by omega)
  | succ k ih =>
    intro id mG mG_p3 d hid hlen hp3 hd hdone hpts
    have hidT : id < T := by omega
    have hload := hpts id (le_refl _) hidT
    obtain ⟨mG1, P1, d1, hrun1, hl1, hcb1, hkeep, hnew⟩ :=
      mg_generate_compute_spec C ctx mmax id T hT1 hmm htG fuel 1 (T + id) mG d
        (by rw [Nat.one_mul]) (by omega) (by omega) hlen hd (by omega)
    have hsub : T + id - T = id := by omega
    rw [hsub] at hrun1
    obtain ⟨mG', mG_p3', d', hrun, hl, hcb, hfin⟩ :=
      ih (id + 1) mG1 (mG_p3.set id P1) d1 (by omega) hl1 (by rw [List.length_set, hp3]) hcb1
        (by
          intro j hj hcase
          rcases hcase with h | h
          · exact hkeep j (hdone j hj (Or.inl h))
          · rcases Nat.lt_or_ge (j % T) id with h2 | h2
            · exact hkeep j (hdone j hj (Or.inr h2))
            · have hmod : j % T = id := by omega
              rcases Nat.lt_or_ge j T with h3 | h3
              · exact hkeep j (hdone j hj (Or.inl h3))
              · have hq : 1 ≤ j / T := (Nat.one_le_div_iff (by omega)).2 h3
                have hj' : j / T * T + id = j := by
                  rw [← hmod, Nat.mul_comm]
                  exact Nat.div_add_mod j T
                have := hnew (j / T) hq (by rw [hj']; exact hj)
                rw [hj'] at this
                exact this)
        (by
          intro j hj1 hj2
          rw [List.getElem?_set_ne (by omega)]
          exact hpts j (by omega) hj2)
    refine ⟨mG', mG_p3', d', ?_, hl, hcb, hfin⟩
    rw [mg_generate_parallel]
    simp only [load_ok hload, hrun1, store_ok _ (show id < mG_p3.length by omega), bind,
      Except.bind]
    exact hrun

theorem rawTable_length (C : Curve) (mmax : Nat) : (rawTable C mmax).length = mmax := by
  simp [rawTable]

theorem rawTable_getElem? (C : Curve) (mmax j : Nat) (hj : j < mmax) :
    (rawTable C mmax)[j]? = some (mG_entry C j) := by
  simp [rawTable, List.getElem?_map, List.getElem?_range hj]

/-- The builder: with `1 ≤ omp_threads ≤ mmax`, an array of `mmax` entries and a
non-null callback, `epir_ecelgamal_mg_generate` returns the sorted table of the
entries `(m*B, m mod 2^32)`, `m < mmax`. -/
theorem mg_generate_spec (C : Curve) (fuel T mmax : Nat) (mG : List epir_mG_t)
    (hT1 : 1 ≤ T) (hT : T ≤ U32) (hTm : T ≤ mmax) (hmm : mmax + T ≤ U64)
    (hlen : mG.length = mmax) (hfuel : mmax ≤ fuel) :
    ∃ d', epir_ecelgamal_mg_generate C fuel T mG mmax true
      = .ok (mG_table C mmax, d') := by
  obtain ⟨mG1, p31, d1, hrun1, hl1, hp1, hcb1, hfin1⟩ :=
    mg_generate_prepare_spec C ⟨mmax, 0⟩ mG (List.replicate T 0) T ⟨0, true, []⟩ hT1 hT
      (by omega) (List.length_replicate _ _) rfl
  obtain ⟨mG2, p32, d2, hrun2, hl2, hcb2, hfin2⟩ :=
    mg_generate_parallel_spec C fuel ⟨mmax, T • C.B⟩ mmax T hT1 hTm hmm rfl hfuel T 0 mG1 p31 d1
      (by omega) (by rw [hl1, hlen]) hp1 hcb1
      (by
        intro j _ hcase
        rcases hcase with h | h
        · exact (hfin1 j h).1
        · omega)
      (fun j _ hj => (hfin1 j hj).2)
  have htab : mG2 = rawTable C mmax := by
    apply List.ext_getElem?
    intro j
    rcases Nat.lt_or_ge j mmax with h | h
    · rw [hfin2 j h, rawTable_getElem? C mmax j h]
    · rw [List.getElem?_eq_none (by omega), List.getElem?_eq_none (by rw [rawTable_length]; omega)]
  refine ⟨d2, ?_⟩
  unfold epir_ecelgamal_mg_generate
  simp only [hrun1, hrun2, bind, Except.bind, epir_ecelgamal_mg_generate_sort, htab, mG_table]
  rw [List.take_of_length_le (by rw [rawTable_length]),
    List.drop_of_length_le (by rw [rawTable_length]), List.append_nil]

/-! ## The sort stage -/

theorem memcmp_range : ∀ (n : Nat) (a b : List Nat),
    memcmp a b n = -1 ∨ memcmp a b n = 0 ∨ memcmp a b n = 1
  | 0, _, _ => by simp [memcmp]
  | n + 1, a, b => by
    rw [memcmp]
    split_ifs
    · exact Or.inl rfl
    · exact Or.inr (Or.inr rfl)
    · exact memcmp_range n a.tail b.tail

theorem memcmp_total : ∀ (n : Nat) (a b : List Nat), memcmp a b n ≤ 0 ∨ memcmp b a n ≤ 0
  | 0, _, _ => by simp [memcmp]
  | n + 1, a, b => by
    rw [memcmp, memcmp]
    split_ifs <;> first
      | omega
      | exact memcmp_total n a.tail b.tail

theorem memcmp_trans : ∀ (n : Nat) (a b c : List Nat),
    memcmp a b n ≤ 0 → memcmp b c n ≤ 0 → memcmp a c n ≤ 0
  | 0, _, _, _ => by simp [memcmp]
  | n + 1, a, b, c => by
    rw [memcmp, memcmp, memcmp]
    intro h1 h2
    split_ifs at h1 h2 ⊢ <;> first
      | omega
      | exact memcmp_trans n a.tail b.tail c.tail h1 h2

theorem mem_rawTable {C : Curve} {mmax : Nat} {e : epir_mG_t} :
    e ∈ rawTable C mmax ↔ ∃ m, m < mmax ∧ e = mG_entry C m := by
  simp only [rawTable, List.mem_map, List.mem_range]
  constructor
  · rintro ⟨m, hm, rfl⟩; exact ⟨m, hm, rfl⟩
  · rintro ⟨m, hm, rfl⟩; exact ⟨m, hm, rfl⟩

/-- Sorting a list of well-formed entries with pairwise distinct points yields a
strictly ascending table. -/
theorem sortedTable_insertionSort (l : List epir_mG_t) (hp : ∀ e ∈ l, IsPoint e.point)
    (hd : (l.map (fun e => e.point)).Nodup) :
    SortedTable (l.insertionSort (fun x y => mG_compare x y ≤ 0)) := by
  haveI : IsTotal epir_mG_t (fun x y => mG_compare x y ≤ 0) :=
    ⟨fun x y => memcmp_total _ x.point y.point⟩
  haveI : IsTrans epir_mG_t (fun x y => mG_compare x y ≤ 0) :=
    ⟨fun x y z => memcmp_trans _ x.point y.point z.point⟩
  have hperm := List.perm_insertionSort (fun x y => mG_compare x y ≤ 0) l
  have hsorted := List.sorted_insertionSort (fun x y => mG_compare x y ≤ 0) l
  have hmem : ∀ e ∈ l.insertionSort (fun x y => mG_compare x y ≤ 0), IsPoint e.point :=
    fun e he => hp e (hperm.mem_iff.1 he)
  have hnd : ((l.insertionSort (fun x y => mG_compare x y ≤ 0)).map (fun e => e.point)).Nodup :=
    (List.Perm.nodup_iff (hperm.map _)).2 hd
  have hne : (l.insertionSort (fun x y => mG_compare x y ≤ 0)).Pairwise
      (fun x y => x.point ≠ y.point) := by
    rw [List.Nodup, List.pairwise_map] at hnd
    exact hnd
  refine ⟨hmem, ?_⟩
  have hboth := List.Pairwise.and hsorted hne
  refine List.Pairwise.imp_of_mem ?_ hboth
  intro x y hx hy hxy
  have h1 := (memcmp_le_iff (hmem x hx) (hmem y hy)).1 hxy.1
  apply (memcmp_lt_iff (hmem x hx) (hmem y hy)).2
  rcases Nat.lt_or_ge (beVal x.point) (beVal y.point) with h | h
  · exact h
  · exact absurd (isPoint_eq_of_beVal (hmem x hx) (hmem y hy) (le_antisymm h1 h)) hxy.2

theorem rawTable_isPoint (C : Curve) (mmax : Nat) : ∀ e ∈ rawTable C mmax, IsPoint e.point := by
  intro e he
  obtain ⟨m, _, rfl⟩ := mem_rawTable.1 he
  exact C.tobytes_isPoint _

theorem rawTable_nodup (C : Curve) (mmax : Nat) (h : mmax ≤ U64) :
    ((rawTable C mmax).map (fun e => e.point)).Nodup := by
  simp only [rawTable, List.map_map]
  refine List.Nodup.map_on ?_ (List.nodup_range mmax)
  intro a ha b hb hab
  rw [List.mem_range] at ha hb
  have hl := C.ell_large
  exact tobytes_smul_inj C (by omega) (by omega) hab


theorem mG_table_perm (C : Curve) (mmax : Nat) : (mG_table C mmax).Perm (rawTable C mmax) :=
  List.perm_insertionSort _ _

theorem mG_table_length (C : Curve) (mmax : Nat) : (mG_table C mmax).length = mmax := by
  rw [(mG_table_perm C mmax).length_eq, rawTable_length]

theorem mG_table_sorted (C : Curve) (mmax : Nat) (h : mmax ≤ U64) :
    SortedTable (mG_table C mmax) :=
  sortedTable_insertionSort _ (rawTable_isPoint C mmax) (rawTable_nodup C mmax h)

theorem mG_table_index (C : Curve) (mmax m : Nat) (hm : m < mmax) :
    ∃ t : Nat, (mG_table C mmax)[t]? = some (mG_entry C m) := by
  have : mG_entry C m ∈ mG_table C mmax :=
    (mG_table_perm C mmax).mem_iff.2 (mem_rawTable.2 ⟨m, hm, rfl⟩)
  obtain ⟨t, ht, hte⟩ := List.getElem_of_mem this
  exact ⟨t, (List.getElem?_eq_getElem ht).trans (congrArg some hte)⟩

/-- The first and the last point of a built table of at least two entries differ
in their first four bytes. -/
theorem mG_table_keys (C : Curve) (mmax : Nat) (h2 : 2 ≤ mmax) (h : mmax ≤ U64) :
    ∃ e0 e1, (mG_table C mmax)[0]? = some e0 ∧
      (mG_table C mmax)[(mG_table C mmax).length - 1]? = some e1 ∧
      load_uint32_t e0.point ≠ load_uint32_t e1.point := by
  have hs := mG_table_sorted C mmax h
  have hl := mG_table_length C mmax
  obtain ⟨e0, he0⟩ : ∃ e, (mG_table C mmax)[0]? = some e :=
    ⟨_, List.getElem?_eq_getElem (by omega)⟩
  obtain ⟨e1, he1⟩ : ∃ e, (mG_table C mmax)[(mG_table C mmax).length - 1]? = some e :=
    ⟨_, List.getElem?_eq_getElem (by omega)⟩
  refine ⟨e0, e1, he0, he1, ?_⟩
  intro heq
  obtain ⟨t0, ht0⟩ := mG_table_index C mmax 0 (by omega)
  obtain ⟨t1, ht1⟩ := mG_table_index C mmax 1 (by omega)
  have b0 := (List.getElem?_eq_some.1 ht0).1
  have b1 := (List.getElem?_eq_some.1 ht1).1
  have k0a := hs.key_le (Nat.zero_le t0) he0 ht0
  have k0b := hs.key_le (show t0 ≤ (mG_table C mmax).length - 1 by omega) ht0 he1
  have k1a := hs.key_le (Nat.zero_le t1) he0 ht1
  have k1b := hs.key_le (show t1 ≤ (mG_table C mmax).length - 1 by omega) ht1 he1
  apply C.key_zero_ne_key_B
  have e0' : (mG_entry C 0).point = C.tobytes 0 := by simp [mG_entry]
  have e1' : (mG_entry C 1).point = C.tobytes C.B := by simp [mG_entry]
  rw [e0'] at k0a k0b
  rw [e1'] at k1a k1b
  omega

/-- Searching a built table for `m*B`, `m < mmax`, returns the stored scalar. -/
theorem search_mG_table (C : Curve) (mmax m fuel : Nat) (h2 : 2 ≤ mmax) (hmm : mmax ≤ U32)
    (hm : m < mmax) (hf : mmax ≤ fuel) :
    interpolation_search fuel (C.tobytes (m • C.B)) (mG_table C mmax) mmax
      = .ok (toInt32 m) := by
  have hU : U32 ≤ U64 := by norm_num [U32, U64]
  obtain ⟨e0, e1, he0, he1, hk⟩ := mG_table_keys C mmax h2 (le_trans hmm hU)
  obtain ⟨t, ht⟩ := mG_table_index C mmax m hm
  have hl := mG_table_length C mmax
  have := interpolation_search_found (mG_table C mmax) (mG_table_sorted C mmax (le_trans hmm hU))
    (by rw [hl]; exact hmm) e0 e1 he0 he1 hk t _ ht fuel (by rw [hl]; exact hf)
  rw [hl] at this
  have hsc : toInt32 (mG_entry C m).scalar = toInt32 m := by
    simp [mG_entry, toInt32]
  rw [← hsc]
  exact this

/-! ## The selector pattern -/

/-- The inner loop writes the one-hot flags of one block and moves the offset
past it; no other byte changes. -/
theorem selector_create_choice_rows_spec (rows : Nat) :
    ∀ (k r : Nat) (cph : List Nat) (off : Nat),
      (off + k) * 64 ≤ cph.length → cph.length < U64 →
      ∃ cph', selector_create_choice_rows rows k r (cph, off) = .ok (cph', off + k) ∧
        cph'.length = cph.length ∧
        (∀ j, j < k → cph'[(off + j) * 64]? = some (if r + j = rows then 1 else 0)) ∧
        (∀ p, p < off * 64 → cph'[p]? = cph[p]?) := by
  intro k
  induction k with
  | zero =>
    intro r cph off _ _
    exact ⟨cph, rfl, rfl, fun j hj => absurd hj (Nat.not_lt_zero _), fun p _ => rfl⟩
  | succ k ih =>
    intro r cph off hlen hsz
    have h1 : off * 64 < cph.length := by omega
    have hm : (off * EPIR_CIPHER_SIZE) % U64 = off * 64 :=
      Nat.mod_eq_of_lt (by simp only [EPIR_CIPHER_SIZE]; omega)
    have hm2 : (off + 1) % U64 = off + 1 := Nat.mod_eq_of_lt (by omega)
    obtain ⟨cph', hrun, hl, hnew, hold⟩ :=
      ih (r + 1) (cph.set (off * 64) (if r = rows then 1 else 0)) (off + 1)
        (by rw [List.length_set]; omega) (by rw [List.length_set]; exact hsz)
    refine ⟨cph', ?_, by rw [hl, List.length_set], ?_, ?_⟩
    · rw [selector_create_choice_rows]
      simp only [hm, store_ok _ h1, hm2, bind, Except.bind]
      rw [hrun]
      congr 2
      omega
    · intro j hj
      rcases Nat.eq_zero_or_pos j with h0 | hpos
      · subst h0
        rw [Nat.add_zero, hold (off * 64) (by omega), List.getElem?_set_self h1, Nat.add_zero]
      · have := hnew (j - 1) (by omega)
        rw [show off + 1 + (j - 1) = off + j by omega, show r + 1 + (j - 1) = r + j by omega]
          at this
        exact this
    · intro p hp
      rw [hold p (by omega), List.getElem?_set_ne (by omega)]

theorem mod_div_mod {x M P d : Nat} (h : P * d ∣ M) : ((x % M) / P) % d = (x / P) % d := by
  obtain ⟨q, rfl⟩ := h
  rw [Nat.mul_assoc, Nat.mod_mul_right_div_self, Nat.mod_mul_right_mod]

theorem prod_drop_pos (cs : List Nat) (hpos : ∀ d ∈ cs, 1 ≤ d) (k : Nat) :
    1 ≤ (cs.drop k).prod := by
  have : ∀ d ∈ cs.drop k, 1 ≤ d := fun d hd => hpos d (List.mem_of_mem_drop hd)
  exact Nat.pos_of_ne_zero (List.prod_ne_zero (fun h0 => by have := this 0 h0; omega))

theorem prod_drop_succ (cs : List Nat) (k : Nat) (hk : k < cs.length) :
    (cs.drop k).prod = cs[k] * (cs.drop (k + 1)).prod := by
  rw [List.drop_eq_getElem_cons hk, List.prod_cons]

theorem prod_drop_dvd (cs : List Nat) : ∀ (j k : Nat), j ≤ k → (cs.drop k).prod ∣ (cs.drop j).prod := by
  intro j k hjk
  induction k, hjk using Nat.le_induction with
  | base => exact dvd_refl _
  | succ k _ ih =>
    rcases Nat.lt_or_ge k cs.length with h | h
    · exact dvd_trans (by rw [prod_drop_succ cs k h]; exact dvd_mul_left _ _) ih
    · rw [List.drop_of_length_le (by omega)] 
      simp

theorem sum_take_succ' (cs : List Nat) (k : Nat) (hk : k < cs.length) :
    (cs.take (k + 1)).sum = (cs.take k).sum + cs[k] := by
  rw [List.sum_take_succ cs k hk]

theorem sum_take_le (cs : List Nat) (k : Nat) : (cs.take k).sum ≤ cs.sum := by
  conv_rhs => rw [← List.take_append_drop k cs, List.sum_append]
  exact Nat.le_add_right _ _

/-- The outer loop of `epir_selector_create_choice`, from dimension `ic` on. -/
theorem selector_create_choice_loop_spec (cs : List Nat) (hpos : ∀ d ∈ cs, 1 ≤ d) :
    ∀ (k ic : Nat) (cph : List Nat) (idx_ : Nat),
      ic + k = cs.length → idx_ < (cs.drop ic).prod → cs.sum * 64 ≤ cph.length →
      cph.length < U64 →
      ∃ cph' s, selector_create_choice_loop cs k ic
          (cph, idx_, (cs.drop ic).prod, (cs.take ic).sum) = .ok (cph', s) ∧
        cph'.length = cph.length ∧
        (∀ p, p < (cs.take ic).sum * 64 → cph'[p]? = cph[p]?) ∧
        (∀ k' (hk' : k' < cs.length), ic ≤ k' → ∀ r, r < cs[k'] →
          cph'[((cs.take k').sum + r) * 64]?
            = some (if r = idx_ / (cs.drop (k' + 1)).prod % cs[k'] then 1 else 0)) := by
  intro k
  induction k with
  | zero =>
    intro ic cph idx_ hic _ _ _
    exact ⟨cph, _, rfl, rfl, fun p _ => rfl, fun k' hk' h => by omega⟩
  | succ k ih =>
    intro ic cph idx_ hic hidx hbuf hsz
    have hicl : ic < cs.length := by omega
    have hd1 : 1 ≤ cs[ic] := hpos _ (List.getElem_mem _)
    have hP := prod_drop_succ cs ic hicl
    have hP1 := prod_drop_pos cs hpos (ic + 1)
    have hdiv : (cs.drop ic).prod / cs[ic] = (cs.drop (ic + 1)).prod := by
      rw [hP, Nat.mul_div_cancel_left _ (by omega)]
    have hS := sum_take_succ' cs ic hicl
    have hSle := sum_take_le cs (ic + 1)
    have hrows : idx_ / (cs.drop (ic + 1)).prod < cs[ic] := by
      rw [Nat.div_lt_iff_lt_mul (by omega), ← hP]
      exact hidx
    have hrem : idx_ - idx_ / (cs.drop (ic + 1)).prod * (cs.drop (ic + 1)).prod
        = idx_ % (cs.drop (ic + 1)).prod := by
      have := Nat.div_add_mod idx_ (cs.drop (ic + 1)).prod
      rw [Nat.mul_comm] at this
      omega
    obtain ⟨cph1, hrun1, hl1, hnew1, hold1⟩ :=
      selector_create_choice_rows_spec (idx_ / (cs.drop (ic + 1)).prod) cs[ic] 0 cph
        (cs.take ic).sum (by rw [← hS]; omega) hsz
    obtain ⟨cph', s, hrun, hl, hold, hnew⟩ :=
      ih (ic + 1) cph1 (idx_ % (cs.drop (ic + 1)).prod) (by omega)
        (Nat.mod_lt _ (by omega)) (by rw [hl1]; exact hbuf) (by rw [hl1]; exact hsz)
    refine ⟨cph', s, ?_, by rw [hl, hl1], ?_, ?_⟩
    · rw [selector_create_choice_loop]
      simp only [load_ok (List.getElem?_eq_getElem hicl), bind, Except.bind]
      rw [if_neg (by omega), hdiv, if_neg (by omega)]
      simp only [hrun1, hrem, ← hS]
      exact hrun
    · intro p hp
      rw [hold p (by rw [hS]; omega), hold1 p hp]
    · intro k' hk' hle r hr
      rcases Nat.eq_or_lt_of_le hle with heq | hlt
      · subst heq
        rw [hold _ (by rw [hS]; omega), hnew1 r hr, Nat.zero_add, Nat.mod_eq_of_lt hrows]
      · rw [hnew k' hk' hlt r hr]
        congr 2
        rw [mod_div_mod]
        have h1 := prod_drop_succ cs k' hk'
        have h2 := prod_drop_dvd cs (ic + 1) k' hlt
        rw [h1] at h2
        rw [Nat.mul_comm]
        exact h2

/-- The plaintext pattern `epir_selector_create_choice` computes, for valid inputs. -/
theorem selector_create_choice_spec (ciphers counts : List Nat) (idx : Nat)
    (hpos : ∀ d ∈ counts, 1 ≤ d) (hprod : counts.prod < U64) (hidx : idx < counts.prod)
    (hbuf : counts.sum * 64 ≤ ciphers.length) (hsz : ciphers.length < U64) :
    ∃ out, epir_selector_create_choice ciphers counts counts.length idx = .ok out ∧
      out.length = ciphers.length ∧
      (∀ k (hk : k < counts.length) r, r < counts[k] →
        out[((counts.take k).sum + r) * 64]?
          = some (if r = idx / (counts.drop (k + 1)).prod % counts[k] then 1 else 0)) := by
  have h0 : (counts.drop 0).prod = counts.prod := by rw [List.drop_zero]
  obtain ⟨out, s, hrun, hl, _, hnew⟩ :=
    selector_create_choice_loop_spec counts hpos counts.length 0 ciphers idx (by omega)
      (by rw [h0]; exact hidx) hbuf hsz
  refine ⟨out, ?_, hl, fun k hk r hr => hnew k hk (Nat.zero_le _) r hr⟩
  unfold epir_selector_create_choice epir_selector_elements_count
  rw [List.take_length, Nat.mod_eq_of_lt hprod]
  rw [h0, List.take_zero, List.sum_nil] at hrun
  obtain ⟨s1, s2, s3⟩ := s
  simp only [hrun, bind, Except.bind]

/-- Every slot index below the total lies in exactly one block. -/
theorem slot_decompose (cs : List Nat) : ∀ (i : Nat), i < cs.sum →
    ∃ k, ∃ (hk : k < cs.length), ∃ r, r < cs[k] ∧ i = (cs.take k).sum + r := by
  induction cs using List.reverseRecOn with
  | nil => intro i hi; simp at hi
  | append_singleton l a ih =>
    intro i hi
    rw [List.sum_append, List.sum_singleton] at hi
    rcases Nat.lt_or_ge i l.sum with h | h
    · obtain ⟨k, hk, r, hr, hir⟩ := ih i h
      refine ⟨k, by rw [List.length_append]; omega, r, ?_, ?_⟩
      · rw [List.getElem_append_left hk]; exact hr
      · rw [List.take_append_of_le_length (le_of_lt hk)]; exact hir
    · refine ⟨l.length, by simp, i - l.sum, ?_, ?_⟩
      · rw [List.getElem_append_right (le_refl _)]
        simp only [Nat.sub_self, List.getElem_singleton]
        omega
      · rw [List.take_left']
        · omega
        · rfl

theorem countP_range_eq (b c : Nat) (hc : c < b) :
    (List.range b).countP (fun r => decide (r = c)) = 1 := by
  induction b with
  | zero => omega
  | succ b ih =>
    rw [List.range_succ, List.countP_append]
    rcases Nat.lt_or_ge c b with h | h
    · rw [ih h]
      simp [List.countP_cons]
      omega
    · have hcb : c = b := by omega
      subst hcb
      have : (List.range c).countP (fun r => decide (r = c)) = 0 := by
        rw [List.countP_eq_zero]
        intro a ha
        rw [List.mem_range] at ha
        simp
        omega
      rw [this]
      simp [List.countP_cons]

/-- A pattern with one flag per block has as many ones as there are blocks. -/
theorem count_ones (cs : List Nat) (rows : Nat → Nat) (f : Nat → Bool)
    (hrows : ∀ k (hk : k < cs.length), rows k < cs[k])
    (hf : ∀ k (hk : k < cs.length) r, r < cs[k] →
      f ((cs.take k).sum + r) = decide (r = rows k)) :
    ∀ k, k ≤ cs.length → (List.range (cs.take k).sum).countP f = k := by
  intro k
  induction k with
  | zero => intro _; simp
  | succ k ih =>
    intro hk
    have hk' : k < cs.length := by omega
    rw [sum_take_succ' cs k hk', List.range_add, List.countP_append, ih (by omega),
      List.countP_map]
    have : (List.range cs[k]).countP (f ∘ fun x => (cs.take k).sum + x)
        = (List.range cs[k]).countP (fun r => decide (r = rows k)) := by
      apply List.countP_congr
      intro r hr
      rw [List.mem_range] at hr
      simp only [Function.comp, hf k hk' r hr]
    rw [this, countP_range_eq _ _ (hrows k hk')]

/-! ## The encrypt pass of the selector -/

theorem write_bytes_ok (buf : List Nat) (off : Nat) (bs : List Nat)
    (h : off + bs.length ≤ buf.length) :
    write_bytes buf off bs = .ok (buf.take off ++ bs ++ buf.drop (off + bs.length)) := by
  simp [write_bytes, h]

theorem write_result_length (buf : List Nat) (off : Nat) (bs : List Nat)
    (h : off + bs.length ≤ buf.length) :
    (buf.take off ++ bs ++ buf.drop (off + bs.length)).length = buf.length := by
  simp only [List.length_append, List.length_take, List.length_drop]
  omega

theorem write_result_below (buf : List Nat) (off : Nat) (bs : List Nat) (p : Nat)
    (h : off + bs.length ≤ buf.length) (hp : p < off) :
    (buf.take off ++ bs ++ buf.drop (off + bs.length))[p]? = buf[p]? := by
  rw [List.append_assoc, List.getElem?_append_left (by rw [List.length_take]; omega),
    List.getElem?_take_of_lt hp]

theorem write_result_above (buf : List Nat) (off : Nat) (bs : List Nat) (p : Nat)
    (h : off + bs.length ≤ buf.length) (hp : off + bs.length ≤ p) :
    (buf.take off ++ bs ++ buf.drop (off + bs.length))[p]? = buf[p]? := by
  have hl : (buf.take off ++ bs).length = off + bs.length := by
    rw [List.length_append, List.length_take]; omega
  rw [List.getElem?_append_right (by rw [hl]; exact hp), hl, List.getElem?_drop]
  congr 1
  omega

theorem write_result_slot (buf : List Nat) (off : Nat) (bs : List Nat)
    (h : off + bs.length ≤ buf.length) :
    ((buf.take off ++ bs ++ buf.drop (off + bs.length)).drop off).take bs.length = bs := by
  have hl : (buf.take off).length = off := by rw [List.length_take]; omega
  rw [List.append_assoc, List.drop_left' hl, List.take_left' rfl]

/-- Two buffers that agree on a byte range have the same slice there. -/
theorem slice_congr (l1 l2 : List Nat) (off n : Nat)
    (h : ∀ q, q < n → l1[off + q]? = l2[off + q]?) :
    (l1.drop off).take n = (l2.drop off).take n := by
  apply List.ext_getElem?
  intro q
  rcases Nat.lt_or_ge q n with hq | hq
  · rw [List.getElem?_take_of_lt hq, List.getElem?_take_of_lt hq, List.getElem?_drop,
      List.getElem?_drop]
    exact h q hq
  · rw [List.getElem?_eq_none (by rw [List.length_take]; omega),
      List.getElem?_eq_none (by rw [List.length_take]; omega)]

/-- The encrypt pass replaces slot `j` by the cipher of the flag it held. -/
theorem selector_create_encrypt_spec {κ : Type} (key : κ)
    (encrypt : κ → Nat → Option Nat → Nat → List Nat) (rnd : Nat → Nat)
    (henc : ∀ m x, (encrypt key m none x).length = 64) :
    ∀ (k i : Nat) (buf : List Nat), (i + k) * 64 ≤ buf.length →
      ∃ out, selector_create_encrypt key encrypt rnd k i buf = .ok out ∧
        out.length = buf.length ∧
        (∀ p, p < i * 64 → out[p]? = buf[p]?) ∧
        (∀ j, i ≤ j → j < i + k → ∃ flag, buf[j * 64]? = some flag ∧
          (out.drop (j * 64)).take 64
            = encrypt key (if flag ≠ 0 then 1 else 0) none (rnd j)) := by
  intro k
  induction k with
  | zero =>
    intro i buf _
    exact ⟨buf, rfl, rfl, fun p _ => rfl, fun j h1 h2 => by omega⟩
  | succ k ih =>
    intro i buf hlen
    obtain ⟨flag, hflag⟩ : ∃ flag, buf[i * 64]? = some flag :=
      ⟨_, List.getElem?_eq_getElem (by omega)⟩
    have hcl := henc (if flag ≠ 0 then 1 else 0) (rnd i)
    have hfit : i * 64 + (encrypt key (if flag ≠ 0 then 1 else 0) none (rnd i)).length
        ≤ buf.length := by rw [hcl]; omega
    obtain ⟨out, hrun, hl, hold, hnew⟩ :=
      ih (i + 1) (buf.take (i * 64) ++ encrypt key (if flag ≠ 0 then 1 else 0) none (rnd i)
          ++ buf.drop (i * 64 + (encrypt key (if flag ≠ 0 then 1 else 0) none (rnd i)).length))
        (by rw [write_result_length _ _ _ hfit]; omega)
    refine ⟨out, ?_, by rw [hl, write_result_length _ _ _ hfit], ?_, ?_⟩
    · rw [selector_create_encrypt]
      simp only [EPIR_CIPHER_SIZE, load_ok hflag, write_bytes_ok _ _ _ hfit, bind, Except.bind]
      exact hrun
    · intro p hp
      rw [hold p (by omega), write_result_below _ _ _ _ hfit hp]
    · intro j h1 h2
      rcases Nat.eq_or_lt_of_le h1 with heq | hlt
      · subst heq
        refine ⟨flag, hflag, ?_⟩
        have := write_result_slot buf (i * 64) _ hfit
        rw [hcl] at this
        rw [← this]
        apply slice_congr
        intro q hq
        rw [hold _ (by omega), hcl]
      · obtain ⟨fl, hfl, hslot⟩ := hnew j (by omega) (by omega)
        rw [write_result_above _ _ _ _ hfit (by rw [hcl]; omega)] at hfl
        exact ⟨fl, hfl, hslot⟩

theorem encrypt_fast_length (C : Curve) (sk m : Nat) (r : Option Nat) (x : Nat) :
    (epir_ecelgamal_encrypt_fast C sk m r x).length = 64 := by
  rw [encrypt_fast_eq, List.length_append, C.tobytes_length, C.tobytes_length]

theorem encrypt_length (C : Curve) (pk : List Nat) (m : Nat) (r : Option Nat) (x : Nat) :
    (epir_ecelgamal_encrypt C pk m r x).length = 64 := by
  simp only [epir_ecelgamal_encrypt, ge25519_p3_tobytes, ge25519_tobytes, List.length_append,
    C.tobytes_length]

theorem toInt32_small (m : Nat) (h : m < 2 ^ 31) : toInt32 m = (m : Int) := by
  have hU : U32 = 2 ^ 32 := rfl
  have : m % U32 = m := Nat.mod_eq_of_lt (by omega)
  rw [toInt32, this, if_pos h]

/-- Decrypting a cipher of either encryption path with a built table. -/
theorem decrypt_encrypt_fast (C : Curve) (mmax m fuel sk : Nat) (r : Option Nat) (x : Nat)
    (h2 : 2 ≤ mmax) (hmm : mmax ≤ U32) (hm : m < mmax) (hf : mmax ≤ fuel) :
    epir_ecelgamal_decrypt C fuel sk (epir_ecelgamal_encrypt_fast C sk m r x)
      (mG_table C mmax) mmax = .ok (toInt32 m) := by
  have hU : U32 = 2 ^ 32 := rfl
  have hU64 : U64 = 2 ^ 64 := rfl
  rw [encrypt_fast_eq, Nat.mod_eq_of_lt (by omega), decrypt_cipher]
  exact search_mG_table C mmax m fuel h2 hmm hm hf

theorem decrypt_encrypt (C : Curve) (mmax m fuel sk : Nat) (r : Option Nat) (x : Nat)
    (h2 : 2 ≤ mmax) (hmm : mmax ≤ U32) (hm : m < mmax) (hf : mmax ≤ fuel) :
    epir_ecelgamal_decrypt C fuel sk
      (epir_ecelgamal_encrypt C (epir_pubkey_from_privkey C sk) m r x)
      (mG_table C mmax) mmax = .ok (toInt32 m) := by
  have hU : U32 = 2 ^ 32 := rfl
  have hU64 : U64 = 2 ^ 64 := rfl
  rw [encrypt_eq, Nat.mod_eq_of_lt (by omega), decrypt_cipher]
  exact search_mG_table C mmax m fuel h2 hmm hm hf

/-! ## The reply decryptor -/



theorem read_bytes_ok (buf : List Nat) (off n : Nat) (h : off + n ≤ buf.length) :
    read_bytes buf off n = .ok ((buf.drop off).take n) := by
  simp [read_bytes, h]

/-- The pack loop writes bytes `p .. p + k - 1` of `decrypted` at `base + p ..`. -/
theorem reply_decrypt_pack_spec (d : Int) (base : Nat) :
    ∀ (k p : Nat) (reply : List Nat), p + k ≤ 4 → base + p + k ≤ reply.length →
      ∃ out, reply_decrypt_pack d base k p reply = .ok out ∧ out.length = reply.length ∧
        (∀ j, j < k → out[base + p + j]? = some (packByte d (p + j))) ∧
        (∀ q, q < base + p ∨ base + p + k ≤ q → out[q]? = reply[q]?) := by
  intro k
  induction k with
  | zero =>
    intro p reply _ _
    exact ⟨reply, rfl, rfl, fun j hj => absurd hj (Nat.not_lt_zero _), fun q _ => rfl⟩
  | succ k ih =>
    intro p reply hp hlen
    obtain ⟨out, hrun, hl, hnew, hold⟩ :=
      ih (p + 1) (reply.set (base + p) (packByte d p)) (by omega)
        (by rw [List.length_set]; omega)
    refine ⟨out, ?_, by rw [hl, List.length_set], ?_, ?_⟩
    · rw [reply_decrypt_pack, if_neg (by omega)]
      simp only [store_ok _ (show base + p < reply.length by omega), bind, Except.bind]
      exact hrun
    · intro j hj
      rcases Nat.eq_zero_or_pos j with h0 | hpos
      · subst h0
        rw [Nat.add_zero, hold (base + p) (Or.inl (by omega)),
          List.getElem?_set_self (by omega), Nat.add_zero]
      · have := hnew (j - 1) (by omega)
        rw [show base + (p + 1) + (j - 1) = base + p + j by omega,
          show p + 1 + (j - 1) = p + j by omega] at this
        exact this
    · intro q hq
      rw [hold q (by omega), List.getElem?_set_ne (by omega)]

/-- The decrypt loop of one phase. `dec j` is what slot `j` decrypts to; the flag
stays set exactly when no slot decrypts to a negative value, and every slot with a
non-negative value receives its little-endian bytes. -/
theorem reply_decrypt_slots_spec (C : Curve) (fuel sk packing : Nat) (mG : List epir_mG_t)
    (mmax : Nat) (dec : Nat → Int) (hpk : packing ≤ 4) :
    ∀ (k i : Nat) (buf : List Nat) (s : Bool), (i + k) * 64 ≤ buf.length →
      (∀ j, i ≤ j → j < i + k →
        epir_ecelgamal_decrypt C fuel sk (slot buf j) mG mmax = .ok (dec j)) →
      ∃ out s', reply_decrypt_slots C fuel sk packing mG mmax k i (buf, s) = .ok (out, s') ∧
        out.length = buf.length ∧
        (s' = true ↔ s = true ∧ ∀ j, i ≤ j → j < i + k → 0 ≤ dec j) ∧
        (∀ q, q < i * 64 → out[q]? = buf[q]?) ∧
        (∀ j, i ≤ j → j < i + k → 0 ≤ dec j → ∀ p, p < packing →
          out[j * 64 + p]? = some (packByte (dec j) p)) := by
  intro k
  induction k with
  | zero =>
    intro i buf s _ _
    exact ⟨buf, s, rfl, rfl, ⟨fun h => ⟨h, fun j h1 h2 => by omega⟩, fun h => h.1⟩,
      fun q _ => rfl, fun j h1 h2 => by omega⟩
  | succ k ih =>
    intro i buf s hlen hdec
    have hd := hdec i (le_refl _) (by omega)
    have hread : read_bytes buf (i * EPIR_CIPHER_SIZE) EPIR_CIPHER_SIZE = .ok (slot buf i) :=
      read_bytes_ok buf (i * 64) 64 (by omega)
    rcases Int.lt_or_le (dec i) 0 with hneg | hnn
    · -- the slot fails: nothing is written, the flag is cleared
      obtain ⟨out, s', hrun, hl, hs, hold, hnew⟩ :=
        ih (i + 1) buf false (by omega) (fun j h1 h2 => hdec j (by omega) (by omega))
      refine ⟨out, s', ?_, hl, ?_, fun q hq => hold q (by omega), ?_⟩
      · rw [reply_decrypt_slots]
        simp only [hread, hd, bind, Except.bind]
        rw [if_pos hneg]
        exact hrun
      · constructor
        · intro h
          have := hs.1 h
          simp at this
        · intro h
          have := h.2 i (le_refl _) (by omega)
          omega
      · intro j h1 h2 h3 p hp
        rcases Nat.eq_or_lt_of_le h1 with heq | hlt
        · subst heq; omega
        · exact hnew j (by omega) (by omega) h3 p hp
    · -- the slot succeeds: its bytes are written
      obtain ⟨buf1, hrun1, hl1, hnew1, hold1⟩ :=
        reply_decrypt_pack_spec (dec i) (i * 64) packing 0 buf (by omega) (by omega)
      obtain ⟨out, s', hrun, hl, hs, hold, hnew⟩ :=
        ih (i + 1) buf1 s (by rw [hl1]; omega) (by
          intro j h1 h2
          have : slot buf1 j = slot buf j := by
            apply slice_congr
            intro q hq
            exact hold1 _ (Or.inr (by omega))
          rw [this]
          exact hdec j (by omega) (by omega))
      refine ⟨out, s', ?_, by rw [hl, hl1], ?_, ?_, ?_⟩
      · rw [reply_decrypt_slots]
        simp only [hread, hd, bind, Except.bind]
        rw [if_neg (by omega)]
        simp only [EPIR_CIPHER_SIZE, hrun1]
        exact hrun
      · rw [hs]
        constructor
        · rintro ⟨h1, h2⟩
          refine ⟨h1, fun j hj1 hj2 => ?_⟩
          rcases Nat.eq_or_lt_of_le hj1 with heq | hlt
          · subst heq; exact hnn
          · exact h2 j (by omega) (by omega)
        · rintro ⟨h1, h2⟩
          exact ⟨h1, fun j hj1 hj2 => h2 j (by omega) (by omega)⟩
      · intro q hq
        rw [hold q (by omega), hold1 q (Or.inl (by omega))]
      · intro j h1 h2 h3 p hp
        rcases Nat.eq_or_lt_of_le h1 with heq | hlt
        · subst heq
          rw [hold _ (by omega)]
          have := hnew1 p hp
          rw [Nat.add_zero, Nat.zero_add] at this
          exact this
        · exact hnew j (by omega) (by omega) h3 p hp

/-- The compaction loop moves the first `packing` bytes of slot `j` to offset
`j * packing`. -/
theorem reply_decrypt_compact_spec (packing : Nat) (hpk : packing ≤ 64) :
    ∀ (k i : Nat) (buf : List Nat), (i + k) * 64 ≤ buf.length →
      ∃ out, reply_decrypt_compact packing k i buf = .ok out ∧ out.length = buf.length ∧
        (∀ q, q < i * packing → out[q]? = buf[q]?) ∧
        (∀ j, i ≤ j → j < i + k → ∀ p, p < packing →
          out[j * packing + p]? = buf[j * 64 + p]?) := by
  intro k
  induction k with
  | zero =>
    intro i buf _
    exact ⟨buf, rfl, rfl, fun q _ => rfl, fun j h1 h2 => by omega⟩
  | succ k ih =>
    intro i buf hlen
    have hip : i * packing ≤ i * 64 := Nat.mul_le_mul_left i hpk
    have hsl : ((buf.drop (i * 64)).take packing).length = packing := by
      rw [List.length_take, List.length_drop]; omega
    have hfit : i * packing + ((buf.drop (i * 64)).take packing).length ≤ buf.length := by
      rw [hsl]; omega
    have hip1 : (i + 1) * packing = i * packing + packing := by
      rw [Nat.add_mul, Nat.one_mul]
    obtain ⟨out, hrun, hl, hold, hnew⟩ :=
      ih (i + 1) (buf.take (i * packing) ++ (buf.drop (i * 64)).take packing
          ++ buf.drop (i * packing + ((buf.drop (i * 64)).take packing).length))
        (by rw [write_result_length _ _ _ hfit]; omega)
    refine ⟨out, ?_, by rw [hl, write_result_length _ _ _ hfit], ?_, ?_⟩
    · rw [reply_decrypt_compact]
      simp only [EPIR_CIPHER_SIZE, read_bytes_ok buf (i * 64) packing (by omega),
        write_bytes_ok _ _ _ hfit, bind, Except.bind]
      exact hrun
    · intro q hq
      rw [hold q (by omega), write_result_below _ _ _ _ hfit hq]
    · intro j h1 h2 p hp
      rcases Nat.eq_or_lt_of_le h1 with heq | hlt
      · subst heq
        rw [hold _ (by omega)]
        have hsl2 := write_result_slot buf (i * packing) _ hfit
        have e1 : (buf.take (i * packing) ++ (buf.drop (i * 64)).take packing
            ++ buf.drop (i * packing + ((buf.drop (i * 64)).take packing).length))[i * packing + p]?
            = ((buf.drop (i * 64)).take packing)[p]? := by
          conv_rhs => rw [← hsl2]
          rw [hsl, List.getElem?_take_of_lt hp, List.getElem?_drop]
        rw [e1, List.getElem?_take_of_lt hp, List.getElem?_drop]
      · have hjp : (i + 1) * packing ≤ j * packing := Nat.mul_le_mul_right _ hlt
        have hj64 : (i + 1) * 64 ≤ j * 64 := Nat.mul_le_mul_right _ hlt
        have hi64 : (i + 1) * packing ≤ (i + 1) * 64 := Nat.mul_le_mul_left _ hpk
        rw [hnew j (by omega) (by omega) p hp,
          write_result_above _ _ _ _ hfit (by rw [hsl]; omega)]



theorem Encrypts.length {C : Curve} {sk m : Nat} {cipher : List Nat}
    (h : Encrypts C sk cipher m) : cipher.length = 64 := by
  obtain ⟨c1, c2, rfl, _⟩ := h
  rw [List.length_append, C.tobytes_length, C.tobytes_length]

theorem encrypt_encrypts (C : Curve) (sk m : Nat) (r : Option Nat) (x : Nat) (hm : m < U64) :
    Encrypts C sk (epir_ecelgamal_encrypt C (epir_pubkey_from_privkey C sk) m r x) m := by
  refine ⟨(r.getD x) • C.B, ((r.getD x) * sk + m) • C.B, ?_, ?_⟩
  · rw [encrypt_eq, Nat.mod_eq_of_lt hm]
  · rw [add_nsmul, mul_nsmul, add_sub_cancel_left]

theorem encrypt_fast_encrypts (C : Curve) (sk m : Nat) (r : Option Nat) (x : Nat)
    (hm : m < U64) : Encrypts C sk (epir_ecelgamal_encrypt_fast C sk m r x) m := by
  refine ⟨(r.getD x) • C.B, ((r.getD x) * sk + m) • C.B, ?_, ?_⟩
  · rw [encrypt_fast_eq, Nat.mod_eq_of_lt hm]
  · rw [add_nsmul, mul_nsmul, add_sub_cancel_left]

/-- Decrypting any cipher of `m` searches the table for `m*B`. -/
theorem decrypt_of_encrypts (C : Curve) (fuel sk m : Nat) (cipher : List Nat)
    (mG : List epir_mG_t) (mmax : Nat) (h : Encrypts C sk cipher m) :
    epir_ecelgamal_decrypt C fuel sk cipher mG mmax
      = interpolation_search fuel (C.tobytes (m • C.B)) mG mmax := by
  obtain ⟨c1, c2, rfl, hc⟩ := h
  simp only [epir_ecelgamal_decrypt, ge25519_frombytes, ge25519_scalarmult, ge25519_sub_p3_p3,
    ge25519_p3_tobytes, take_tobytes_append, drop_tobytes_append, take_tobytes,
    C.frombytes_tobytes, hc]

theorem decrypt_mG_table (C : Curve) (mmax m fuel sk : Nat) (cipher : List Nat)
    (h : Encrypts C sk cipher m) (h2 : 2 ≤ mmax) (hmm : mmax ≤ U32) (hm : m < mmax)
    (hf : mmax ≤ fuel) :
    epir_ecelgamal_decrypt C fuel sk cipher (mG_table C mmax) mmax = .ok (toInt32 m) := by
  rw [decrypt_of_encrypts C fuel sk m cipher _ _ h]
  exact search_mG_table C mmax m fuel h2 hmm hm hf

theorem leVal_lt (l : List Nat) (h : ∀ b ∈ l, b < 256) : leVal l < 256 ^ l.length := by
  induction l with
  | nil => simp [leVal]
  | cons x xs ih =>
    have hx : x < 256 := h x (List.mem_cons_self _ _)
    have := ih (fun b hb => h b (List.mem_cons_of_mem _ hb))
    simp only [leVal, List.length_cons, pow_succ]
    omega

theorem leVal_byte : ∀ (l : List Nat) (p : Nat), (∀ b ∈ l, b < 256) → p < l.length →
    leVal l / 256 ^ p % 256 = l.getD p 0
  | [], p, _, hp => by simp at hp
  | x :: xs, 0, h, _ => by
    have hx : x < 256 := h x (List.mem_cons_self _ _)
    simp only [leVal, pow_zero, Nat.div_one, List.getD_cons_zero]
    omega
  | x :: xs, p + 1, h, hp => by
    have hx : x < 256 := h x (List.mem_cons_self _ _)
    have ih := leVal_byte xs p (fun b hb => h b (List.mem_cons_of_mem _ hb))
      (by simpa using hp)
    simp only [leVal, List.getD_cons_succ]
    rw [← ih, pow_succ, Nat.mul_comm (256 ^ p) 256, ← Nat.div_div_eq_div_mul]
    congr 2
    omega

theorem packByte_leVal (l : List Nat) (p : Nat) (h : ∀ b ∈ l, b < 256) (hp : p < l.length) :
    packByte ((leVal l : Nat) : Int) p = l.getD p 0 := by
  rw [packByte, Int.toNat_ofNat, Nat.shiftRight_eq_div_pow,
    show (0xFF : Nat) = 2 ^ 8 - 1 from rfl, Nat.and_pow_two_sub_one_eq_mod, pow_mul]
  exact leVal_byte l p h hp


theorem phase_data_length (dec : Nat → Int) (packing n : Nat) :
    (phase_data dec packing n).length = n * packing := by
  simp [phase_data]

theorem phase_data_getElem? (dec : Nat → Int) (packing n q : Nat) (hq : q < n * packing) :
    (phase_data dec packing n)[q]? = some (packByte (dec (q / packing)) (q % packing)) := by
  simp [phase_data, List.getElem?_map, List.getElem?_range hq]

/-- One phase of the reply decryptor when every slot's search completes. -/
theorem reply_decrypt_phase_spec (C : Curve) (fuel sk dimension packing : Nat)
    (mG : List epir_mG_t) (mmax : Nat) (dec : Nat → Int) (hpk : packing ≤ 4)
    (k phase : Nat) (buf : List Nat) (n : Nat) (hlen : n * 64 ≤ buf.length)
    (hdec : ∀ j, j < n → epir_ecelgamal_decrypt C fuel sk (slot buf j) mG mmax = .ok (dec j)) :
    ((∃ j, j < n ∧ dec j < 0) →
      ∃ out, reply_decrypt_phases C fuel sk dimension packing mG mmax (k + 1) phase (buf, n)
        = .ok (out, -1)) ∧
    ((∀ j, j < n → 0 ≤ dec j) →
      ∃ out, out.length = buf.length ∧
        (∀ q, q < n * packing → out[q]? = (phase_data dec packing n)[q]?) ∧
        reply_decrypt_phases C fuel sk dimension packing mG mmax (k + 1) phase (buf, n)
          = if (phase : Int) = (dimension : Int) - 1 then
              .ok (out, toInt32 ((n * packing) % U64))
            else
              reply_decrypt_phases C fuel sk dimension packing mG mmax k (phase + 1)
                (out, (n * packing) % U64 / EPIR_CIPHER_SIZE)) := by
  obtain ⟨out1, s', hrun1, hl1, hs, _, hnew1⟩ :=
    reply_decrypt_slots_spec C fuel sk packing mG mmax dec hpk n 0 buf true
      (by rw [Nat.zero_add]; exact hlen)
      (fun j _ h2 => hdec j (by omega))
  constructor
  · rintro ⟨j, hj, hneg⟩
    have hs' : s' = false := by
      rcases Bool.eq_false_or_eq_true s' with h | h
      · have := (hs.1 h).2 j (Nat.zero_le _) (by omega)
        omega
      · exact h
    subst hs'
    refine ⟨out1, ?_⟩
    rw [reply_decrypt_phases]
    simp only [hrun1, bind, Except.bind]
    rfl
  · intro hall
    have hs' : s' = true := hs.2 ⟨rfl, fun j _ h2 => hall j (by omega)⟩
    subst hs'
    obtain ⟨out2, hrun2, hl2, _, hnew2⟩ :=
      reply_decrypt_compact_spec packing (by omega) n 0 out1
        (by rw [Nat.zero_add, hl1]; exact hlen)
    refine ⟨out2, by rw [hl2, hl1], ?_, ?_⟩
    · intro q hq
      have hp0 : 0 < packing := by
        rcases Nat.eq_zero_or_pos packing with h | h
        · subst h; simp at hq
        · exact h
      have hj : q / packing < n := (Nat.div_lt_iff_lt_mul hp0).2 hq
      have hp : q % packing < packing := Nat.mod_lt _ hp0
      have hqe : q / packing * packing + q % packing = q := by
        rw [Nat.mul_comm]; exact Nat.div_add_mod q packing
      have h1 := hnew2 (q / packing) (Nat.zero_le _) (by omega) (q % packing) hp
      rw [hqe] at h1
      rw [h1, hnew1 (q / packing) (Nat.zero_le _) (by omega) (hall _ hj) _ hp,
        phase_data_getElem? dec packing n q hq]
    · rw [reply_decrypt_phases]
      simp only [hrun1, hrun2, bind, Except.bind]
      rfl

/-! ## Degenerate tables -/

/-- On a table of one entry the first iteration divides by `right - left = 0`. -/
theorem interpolation_search_singleton (fuel : Nat) (find : List Nat) (e : epir_mG_t) :
    interpolation_search (fuel + 1) find [e] 1 = .error .div_by_zero := by
  have h1 : (1 + U64 - 1) % U64 = 0 := by norm_num [U64]
  have h2 : (load_uint32_t e.point + U32 - load_uint32_t e.point) % U32 = 0 := by
    rw [Nat.add_sub_cancel_left, Nat.mod_self]
  unfold interpolation_search
  simp only [h1, List.getElem?_cons_zero]
  rw [interpolation_search_loop, if_pos (le_refl _)]
  simp only [h2, if_true]

theorem mG_table_one (C : Curve) : mG_table C 1 = [mG_entry C 0] := by
  simp [mG_table, rawTable, List.range_succ]

theorem toInt32_two_pow_31 : toInt32 (2 ^ 31) = -2147483648 := by
  decide

/-! ## A single phase of the reply decryptor -/

/-- With `dimension = 1`, when every slot decrypts to a non-negative value the call
returns `n * packing` as an `int` and leaves the packed bytes at the start. -/
theorem reply_decrypt_single_phase (C : Curve) (fuel sk packing : Nat) (mG : List epir_mG_t)
    (mmax : Nat) (dec : Nat → Int) (reply : List Nat) (n : Nat) (hpk : packing ≤ 4)
    (hlen : reply.length = n * 64)
    (hdec : ∀ j, j < n → epir_ecelgamal_decrypt C fuel sk (slot reply j) mG mmax = .ok (dec j))
    (hnn : ∀ j, j < n → 0 ≤ dec j) :
    ∃ out, epir_reply_decrypt C fuel reply (n * 64) sk 1 packing mG mmax
        = .ok (out, toInt32 ((n * packing) % U64)) ∧
      out.take (n * packing) = phase_data dec packing n := by
  obtain ⟨out, hl, hdata, hrun⟩ :=
    (reply_decrypt_phase_spec C fuel sk 1 packing mG mmax dec hpk 0 0 reply n
      (le_of_eq hlen.symm) hdec).2 hnn
  have hnp : n * packing ≤ n * 64 := Nat.mul_le_mul_left n (by omega)
  refine ⟨out, ?_, ?_⟩
  · unfold epir_reply_decrypt
    simp only [EPIR_CIPHER_SIZE, Nat.mul_div_cancel _ (show 0 < 64 by decide)]
    rw [hrun]
    simp
  · apply List.ext_getElem?
    intro q
    rcases Nat.lt_or_ge q (n * packing) with hq | hq
    · rw [List.getElem?_take_of_lt hq, hdata q hq]
    · rw [List.getElem?_eq_none (by rw [List.length_take]; omega),
        List.getElem?_eq_none (by rw [phase_data_length]; omega)]

/-- With `dimension = 1`, a slot that decrypts to a negative value makes the call
return `-1`. -/
theorem reply_decrypt_single_phase_fails (C : Curve) (fuel sk packing : Nat)
    (mG : List epir_mG_t) (mmax : Nat) (dec : Nat → Int) (reply : List Nat) (n : Nat)
    (hpk : packing ≤ 4) (hlen : reply.length = n * 64)
    (hdec : ∀ j, j < n → epir_ecelgamal_decrypt C fuel sk (slot reply j) mG mmax = .ok (dec j))
    (hneg : ∃ j, j < n ∧ dec j < 0) :
    ∃ out, epir_reply_decrypt C fuel reply (n * 64) sk 1 packing mG mmax = .ok (out, -1) := by
  obtain ⟨out, hrun⟩ :=
    (reply_decrypt_phase_spec C fuel sk 1 packing mG mmax dec hpk 0 0 reply n
      (le_of_eq hlen.symm) hdec).1 hneg
  refine ⟨out, ?_⟩
  unfold epir_reply_decrypt
  simp only [EPIR_CIPHER_SIZE, Nat.mul_div_cancel _ (show 0 < 64 by decide)]
  exact hrun

/-- The packed bytes of the little-endian readings of the chunks of `b` are `b`. -/
theorem phase_data_leVal (b : List Nat) (packing n : Nat) (hb : b.length = n * packing)
    (hbytes : ∀ x ∈ b, x < 256) :
    phase_data (fun j => ((leVal ((b.drop (j * packing)).take packing) : Nat) : Int)) packing n
      = b := by
  apply List.ext_getElem?
  intro q
  rcases Nat.lt_or_ge q (n * packing) with hq | hq
  · have hp0 : 0 < packing := by
      rcases Nat.eq_zero_or_pos packing with h | h
      · subst h; simp at hq
      · exact h
    have hj : q / packing < n := (Nat.div_lt_iff_lt_mul hp0).2 hq
    have hp : q % packing < packing := Nat.mod_lt _ hp0
    have hqe : q / packing * packing + q % packing = q := by
      rw [Nat.mul_comm]; exact Nat.div_add_mod q packing
    have hjp : (q / packing + 1) * packing ≤ n * packing := Nat.mul_le_mul_right _ hj
    rw [Nat.add_mul, Nat.one_mul] at hjp
    have hcl : ((b.drop (q / packing * packing)).take packing).length = packing := by
      rw [List.length_take, List.length_drop]; omega
    rw [phase_data_getElem? _ packing n q hq,
      packByte_leVal _ _ (fun x hx => hbytes x (List.mem_of_mem_drop (List.mem_of_mem_take hx)))
        (by rw [hcl]; exact hp),
      List.getD_eq_getElem?_getD, List.getElem?_take_of_lt hp, List.getElem?_drop, hqe,
      List.getElem?_eq_getElem (by omega)]
    rfl
  · rw [List.getElem?_eq_none (by rw [phase_data_length]; omega),
      List.getElem?_eq_none (by omega)]

/-- A reply of `n` ciphers of the little-endian readings of the `packing`-byte
chunks of `b`, decrypted in one phase with a built table that covers them. -/
theorem reply_decrypt_packed (C : Curve) (fuel mmax sk packing n : Nat) (reply b : List Nat)
    (h2 : 2 ≤ mmax) (hmm : mmax ≤ 2 ^ 31) (hf : mmax ≤ fuel) (hpk4 : packing ≤ 4)
    (hb : b.length = n * packing) (hbytes : ∀ x ∈ b, x < 256)
    (hreply : reply.length = n * 64)
    (henc : ∀ i, i < n →
      Encrypts C sk (slot reply i) (leVal ((b.drop (i * packing)).take packing)))
    (hcover : ∀ i, i < n → leVal ((b.drop (i * packing)).take packing) < mmax) :
    ∃ out, epir_reply_decrypt C fuel reply (n * 64) sk 1 packing (mG_table C mmax) mmax
        = .ok (out, toInt32 ((n * packing) % U64)) ∧
      out.take (n * packing) = b := by
  have hU32 : U32 = 2 ^ 32 := rfl
  obtain ⟨out, hrun, hdata⟩ :=
    reply_decrypt_single_phase C fuel sk packing (mG_table C mmax) mmax
      (fun j => ((leVal ((b.drop (j * packing)).take packing) : Nat) : Int)) reply n hpk4 hreply
      (by
        intro j hj
        rw [decrypt_mG_table C mmax _ fuel sk _ (henc j hj) h2 (by omega) (hcover j hj) hf,
          toInt32_small _ (lt_of_lt_of_le (hcover j hj) hmm)])
      (fun j _ => Int.natCast_nonneg _)
  exact ⟨out, hrun, by rw [hdata, phase_data_leVal b packing n hb hbytes]⟩

theorem slot_zero_append (a rest : List Nat) (ha : a.length = 64) : slot (a ++ rest) 0 = a := by
  rw [slot, Nat.zero_mul, List.drop_zero, List.take_left' ha]

theorem slot_succ_append (a rest : List Nat) (j : Nat) (ha : a.length = 64) :
    slot (a ++ rest) (j + 1) = slot rest j := by
  rw [slot, slot, Nat.add_mul, Nat.one_mul, Nat.add_comm, ← List.drop_drop,
    List.drop_left' ha]

theorem slot_single (a : List Nat) (ha : a.length = 64) : slot a 0 = a := by
  have := slot_zero_append a [] ha
  rwa [List.append_nil] at this

/-! ## Several phases -/

/-- The loop of `epir_ecelgamal_load_mg` from a position `e` that whole batches have
reached: it stops at `min mmax_ k`, having copied the entries from `e` on. -/
theorem load_mg_loop_spec (file : List epir_mG_t) (mmax_ : Nat) (hmm : mmax_ < U64) :
    ∀ (fuel e : Nat) (mG : List epir_mG_t) (fp : FILE),
      fp.entries = file → fp.pos = e → e ≤ min mmax_ file.length →
      (min mmax_ file.length - e) / 1024 < fuel → min mmax_ file.length ≤ mG.length →
      ∃ mG' fp', load_mg_loop mmax_ fuel mG e fp = .ok (mG', min mmax_ file.length, fp') ∧
        mG'.length = mG.length ∧
        (∀ j, j < e ∨ min mmax_ file.length ≤ j → mG'[j]? = mG[j]?) ∧
        (∀ j, e ≤ j → j < min mmax_ file.length → mG'[j]? = file[j]?) ∧
        (∀ q ∈ fp'.requests, q ∈ fp.requests ∨ q ≤ 1024) := by
  have hB : BATCH_SIZE = 1024 := rfl
  have hU : U64 = 2 ^ 64 := rfl
  intro fuel
  induction fuel with
  | zero => intro e mG fp _ _ _ hf _; omega
  | succ fuel ih =>
    intro e mG fp hfile hpos he hf hcap
    have hleft : (mmax_ + U64 - e) % U64 = mmax_ - e := by
      rw [show mmax_ + U64 - e = (mmax_ - e) + U64 by omega, Nat.add_mod_right]
      exact Nat.mod_eq_of_lt (by omega)
    obtain ⟨req, hreq⟩ : ∃ req, req = (if BATCH_SIZE < mmax_ - e then BATCH_SIZE else mmax_ - e) :=
      ⟨_, rfl⟩
    have hreq_le : req ≤ 1024 := by
      rw [hreq, hB]; split_ifs <;> omega
    have hreq_min : req = min 1024 (mmax_ - e) := by
      rw [hreq, hB]; split_ifs <;> omega
    obtain ⟨got, hgot⟩ : ∃ got, got = (file.drop e).take req := ⟨_, rfl⟩
    have hglen : got.length = min req (file.length - e) := by
      rw [hgot, List.length_take, List.length_drop]
    have hgj : ∀ j, j < got.length → got[j]? = file[e + j]? := by
      intro j hj
      rw [hgot, List.getElem?_take_of_lt (by rw [hglen] at hj; omega), List.getElem?_drop]
    have hstep : load_mg_loop mmax_ (fuel + 1) mG e fp
        = if got.length < BATCH_SIZE then
            .ok (mG.take e ++ got ++ mG.drop (e + got.length), (e + got.length) % U64,
              { fp with pos := fp.pos + got.length, requests := fp.requests ++ [req] })
          else load_mg_loop mmax_ fuel (mG.take e ++ got ++ mG.drop (e + got.length))
              ((e + got.length) % U64)
              { fp with pos := fp.pos + got.length, requests := fp.requests ++ [req] } := by
      rw [load_mg_loop]
      simp only [hleft, fread, hfile, hpos, ← hreq, ← hgot]
      rw [if_pos (by omega)]
    have hmod : (e + got.length) % U64 = e + got.length := Nat.mod_eq_of_lt (by omega)
    have hlen' : (mG.take e ++ got ++ mG.drop (e + got.length)).length = mG.length := by
      simp only [List.length_append, List.length_take, List.length_drop]
      omega
    have hold : ∀ j, j < e ∨ e + got.length ≤ j →
        (mG.take e ++ got ++ mG.drop (e + got.length))[j]? = mG[j]? := by
      intro j hj
      have hte : (mG.take e).length = e := by rw [List.length_take]; omega
      rcases hj with h | h
      · rw [List.append_assoc, List.getElem?_append_left (by omega),
          List.getElem?_take_of_lt h]
      · rw [List.getElem?_append_right (by rw [List.length_append, hte]; omega),
          List.length_append, hte, List.getElem?_drop]
        congr 1
        omega
    have hnew : ∀ j, e ≤ j → j < e + got.length →
        (mG.take e ++ got ++ mG.drop (e + got.length))[j]? = file[j]? := by
      intro j h1 h2
      have hte : (mG.take e).length = e := by rw [List.length_take]; omega
      rw [List.getElem?_append_left (by rw [List.length_append, hte]; omega),
        List.getElem?_append_right (by omega), hte, hgj _ (by omega)]
      congr 1
      omega
    rw [hstep, hmod]
    by_cases hlt : got.length < BATCH_SIZE
    · rw [if_pos hlt]
      have hN : e + got.length = min mmax_ file.length := by omega
      refine ⟨_, _, by rw [hN], hlen', ?_, ?_, ?_⟩
      · intro j hj
        exact hold j (by omega)
      · intro j h1 h2
        exact hnew j h1 (by omega)
      · intro q hq
        simp only [List.mem_append, List.mem_singleton] at hq
        rcases hq with h | h
        · exact Or.inl h
        · exact Or.inr (by omega)
    · rw [if_neg hlt]
      have hfull : got.length = 1024 := by omega
      obtain ⟨mG', fp', hrun, hl, hkeep, hcopy, hrq⟩ :=
        ih (e + got.length) (mG.take e ++ got ++ mG.drop (e + got.length))
          { fp with pos := fp.pos + got.length, requests := fp.requests ++ [req] }
          hfile (by simp only [hpos]) (by omega)
          (by
            have : min mmax_ file.length - e
                = (min mmax_ file.length - (e + got.length)) + 1024 := by omega
            rw [this, Nat.add_div_right _ (by decide)] at hf
            omega)
          (by rw [hlen']; exact hcap)
      refine ⟨mG', fp', hrun, by rw [hl, hlen'], ?_, ?_, ?_⟩
      · intro j hj
        rw [hkeep j (by omega), hold j (by omega)]
      · intro j h1 h2
        rcases Nat.lt_or_ge j (e + got.length) with h | h
        · rw [hkeep j (Or.inl h), hnew j h1 h]
        · exact hcopy j h h2
      · intro q hq
        rcases hrq q hq with h | h
        · simp only [List.mem_append, List.mem_singleton] at h
          rcases h with h | h
          · exact Or.inl h
          · exact Or.inr (by omega)
        · exact Or.inr h

/-! ## Single iterations of the search -/

/-- An iteration whose probe index lies outside the table. -/
theorem search_step_out_of_bounds (find : List Nat) (mG : List epir_mG_t)
    (my fuel imin imax left right imid : Nat) (hr : imin ≤ imax)
    (hden : (right + U32 - left) % U32 ≠ 0)
    (hmid : (imin + ((imax - imin) * ((my + U32 - left) % U32) % U64)
      / ((right + U32 - left) % U32)) % U64 = imid)
    (hnone : mG[imid]? = none) :
    interpolation_search_loop find mG my (fuel + 1) imin imax left right
      = .error .out_of_bounds := by
  rw [interpolation_search_loop, if_pos hr]
  simp only [if_neg hden, hmid, hnone]

/-- An iteration whose probe compares above the target: the upper end moves to
`imid - 1` in `size_t`. -/
theorem search_step_above (find : List Nat) (mG : List epir_mG_t)
    (my fuel imin imax left right imid : Nat) (e : epir_mG_t) (hr : imin ≤ imax)
    (hden : (right + U32 - left) % U32 ≠ 0)
    (hmid : (imin + ((imax - imin) * ((my + U32 - left) % U32) % U64)
      / ((right + U32 - left) % U32)) % U64 = imid)
    (he : mG[imid]? = some e) (hcmp : 0 < memcmp e.point find EPIR_POINT_SIZE) :
    interpolation_search_loop find mG my (fuel + 1) imin imax left right
      = interpolation_search_loop find mG my fuel imin ((imid + U64 - 1) % U64) left
          (load_uint32_t e.point) := by
  rw [interpolation_search_loop, if_pos hr]
  simp only [if_neg hden, hmid, he]
  rw [if_neg (by omega), if_pos hcmp]

/-- An iteration entered with equal cached keys. -/
theorem search_step_equal_keys (find : List Nat) (mG : List epir_mG_t)
    (my fuel imin imax key : Nat) (hr : imin ≤ imax) :
    interpolation_search_loop find mG my (fuel + 1) imin imax key key
      = .error .div_by_zero := by
  rw [interpolation_search_loop, if_pos hr]
  simp only [Nat.add_sub_cancel_left, Nat.mod_self, if_true]

/-- An iteration for which no fuel is left. -/
theorem search_step_no_fuel (find : List Nat) (mG : List epir_mG_t)
    (my imin imax left right : Nat) (hr : imin ≤ imax) :
    interpolation_search_loop find mG my 0 imin imax left right = .error .fuel := by
  rw [interpolation_search_loop, if_pos hr]

/-! ## The progress count of the builder -/

theorem bind_eq_ok {ε α β : Type} {x : Except ε α} {f : α → Except ε β} {b : β}
    (h : (x >>= f) = .ok b) : ∃ a, x = .ok a ∧ f a = .ok b := by
  cases x with
  | error e => simp [bind, Except.bind] at h
  | ok a => exact ⟨a, rfl, h⟩

theorem cb_advance_zero (d : mg_cb_data) : cb_advance d 0 = d := by
  simp [cb_advance]

theorem cb_advance_add (d : mg_cb_data) (a b : Nat) :
    cb_advance (cb_advance d a) b = cb_advance d (a + b) := by
  simp only [cb_advance, List.range_add, List.map_append, List.map_map, List.append_assoc,
    mg_cb_data.mk.injEq, Nat.add_assoc, true_and, List.append_cancel_left_eq]
  apply List.map_congr_left
  intro i _
  simp only [Function.comp]
  omega

/-- A call of `mg_cb` that returns has advanced the record by one. -/
theorem mg_cb_advance {d d' : mg_cb_data} (h : mg_cb d = .ok d')
    (hb : d.points_computed + 1 < U64) : d' = cb_advance d 1 := by
  unfold mg_cb at h
  rw [Nat.mod_eq_of_lt hb] at h
  split_ifs at h
  cases h
  simp [cb_advance, List.range_succ]

/-- The prepare loop calls the hook once per iteration. -/
theorem mg_generate_prepare_loop_calls (C : Curve) (base : C.Pt) :
    ∀ (k m : Nat) (mG : List epir_mG_t) (mG_p3 : List C.Pt) (d : mg_cb_data)
      (res : List epir_mG_t × List C.Pt × mg_cb_data),
      mg_generate_prepare_loop C base (some mg_cb) k m (mG, mG_p3, d) = .ok res →
      d.points_computed + k < U64 → res.2.2 = cb_advance d k := by
  intro k
  induction k with
  | zero =>
    intro m mG mG_p3 d res h _
    rw [mg_generate_prepare_loop] at h
    cases h
    exact (cb_advance_zero d).symm
  | succ k ih =>
    intro m mG mG_p3 d res h hb
    rw [mg_generate_prepare_loop] at h
    obtain ⟨prev, _, h⟩ := bind_eq_ok h
    obtain ⟨p3a, _, h⟩ := bind_eq_ok h
    obtain ⟨cur, _, h⟩ := bind_eq_ok h
    obtain ⟨mGa, _, h⟩ := bind_eq_ok h
    obtain ⟨d1, hd1, h⟩ := bind_eq_ok h
    have hd1' := mg_cb_advance hd1 (by omega)
    subst hd1'
    have := ih _ _ _ _ _ h (by simp only [cb_advance]; omega)
    rw [this, cb_advance_add, Nat.add_comm]

/-- The prepare stage calls the hook once per lane. -/
theorem mg_generate_prepare_calls (C : Curve) (ctx : epir_ecelgamal_mg_generate_context C)
    (mG : List epir_mG_t) (mG_p3 : List C.Pt) (T : Nat) (d : mg_cb_data)
    (res : epir_ecelgamal_mg_generate_context C × List epir_mG_t × List C.Pt × mg_cb_data)
    (h : epir_ecelgamal_mg_generate_prepare C ctx mG mG_p3 T (some mg_cb) d = .ok res)
    (hT : 1 ≤ T) (hb : d.points_computed + T < U64) : res.2.2.2 = cb_advance d T := by
  unfold epir_ecelgamal_mg_generate_prepare at h
  obtain ⟨p3a, _, h1⟩ := bind_eq_ok h
  obtain ⟨first, _, h2⟩ := bind_eq_ok h1
  obtain ⟨mGa, _, h3⟩ := bind_eq_ok h2
  obtain ⟨d1, hd1, h4⟩ := bind_eq_ok h3
  obtain ⟨⟨mGb, p3b, d2⟩, hloop, h5⟩ := bind_eq_ok h4
  obtain ⟨last, _, h6⟩ := bind_eq_ok h5
  clear h h1 h2 h3 h4 h5
  have hd1' := mg_cb_advance hd1 (by omega)
  subst hd1'
  have hst := mg_generate_prepare_loop_calls C _ _ _ _ _ _ _ hloop
    (by simp only [cb_advance]; omega)
  cases h6
  simp only at hst
  simp only [hst, cb_advance_add]
  congr 1
  omega

theorem lane_count_step {T mmax i : Nat} (hT : 1 ≤ T) (hi : i < mmax) :
    lane_count T mmax i = lane_count T mmax (i + T) + 1 := by
  unfold lane_count
  rw [if_pos hi]
  split_ifs with h
  · have : mmax - 1 - i = (mmax - 1 - (i + T)) + T := by omega
    rw [this, Nat.add_div_right _ (by omega)]
  · rw [Nat.div_eq_of_lt (by omega)]

/-- A compute lane calls the hook once per iteration. -/
theorem mg_generate_compute_calls (C : Curve) (ctx : epir_ecelgamal_mg_generate_context C)
    (mmax off T : Nat) (hT1 : 1 ≤ T) (hmm : mmax + T ≤ U64) :
    ∀ (fuel m i : Nat) (mG : List epir_mG_t) (P : C.Pt) (d : mg_cb_data)
      (res : List epir_mG_t × C.Pt × mg_cb_data),
      epir_ecelgamal_mg_generate_compute C ctx mmax off T (some mg_cb) fuel m (mG, P, d)
        = .ok res →
      i = m * T + off → i < mmax + T → d.points_computed + lane_count T mmax i < U64 →
      res.2.2 = cb_advance d (lane_count T mmax i) := by
  intro fuel
  induction fuel with
  | zero =>
    intro m i mG P d res h hi hlt _
    have hidx : ((m * T) % U64 + off) % U64 = i := by
      have h1 : m * T % U64 = m * T := Nat.mod_eq_of_lt (by omega)
      rw [h1, Nat.mod_eq_of_lt (by omega), hi]
    rw [epir_ecelgamal_mg_generate_compute] at h
    simp only [hidx] at h
    split_ifs at h with hge
    cases h
    rw [lane_count, if_neg (by omega), cb_advance_zero]
  | succ fuel ih =>
    intro m i mG P d res h hi hlt hb
    have hidx : ((m * T) % U64 + off) % U64 = i := by
      have h1 : m * T % U64 = m * T := Nat.mod_eq_of_lt (by omega)
      rw [h1, Nat.mod_eq_of_lt (by omega), hi]
    rw [epir_ecelgamal_mg_generate_compute] at h
    simp only [hidx] at h
    split_ifs at h with hge
    · cases h
      rw [lane_count, if_neg (by omega), cb_advance_zero]
    · have hlt' : i < mmax := by omega
      have hstep := lane_count_step hT1 hlt'
      obtain ⟨mGa, _, h⟩ := bind_eq_ok h
      obtain ⟨d1, hd1, h⟩ := bind_eq_ok h
      have hd1' := mg_cb_advance hd1 (by omega)
      subst hd1'
      have hm : m ≤ i := by
        rw [hi]
        exact le_trans (Nat.le_mul_of_pos_right m hT1) (Nat.le_add_right _ _)
      have hm1 : (m + 1) % U64 = m + 1 := Nat.mod_eq_of_lt (by omega)
      rw [hm1] at h
      have := ih (m + 1) (i + T) _ _ _ _ h (by rw [hi, Nat.add_mul]; omega) (by omega)
        (by simp only [cb_advance]; omega)
      rw [this, cb_advance_add, hstep, Nat.add_comm]

theorem lanes_before_zero (T mmax : Nat) : lanes_before T mmax 0 = 0 := by
  simp [lanes_before]

theorem lanes_before_all {T mmax : Nat} (hT : 1 ≤ T) (hTm : T ≤ mmax) :
    lanes_before T mmax T + T = mmax := by
  unfold lanes_before
  have hr : mmax % T < T := Nat.mod_lt _ (by omega)
  have hq : 1 ≤ mmax / T := (Nat.one_le_div_iff (by omega)).2 hTm
  have hdm := Nat.div_add_mod mmax T
  rw [Nat.min_eq_left (le_of_lt hr)]
  have : (mmax / T - 1) * T + T = T * (mmax / T) := by
    rw [Nat.mul_comm T, ← Nat.succ_mul, Nat.succ_eq_add_one, Nat.sub_add_cancel hq]
  omega

theorem lanes_before_succ {T mmax id : Nat} (hT : 1 ≤ T) (hTm : T ≤ mmax) (hid : id < T) :
    lanes_before T mmax (id + 1) = lanes_before T mmax id + lane_count T mmax (T + id) := by
  have hr : mmax % T < T := Nat.mod_lt _ (by omega)
  have hq : 1 ≤ mmax / T := (Nat.one_le_div_iff (by omega)).2 hTm
  have hdm := Nat.div_add_mod mmax T
  unfold lanes_before lane_count
  obtain ⟨q, hqe⟩ : ∃ q, mmax / T = q + 1 := ⟨mmax / T - 1, by omega⟩
  generalize mmax % T = r at *
  rw [hqe, Nat.mul_succ] at hdm
  rw [hqe, Nat.add_sub_cancel, Nat.mul_succ]
  rcases Nat.lt_or_ge id r with h | h
  · rw [Nat.min_eq_right (by omega), Nat.min_eq_right (by omega), if_pos (by omega)]
    have : mmax - 1 - (T + id) = (r - 1 - id) + T * q := by omega
    rw [this, Nat.add_mul_div_left _ _ (by omega), Nat.div_eq_of_lt (by omega)]
    omega
  · rw [Nat.min_eq_left (by omega), Nat.min_eq_left (by omega)]
    rcases Nat.eq_zero_or_pos q with hq0 | hq0
    · subst hq0
      rw [if_neg (by omega)]
      omega
    · obtain ⟨q', rfl⟩ : ∃ q', q = q' + 1 := ⟨q - 1, by omega⟩
      rw [Nat.mul_succ] at hdm
      rw [if_pos (by omega)]
      have : mmax - 1 - (T + id) = (T + r - 1 - id) + T * q' := by omega
      rw [this, Nat.add_mul_div_left _ _ (by omega), Nat.div_eq_of_lt (by omega)]
      omega

/-- The parallel region calls the hook once per iteration of every lane. -/
theorem mg_generate_parallel_calls (C : Curve) (fuel : Nat)
    (ctx : epir_ecelgamal_mg_generate_context C) (mmax T : Nat) (hT1 : 1 ≤ T) (hTm : T ≤ mmax)
    (hmm : mmax + T ≤ U64) :
    ∀ (k id : Nat) (mG : List epir_mG_t) (mG_p3 : List C.Pt) (d : mg_cb_data)
      (res : List epir_mG_t × List C.Pt × mg_cb_data) (n : Nat),
      mg_generate_parallel C fuel ctx mmax T k id (mG, mG_p3, d) = .ok res →
      id + k = T → lanes_before T mmax id + n = lanes_before T mmax T →
      d.points_computed + n < U64 → res.2.2 = cb_advance d n := by
  intro k
  induction k with
  | zero =>
    intro id mG mG_p3 d res n h hid hn _
    rw [mg_generate_parallel] at h
    cases h
    have : id = T := by omega
    subst this
    have hn0 : n = 0 := by omega
    rw [hn0, cb_advance_zero]
  | succ k ih =>
    intro id mG mG_p3 d res n h hid hn hb
    rw [mg_generate_parallel] at h
    obtain ⟨p, _, h1⟩ := bind_eq_ok h
    obtain ⟨⟨mG1, p1, d1⟩, hlane, h2⟩ := bind_eq_ok h1
    obtain ⟨p3a, _, h3⟩ := bind_eq_ok h2
    clear h h1 h2
    have hsucc := lanes_before_succ hT1 hTm (show id < T by omega)
    have hmono : lanes_before T mmax (id + 1) ≤ lanes_before T mmax T := by
      unfold lanes_before
      have h1 : (mmax / T - 1) * (id + 1) ≤ (mmax / T - 1) * T :=
        Nat.mul_le_mul_left _ (by omega)
      have h2 : min (mmax % T) (id + 1) ≤ min (mmax % T) T :=
        min_le_min_left _ (by omega)
      omega
    have hd1 := mg_generate_compute_calls C ctx mmax id T hT1 hmm fuel 1 (T + id) _ _ _ _ hlane
      (by rw [Nat.one_mul]) (by omega) (by omega)
    simp only at hd1
    subst hd1
    have := ih (id + 1) _ _ _ _ (n - lane_count T mmax (T + id)) h3 (by omega) (by omega)
      (by simp only [cb_advance]; omega)
    rw [this, cb_advance_add]
    congr 1
    omega

/-- The function `epir_ecelgamal_mg_generate` is its two stages followed by the sort. -/
theorem mg_generate_eq_stages (C : Curve) (fuel T : Nat) (mG : List epir_mG_t) (mmax : Nat)
    (cb : Bool) :
    epir_ecelgamal_mg_generate C fuel T mG mmax cb
      = (mg_generate_stages C fuel T mG mmax cb >>= fun s =>
          .ok (epir_ecelgamal_mg_generate_sort C s.1 s.2.1, s.2.2)) := by
  unfold epir_ecelgamal_mg_generate mg_generate_stages
  dsimp only
  cases hp : epir_ecelgamal_mg_generate_prepare C ⟨mmax, 0⟩ mG (List.replicate T 0) T
      (some mg_cb) ⟨0, cb, []⟩ with
  | error e => rfl
  | ok s1 =>
    obtain ⟨ctx, mG1, p3, d1⟩ := s1
    simp only [bind, Except.bind]
    cases hq : mg_generate_parallel C fuel ctx mmax T T 0 (mG1, p3, d1) with
    | error e => rfl
    | ok s2 => rfl

/-- The two stages of the builder: with `1 ≤ omp_threads ≤ mmax`, an array of `mmax`
entries and a non-null callback they leave the unsorted table `rawTable` and have called
the hook `mmax` times, with the counts `1, …, mmax`. -/
theorem mg_generate_stages_spec (C : Curve) (fuel T mmax : Nat) (mG : List epir_mG_t)
    (hT1 : 1 ≤ T) (hT : T ≤ U32) (hTm : T ≤ mmax) (hmm : mmax + T ≤ U64)
    (hlen : mG.length = mmax) (hfuel : mmax ≤ fuel) :
    mg_generate_stages C fuel T mG mmax true
      = .ok (⟨mmax, T • C.B⟩, rawTable C mmax,
          ⟨mmax, true, (List.range mmax).map (fun i => i + 1)⟩) := by
  obtain ⟨mG1, p31, d1, hrun1, hl1, hp1, hcb1, hfin1⟩ :=
    mg_generate_prepare_spec C ⟨mmax, 0⟩ mG (List.replicate T 0) T ⟨0, true, []⟩ hT1 hT
      (by omega) (List.length_replicate _ _) rfl
  obtain ⟨mG2, p32, d2, hrun2, hl2, hcb2, hfin2⟩ :=
    mg_generate_parallel_spec C fuel ⟨mmax, T • C.B⟩ mmax T hT1 hTm hmm rfl hfuel T 0 mG1 p31 d1
      (by omega) (by rw [hl1, hlen]) hp1 hcb1
      (by
        intro j _ hcase
        rcases hcase with h | h
        · exact (hfin1 j h).1
        · omega)
      (fun j _ hj => (hfin1 j hj).2)
  have htab : mG2 = rawTable C mmax := by
    apply List.ext_getElem?
    intro j
    rcases Nat.lt_or_ge j mmax with h | h
    · rw [hfin2 j h, rawTable_getElem? C mmax j h]
    · rw [List.getElem?_eq_none (by omega), List.getElem?_eq_none (by rw [rawTable_length]; omega)]
  have hall := lanes_before_all hT1 hTm
  have hd1 := mg_generate_prepare_calls C _ _ _ _ _ _ hrun1 hT1 (by show 0 + T < U64; omega)
  simp only at hd1
  have hd2 := mg_generate_parallel_calls C fuel ⟨mmax, T • C.B⟩ mmax T hT1 hTm hmm T 0 _ _ _ _
    (mmax - T) hrun2 (by omega) (by rw [lanes_before_zero]; omega)
    (by rw [hd1]; simp only [cb_advance]; omega)
  simp only at hd2
  have hd : d2 = ⟨mmax, true, (List.range mmax).map (fun i => i + 1)⟩ := by
    rw [hd2, hd1, cb_advance_add, show T + (mmax - T) = mmax by omega]
    simp [cb_advance]
  unfold mg_generate_stages
  simp only [hrun1, hrun2, bind, Except.bind, htab, hd]

/-! ## Claims on encryption, decryption and the search -/

/-- Claim C1, as amended: for every lane count `T` and every `mmax` with
`max 2 T ≤ mmax ≤ 2^31`, on an array of `mmax` entries and with a non-null progress
callback the builder returns a table `mG` such that, for every `m < mmax`, every
private key `sk` and every randomness, decrypting `encrypt(sk*B, m)` and
`encrypt_fast(sk, m)` with `mG` returns `m`. -/
theorem encrypt_decrypt_round_trip (C : Curve) (fuel_g fuel T mmax m sk : Nat)
    (r : Option Nat) (rnd : Nat) (buf : List epir_mG_t)
    (hT1 : 1 ≤ T) (hTm : T ≤ mmax) (h2 : 2 ≤ mmax) (h31 : mmax ≤ 2 ^ 31)
    (hbuf : buf.length = mmax) (hm : m < mmax) (hfg : mmax ≤ fuel_g) (hf : mmax ≤ fuel) :
    ∃ mG d, epir_ecelgamal_mg_generate C fuel_g T buf mmax true = .ok (mG, d) ∧
      epir_ecelgamal_decrypt C fuel sk
        (epir_ecelgamal_encrypt C (epir_pubkey_from_privkey C sk) m r rnd) mG mmax
        = .ok (m : Int) ∧
      epir_ecelgamal_decrypt C fuel sk (epir_ecelgamal_encrypt_fast C sk m r rnd) mG mmax
        = .ok (m : Int) := by
  have hU32 : U32 = 2 ^ 32 := rfl
  have hU64 : U64 = 2 ^ 64 := rfl
  obtain ⟨d, hgen⟩ := mg_generate_spec C fuel_g T mmax buf hT1 (by omega) hTm (by omega) hbuf hfg
  refine ⟨mG_table C mmax, d, hgen, ?_, ?_⟩
  · rw [decrypt_encrypt C mmax m fuel sk r rnd h2 (by omega) hm hf, toInt32_small m (by omega)]
  · rw [decrypt_encrypt_fast C mmax m fuel sk r rnd h2 (by omega) hm hf,
      toInt32_small m (by omega)]

/-- Instance of `encrypt_decrypt_round_trip`: one lane, `mmax = 2`, `m = 1`. -/
theorem encrypt_decrypt_round_trip_witness :
    ∃ mG d, epir_ecelgamal_mg_generate toyCurve 2 1 [⟨[], 0⟩, ⟨[], 0⟩] 2 true = .ok (mG, d) ∧
      epir_ecelgamal_decrypt toyCurve 2 5
        (epir_ecelgamal_encrypt toyCurve (epir_pubkey_from_privkey toyCurve 5) 1 (some 7) 0)
        mG 2 = .ok ((1 : Nat) : Int) ∧
      epir_ecelgamal_decrypt toyCurve 2 5
        (epir_ecelgamal_encrypt_fast toyCurve 5 1 (some 7) 0) mG 2 = .ok ((1 : Nat) : Int) :=
  encrypt_decrypt_round_trip toyCurve 2 2 1 2 1 5 (some 7) 0 [⟨[], 0⟩, ⟨[], 0⟩]
    (by decide) (by decide) (by decide) (by decide) rfl (by decide) (by decide) (by decide)

/-- Claim C1 fails as stated. With `mmax = 1` the table is built, and decrypting the
cipher of `m = 0` divides by zero in the search; with `mmax = 2^31 + 1` decrypting the
cipher of `m = 2^31` returns `-2^31`. -/
theorem encrypt_decrypt_round_trip_counterexample :
    (∃ mG d, epir_ecelgamal_mg_generate toyCurve 1 1 [⟨[], 0⟩] 1 true = .ok (mG, d) ∧
      epir_ecelgamal_decrypt toyCurve 1 5
        (epir_ecelgamal_encrypt toyCurve (epir_pubkey_from_privkey toyCurve 5) 0 (some 7) 0)
        mG 1 = .error .div_by_zero) ∧
    (∃ mG d, epir_ecelgamal_mg_generate toyCurve (2 ^ 31 + 1) 1
        (List.replicate (2 ^ 31 + 1) ⟨[], 0⟩) (2 ^ 31 + 1) true = .ok (mG, d) ∧
      epir_ecelgamal_decrypt toyCurve (2 ^ 31 + 1) 5
        (epir_ecelgamal_encrypt toyCurve (epir_pubkey_from_privkey toyCurve 5) (2 ^ 31)
          (some 7) 0) mG (2 ^ 31 + 1) = .ok (-2147483648)) := by
  constructor
  · obtain ⟨d, hgen⟩ := mg_generate_spec toyCurve 1 1 1 [⟨[], 0⟩] (by decide) (by decide)
      (by decide) (by decide) rfl (by decide)
    refine ⟨mG_table toyCurve 1, d, hgen, ?_⟩
    rw [encrypt_eq, decrypt_cipher, mG_table_one]
    exact interpolation_search_singleton 0 _ _
  · obtain ⟨d, hgen⟩ := mg_generate_spec toyCurve (2 ^ 31 + 1) 1 (2 ^ 31 + 1)
      (List.replicate (2 ^ 31 + 1) ⟨[], 0⟩) (by decide) (by decide) (by decide) (by decide)
      (List.length_replicate _ _) (le_refl _)
    refine ⟨mG_table toyCurve (2 ^ 31 + 1), d, hgen, ?_⟩
    rw [decrypt_encrypt toyCurve (2 ^ 31 + 1) (2 ^ 31) (2 ^ 31 + 1) 5 (some 7) 0 (by decide)
      (by decide) (by decide) (le_refl _), toInt32_two_pow_31]

/-- Claim C2: with `pk = sk*B`, for every message and every supplied randomness `r`
(or the same drawn scalar), `epir_ecelgamal_encrypt(pk, m, r)` and
`epir_ecelgamal_encrypt_fast(sk, m, r)` are the same 64 bytes, the compressed points
`c1 = r*B` and `c2 = r*pk + m*B = (r*sk + m)*B`. -/
theorem encrypt_paths_agree (C : Curve) (sk m : Nat) (r : Option Nat) (rnd : Nat) :
    epir_ecelgamal_encrypt C (epir_pubkey_from_privkey C sk) m r rnd
      = epir_ecelgamal_encrypt_fast C sk m r rnd ∧
    epir_ecelgamal_encrypt_fast C sk m r rnd
      = C.tobytes ((r.getD rnd) • C.B)
        ++ C.tobytes (((r.getD rnd) * sk + m % U64) • C.B) ∧
    (r.getD rnd) • (sk • C.B) + (m % U64) • C.B = ((r.getD rnd) * sk + m % U64) • C.B ∧
    (epir_ecelgamal_encrypt_fast C sk m r rnd).length = 64 := by
  refine ⟨by rw [encrypt_eq, encrypt_fast_eq], encrypt_fast_eq C sk m r rnd, ?_,
    encrypt_fast_length C sk m r rnd⟩
  rw [add_nsmul, mul_nsmul']

/-- Claim C3, at the failing input: on a table of one entry (`mmax = 1`), whatever
the target, stored or not, `interpolation_search` divides by `right - left = 0`
instead of returning the stored scalar or `-1`. -/
theorem interpolation_search_singleton_fault (fuel : Nat) (find : List Nat) (e : epir_mG_t) :
    interpolation_search (fuel + 1) find [e] 1 = .error .div_by_zero ∧
    interpolation_search (fuel + 1) e.point [e] 1 ≠ .ok (toInt32 e.scalar) ∧
    interpolation_search (fuel + 1) find [e] 1 ≠ .ok (-1) := by
  rw [interpolation_search_singleton, interpolation_search_singleton]
  exact ⟨rfl, by simp, by simp⟩

/-! ## Claims on the table builder -/

theorem rawTable_scalars (C : Curve) (mmax : Nat) (h : mmax ≤ U32) :
    (rawTable C mmax).map (fun e => e.scalar) = List.range mmax := by
  rw [rawTable, List.map_map]
  conv_rhs => rw [← List.map_id (List.range mmax)]
  apply List.map_congr_left
  intro m hm
  rw [List.mem_range] at hm
  simp only [Function.comp, mG_entry, id]
  exact Nat.mod_eq_of_lt (by omega)

theorem mem_mG_table {C : Curve} {mmax : Nat} {e : epir_mG_t} :
    e ∈ mG_table C mmax ↔ ∃ m, m < mmax ∧ e = mG_entry C m := by
  rw [(mG_table_perm C mmax).mem_iff, mem_rawTable]

/-- With more lanes than entries the prepare stage writes outside the array. -/
theorem mg_generate_two_lanes_one_entry (C : Curve) (fuel : Nat) (e : epir_mG_t) :
    epir_ecelgamal_mg_generate C fuel 2 [e] 1 true = .error .out_of_bounds := by
  simp [epir_ecelgamal_mg_generate, epir_ecelgamal_mg_generate_prepare,
    mg_generate_prepare_loop, store, load, call_cb, mg_cb, bind, Except.bind]

/-- With a null progress callback `mg_cb` calls through the null pointer. -/
theorem mg_generate_null_callback (C : Curve) (fuel : Nat) (e : epir_mG_t) :
    epir_ecelgamal_mg_generate C fuel 1 [e] 1 false = .error .null_call := by
  simp [epir_ecelgamal_mg_generate, epir_ecelgamal_mg_generate_prepare, store, load, call_cb,
    mg_cb, bind, Except.bind]

/-- Claim C9, as amended: for every lane count `T` and every `mmax` with
`1 ≤ T ≤ mmax ≤ 2^32`, on an array of `mmax` entries and with a non-null progress
callback, `epir_ecelgamal_mg_generate` returns a table of exactly `mmax` entries
whose scalar fields are a permutation of `0, …, mmax - 1` and in which every entry
satisfies `point = compress(scalar * B)`. -/
theorem mg_generate_complete (C : Curve) (fuel T mmax : Nat) (buf : List epir_mG_t)
    (hT1 : 1 ≤ T) (hTm : T ≤ mmax) (hmm : mmax ≤ 2 ^ 32) (hbuf : buf.length = mmax)
    (hf : mmax ≤ fuel) :
    ∃ mG d, epir_ecelgamal_mg_generate C fuel T buf mmax true = .ok (mG, d) ∧
      mG.length = mmax ∧
      (mG.map (fun e => e.scalar)).Perm (List.range mmax) ∧
      ∀ e ∈ mG, e.point = ge25519_p3_tobytes C (ge25519_scalarmult_base C e.scalar) := by
  have hU32 : U32 = 2 ^ 32 := rfl
  have hU64 : U64 = 2 ^ 64 := rfl
  obtain ⟨d, hgen⟩ := mg_generate_spec C fuel T mmax buf hT1 (by omega) hTm (by omega) hbuf hf
  refine ⟨mG_table C mmax, d, hgen, mG_table_length C mmax, ?_, ?_⟩
  · rw [← rawTable_scalars C mmax (by omega)]
    exact (mG_table_perm C mmax).map _
  · intro e he
    obtain ⟨m, hm, rfl⟩ := mem_mG_table.1 he
    simp only [mG_entry, ge25519_p3_tobytes, ge25519_scalarmult_base]
    rw [Nat.mod_eq_of_lt (by omega)]

/-- Instance of `mg_generate_complete`: two lanes, three entries. -/
theorem mg_generate_complete_witness :
    ∃ mG d, epir_ecelgamal_mg_generate toyCurve 3 2 [⟨[], 0⟩, ⟨[], 0⟩, ⟨[], 0⟩] 3 true
        = .ok (mG, d) ∧
      mG.length = 3 ∧
      (mG.map (fun e => e.scalar)).Perm (List.range 3) ∧
      ∀ e ∈ mG, e.point
        = ge25519_p3_tobytes toyCurve (ge25519_scalarmult_base toyCurve e.scalar) :=
  mg_generate_complete toyCurve 3 2 3 [⟨[], 0⟩, ⟨[], 0⟩, ⟨[], 0⟩] (by decide) (by decide)
    (by decide) rfl (by decide)

/-- Claim C9 fails as stated. With `mmax = 2^32 + 1` the table is built but its scalar
fields, stored as `uint32_t`, are not `0, …, 2^32`. With two lanes and `mmax = 1` the
prepare stage writes `mG[1]` outside the one-entry array, and with a null progress
callback `mg_cb` calls through it: no table is produced. -/
theorem mg_generate_complete_counterexample :
    (∃ mG d, epir_ecelgamal_mg_generate toyCurve (2 ^ 32 + 1) 1
        (List.replicate (2 ^ 32 + 1) ⟨[], 0⟩) (2 ^ 32 + 1) true = .ok (mG, d) ∧
      ¬ (mG.map (fun e => e.scalar)).Perm (List.range (2 ^ 32 + 1))) ∧
    epir_ecelgamal_mg_generate toyCurve 1 2 [⟨[], 0⟩] 1 true = .error .out_of_bounds ∧
    epir_ecelgamal_mg_generate toyCurve 1 1 [⟨[], 0⟩] 1 false = .error .null_call := by
  refine ⟨?_, mg_generate_two_lanes_one_entry toyCurve 1 _,
    mg_generate_null_callback toyCurve 1 _⟩
  obtain ⟨d, hgen⟩ := mg_generate_spec toyCurve (2 ^ 32 + 1) 1 (2 ^ 32 + 1)
    (List.replicate (2 ^ 32 + 1) ⟨[], 0⟩) (by decide) (by decide) (by decide) (by decide)
    (List.length_replicate _ _) (le_refl _)
  refine ⟨mG_table toyCurve (2 ^ 32 + 1), d, hgen, ?_⟩
  intro hperm
  have hmem : 2 ^ 32 ∈ (mG_table toyCurve (2 ^ 32 + 1)).map (fun e => e.scalar) :=
    hperm.mem_iff.2 (List.mem_range.2 (by decide))
  obtain ⟨e, he, hes⟩ := List.mem_map.1 hmem
  obtain ⟨m, _, rfl⟩ := mem_mG_table.1 he
  have hlt : m % U32 < U32 := Nat.mod_lt _ (by decide)
  have hU32 : U32 = 2 ^ 32 := rfl
  simp only [mG_entry] at hes
  omega

/-- Claim C4: for index counts `d_0 … d_{n-1}`, all at least 1, whose product fits
in 64 bits, and every `idx` below the product, on a buffer of `sum d_k` cipher
slots `epir_selector_create_choice` writes into the leading byte of slot
`sum_{j<k} d_j + r`, for every dimension `k` and every `r < d_k`, the value 1 if
`r = (idx / prod_{j>k} d_j) mod d_k` and 0 otherwise; the leading bytes of the
`sum d_k` slots hold exactly `n` ones. -/
theorem selector_one_hot (ciphers counts : List Nat) (idx : Nat)
    (hpos : ∀ d ∈ counts, 1 ≤ d) (hprod : counts.prod < U64) (hidx : idx < counts.prod)
    (hbuf : ciphers.length = counts.sum * 64) (hsz : ciphers.length < U64) :
    ∃ out, epir_selector_create_choice ciphers counts counts.length idx = .ok out ∧
      out.length = ciphers.length ∧
      (∀ k (hk : k < counts.length) r, r < counts[k] →
        out[((counts.take k).sum + r) * EPIR_CIPHER_SIZE]?
          = some (if r = idx / (counts.drop (k + 1)).prod % counts[k] then 1 else 0)) ∧
      (List.range counts.sum).countP (fun i => out[i * EPIR_CIPHER_SIZE]? = some 1)
        = counts.length := by
  obtain ⟨out, hrun, hl, hpat⟩ :=
    selector_create_choice_spec ciphers counts idx hpos hprod hidx (le_of_eq hbuf.symm) hsz
  refine ⟨out, hrun, hl, hpat, ?_⟩
  have hget : ∀ k (hk : k < counts.length), counts.getD k 1 = counts[k] :=
    fun k hk => List.getD_eq_getElem _ _ hk
  have := count_ones counts (fun k => idx / (counts.drop (k + 1)).prod % (counts.getD k 1))
    (fun i => decide (out[i * EPIR_CIPHER_SIZE]? = some 1))
    (by
      intro k hk
      simp only [hget k hk]
      exact Nat.mod_lt _ (hpos _ (List.getElem_mem _)))
    (by
      intro k hk r hr
      simp only [EPIR_CIPHER_SIZE, hpat k hk r hr, hget k hk]
      by_cases h : r = idx / (counts.drop (k + 1)).prod % counts[k]
      · simp [h]
      · simp [h])
    counts.length (le_refl _)
  rw [List.take_length] at this
  exact this

set_option maxRecDepth 100000 in
/-- Instance of `selector_one_hot`: `index_counts = [3,4,2]`, `idx = 17`; the nine
leading bytes are `[0,0,1] ++ [1,0,0,0] ++ [0,1]`. -/
theorem selector_one_hot_witness :
    (∃ out, epir_selector_create_choice (List.replicate 576 0) [3, 4, 2] 3 17 = .ok out ∧
      out.length = (List.replicate 576 0).length ∧
      (∀ k (hk : k < [3, 4, 2].length) r, r < [3, 4, 2][k] →
        out[((([3, 4, 2] : List Nat).take k).sum + r) * EPIR_CIPHER_SIZE]?
          = some (if r = 17 / (([3, 4, 2] : List Nat).drop (k + 1)).prod % [3, 4, 2][k]
              then 1 else 0)) ∧
      (List.range ([3, 4, 2] : List Nat).sum).countP
          (fun i => out[i * EPIR_CIPHER_SIZE]? = some 1)
        = [3, 4, 2].length) ∧
    (match epir_selector_create_choice (List.replicate 576 0) [3, 4, 2] 3 17 with
      | .ok out =>
        (List.range 9).map (fun i => out.getD (i * EPIR_CIPHER_SIZE) 2)
          == [0, 0, 1] ++ [1, 0, 0, 0] ++ [0, 1]
      | .error _ => false) = true :=
  ⟨selector_one_hot (List.replicate 576 0) [3, 4, 2] 17 (by decide) (by decide) (by decide)
    (by rw [List.length_replicate]; rfl) (by rw [List.length_replicate]; decide), by decide⟩

/-- Claim C5: for valid index counts and an in-range `idx`, every private key `sk`
and every supply `rnd` of encryption randomness, `epir_selector_create_` with the
fast encrypt replaces each of the `N = sum d_k` slots `i` by
`epir_ecelgamal_encrypt_fast(sk, flag_i)`, where `flag_i` is the leading byte
`epir_selector_create_choice` wrote for slot `i`; decrypting slot
`sum_{j<k} d_j + r` with `sk` and a built table of `2 ≤ mmax ≤ 2^32` entries yields 1
if `r = (idx / prod_{j>k} d_j) mod d_k` and 0 otherwise. -/
theorem selector_create_fast_decrypts (C : Curve) (fuel_g fuel T mmax sk : Nat)
    (gbuf : List epir_mG_t) (ciphers counts : List Nat) (idx : Nat) (rnd : Nat → Nat)
    (hT1 : 1 ≤ T) (hTm : T ≤ mmax) (h2 : 2 ≤ mmax) (hmm : mmax ≤ 2 ^ 32)
    (hgbuf : gbuf.length = mmax) (hfg : mmax ≤ fuel_g) (hf : mmax ≤ fuel)
    (hpos : ∀ d ∈ counts, 1 ≤ d) (hprod : counts.prod < U64) (hidx : idx < counts.prod)
    (hbuf : ciphers.length = counts.sum * 64) (hsz : ciphers.length < U64) :
    ∃ mG d plain out,
      epir_ecelgamal_mg_generate C fuel_g T gbuf mmax true = .ok (mG, d) ∧
      epir_selector_create_choice ciphers counts counts.length idx = .ok plain ∧
      epir_selector_create_ ciphers sk counts counts.length idx
        (epir_ecelgamal_encrypt_fast C) rnd = .ok out ∧
      out.length = counts.sum * EPIR_CIPHER_SIZE ∧
      (∀ i, i < counts.sum → ∃ flag, plain[i * EPIR_CIPHER_SIZE]? = some flag ∧
        (out.drop (i * EPIR_CIPHER_SIZE)).take EPIR_CIPHER_SIZE
          = epir_ecelgamal_encrypt_fast C sk flag none (rnd i)) ∧
      (∀ k (hk : k < counts.length) r, r < counts[k] →
        epir_ecelgamal_decrypt C fuel sk
          ((out.drop (((counts.take k).sum + r) * EPIR_CIPHER_SIZE)).take EPIR_CIPHER_SIZE)
          mG mmax
        = .ok (if r = idx / (counts.drop (k + 1)).prod % counts[k] then 1 else 0)) := by
  have hU32 : U32 = 2 ^ 32 := rfl
  have hU64 : U64 = 2 ^ 64 := rfl
  obtain ⟨d, hgen⟩ :=
    mg_generate_spec C fuel_g T mmax gbuf hT1 (by omega) hTm (by omega) hgbuf hfg
  obtain ⟨plain, hplain, hpl, hpat⟩ :=
    selector_create_choice_spec ciphers counts idx hpos hprod hidx (le_of_eq hbuf.symm) hsz
  obtain ⟨out, hout, hol, _, hslots⟩ :=
    selector_create_encrypt_spec sk (epir_ecelgamal_encrypt_fast C) rnd
      (fun m x => encrypt_fast_length C sk m none x) counts.sum 0 plain
      (by rw [Nat.zero_add, hpl, hbuf])
  have hcount : epir_selector_ciphers_count counts counts.length = counts.sum := by
    rw [epir_selector_ciphers_count, List.take_length]
    exact Nat.mod_eq_of_lt (by omega)
  -- every flag is 0 or 1, so the encrypted message is the flag itself
  have hflag : ∀ k (hk : k < counts.length) r, r < counts[k] →
      (out.drop (((counts.take k).sum + r) * 64)).take 64
        = epir_ecelgamal_encrypt_fast C sk
            (if r = idx / (counts.drop (k + 1)).prod % counts[k] then 1 else 0) none
            (rnd ((counts.take k).sum + r)) := by
    intro k hk r hr
    have hlt : (counts.take k).sum + r < counts.sum := by
      have := sum_take_le counts (k + 1)
      rw [sum_take_succ' counts k hk] at this
      omega
    obtain ⟨fl, hfl, hsl⟩ := hslots ((counts.take k).sum + r) (Nat.zero_le _) (by omega)
    rw [hpat k hk r hr] at hfl
    rw [hsl, ← Option.some.inj hfl]
    by_cases h : r = idx / (counts.drop (k + 1)).prod % counts[k]
    · simp [h]
    · simp [h]
  refine ⟨mG_table C mmax, d, plain, out, hgen, hplain, ?_, ?_, ?_, ?_⟩
  · unfold epir_selector_create_
    simp only [hcount, hplain, bind, Except.bind]
    exact hout
  · rw [hol, hpl, hbuf]
    rfl
  · intro i hi
    obtain ⟨k, hk, r, hr, rfl⟩ := slot_decompose counts i hi
    exact ⟨_, hpat k hk r hr, hflag k hk r hr⟩
  · intro k hk r hr
    simp only [EPIR_CIPHER_SIZE]
    rw [hflag k hk r hr]
    by_cases h : r = idx / (counts.drop (k + 1)).prod % counts[k]
    · rw [if_pos h, if_pos h, decrypt_encrypt_fast C mmax 1 fuel sk none _ h2 (by omega)
        (by omega) hf]
      rfl
    · rw [if_neg h, if_neg h, decrypt_encrypt_fast C mmax 0 fuel sk none _ h2 (by omega)
        (by omega) hf]
      rfl

/-- Instance of `selector_create_fast_decrypts`: `index_counts = [3,4,2]`, `idx = 17`,
a table of two entries. -/
theorem selector_create_fast_decrypts_witness :
    ∃ mG d plain out,
      epir_ecelgamal_mg_generate toyCurve 2 1 [⟨[], 0⟩, ⟨[], 0⟩] 2 true = .ok (mG, d) ∧
      epir_selector_create_choice (List.replicate 576 0) [3, 4, 2] ([3, 4, 2] : List Nat).length
        17 = .ok plain ∧
      epir_selector_create_ (List.replicate 576 0) 5 [3, 4, 2] ([3, 4, 2] : List Nat).length 17
        (epir_ecelgamal_encrypt_fast toyCurve) (fun i => 10 + i) = .ok out ∧
      out.length = ([3, 4, 2] : List Nat).sum * EPIR_CIPHER_SIZE ∧
      (∀ i, i < ([3, 4, 2] : List Nat).sum → ∃ flag,
        plain[i * EPIR_CIPHER_SIZE]? = some flag ∧
        (out.drop (i * EPIR_CIPHER_SIZE)).take EPIR_CIPHER_SIZE
          = epir_ecelgamal_encrypt_fast toyCurve 5 flag none ((fun i => 10 + i) i)) ∧
      (∀ k (hk : k < ([3, 4, 2] : List Nat).length) r, r < [3, 4, 2][k] →
        epir_ecelgamal_decrypt toyCurve 2 5
          ((out.drop (((([3, 4, 2] : List Nat).take k).sum + r) * EPIR_CIPHER_SIZE)).take
            EPIR_CIPHER_SIZE) mG 2
        = .ok (if r = 17 / (([3, 4, 2] : List Nat).drop (k + 1)).prod % [3, 4, 2][k]
            then 1 else 0)) :=
  selector_create_fast_decrypts toyCurve 2 2 1 2 5 [⟨[], 0⟩, ⟨[], 0⟩] (List.replicate 576 0)
    [3, 4, 2] 17 (fun i => 10 + i) (by decide) (by decide) (by decide) (by decide) rfl
    (by decide) (by decide) (by decide) (by decide) (by decide)
    (by rw [List.length_replicate]; rfl) (by rw [List.length_replicate]; decide)

theorem leVal_zeros (l : List Nat) (h : ∀ x ∈ l, x = 0) : leVal l = 0 := by
  induction l with
  | nil => rfl
  | cons x xs ih =>
    have hx : x = 0 := h x (List.mem_cons_self _ _)
    have := ih (fun y hy => h y (List.mem_cons_of_mem _ hy))
    simp [leVal, hx, this]

theorem replicate_flatten_length (a : List Nat) (n : Nat) (ha : a.length = 64) :
    (List.replicate n a).flatten.length = n * 64 := by
  induction n with
  | zero => simp
  | succ n ih =>
    rw [List.replicate_succ, List.flatten_cons, List.length_append, ih, ha]
    omega

theorem slot_replicate_flatten (a : List Nat) (ha : a.length = 64) :
    ∀ (n j : Nat), j < n → slot (List.replicate n a).flatten j = a
  | 0, _, h => absurd h (Nat.not_lt_zero _)
  | n + 1, 0, _ => by
    rw [List.replicate_succ, List.flatten_cons, slot_zero_append _ _ ha]
  | n + 1, j + 1, h => by
    rw [List.replicate_succ, List.flatten_cons, slot_succ_append _ _ _ ha]
    exact slot_replicate_flatten a ha n j (by omega)

/-! ## Claims on the reply decryptor -/

/-- Claim C6, as amended: for every `packing ≤ 4`, every byte string `b` of length
`n * packing < 2^31` and every key pair, if slot `i` of the reply buffer of `n`
ciphers encrypts the integer whose little-endian `packing`-byte encoding is
`b[i*packing .. (i+1)*packing)` and the built table of `2 ≤ mmax ≤ 2^31` entries
covers every such integer, then `epir_reply_decrypt` with `dimension = 1` returns
`n * packing` and the first `n * packing` bytes of the buffer equal `b`. -/
theorem reply_decrypt_round_trip (C : Curve) (fuel_g fuel T mmax sk packing n : Nat)
    (gbuf : List epir_mG_t) (reply b : List Nat)
    (hT1 : 1 ≤ T) (hTm : T ≤ mmax) (h2 : 2 ≤ mmax) (hmm : mmax ≤ 2 ^ 31)
    (hgbuf : gbuf.length = mmax) (hfg : mmax ≤ fuel_g) (hf : mmax ≤ fuel)
    (hpk4 : packing ≤ 4) (hb : b.length = n * packing) (hbytes : ∀ x ∈ b, x < 256)
    (hreply : reply.length = n * EPIR_CIPHER_SIZE)
    (henc : ∀ i, i < n →
      Encrypts C sk ((reply.drop (i * EPIR_CIPHER_SIZE)).take EPIR_CIPHER_SIZE)
        (leVal ((b.drop (i * packing)).take packing)))
    (hcover : ∀ i, i < n → leVal ((b.drop (i * packing)).take packing) < mmax)
    (hret : n * packing < 2 ^ 31) :
    ∃ mG d out, epir_ecelgamal_mg_generate C fuel_g T gbuf mmax true = .ok (mG, d) ∧
      epir_reply_decrypt C fuel reply (n * EPIR_CIPHER_SIZE) sk 1 packing mG mmax
        = .ok (out, ((n * packing : Nat) : Int)) ∧
      out.take (n * packing) = b := by
  have hU32 : U32 = 2 ^ 32 := rfl
  have hU64 : U64 = 2 ^ 64 := rfl
  obtain ⟨d, hgen⟩ :=
    mg_generate_spec C fuel_g T mmax gbuf hT1 (by omega) hTm (by omega) hgbuf hfg
  obtain ⟨out, hrun, hdata⟩ :=
    reply_decrypt_packed C fuel mmax sk packing n reply b h2 hmm hf hpk4 hb hbytes hreply henc
      hcover
  refine ⟨mG_table C mmax, d, out, hgen, ?_, hdata⟩
  rw [Nat.mod_eq_of_lt (by omega), toInt32_small _ hret] at hrun
  exact hrun

/-- Instance of `reply_decrypt_round_trip`: two ciphers of `0x0102` and `0x0304`,
`packing = 2`, `b = 02 01 04 03`. -/
theorem reply_decrypt_round_trip_witness :
    ∃ mG d out, epir_ecelgamal_mg_generate toyCurve 1000 1
        (List.replicate 1000 ⟨[], 0⟩) 1000 true = .ok (mG, d) ∧
      epir_reply_decrypt toyCurve 1000
        (epir_ecelgamal_encrypt toyCurve (epir_pubkey_from_privkey toyCurve 5) 0x0102 none 5
          ++ epir_ecelgamal_encrypt toyCurve (epir_pubkey_from_privkey toyCurve 5) 0x0304 none 6)
        (2 * EPIR_CIPHER_SIZE) 5 1 2 mG 1000 = .ok (out, ((2 * 2 : Nat) : Int)) ∧
      out.take (2 * 2) = [2, 1, 4, 3] :=
  reply_decrypt_round_trip toyCurve 1000 1000 1 1000 5 2 2 (List.replicate 1000 ⟨[], 0⟩)
    (epir_ecelgamal_encrypt toyCurve (epir_pubkey_from_privkey toyCurve 5) 0x0102 none 5
      ++ epir_ecelgamal_encrypt toyCurve (epir_pubkey_from_privkey toyCurve 5) 0x0304 none 6)
    [2, 1, 4, 3] (by decide) (by decide) (by decide) (by decide) (List.length_replicate _ _)
    (by decide) (by decide) (by decide) rfl (by decide)
    (by rw [List.length_append, encrypt_length, encrypt_length]; rfl)
    (by
      intro i hi
      have h0 := slot_zero_append
        (epir_ecelgamal_encrypt toyCurve (epir_pubkey_from_privkey toyCurve 5) 0x0102 none 5)
        (epir_ecelgamal_encrypt toyCurve (epir_pubkey_from_privkey toyCurve 5) 0x0304 none 6)
        (encrypt_length _ _ _ _ _)
      have h1 := slot_succ_append
        (epir_ecelgamal_encrypt toyCurve (epir_pubkey_from_privkey toyCurve 5) 0x0102 none 5)
        (epir_ecelgamal_encrypt toyCurve (epir_pubkey_from_privkey toyCurve 5) 0x0304 none 6)
        0 (encrypt_length _ _ _ _ _)
      rw [slot_single _ (encrypt_length _ _ _ _ _)] at h1
      rcases Nat.lt_succ_iff_lt_or_eq.1 hi with h | h
      · have hi0 : i = 0 := by omega
        subst hi0
        exact h0 ▸ encrypt_encrypts toyCurve 5 0x0102 none 5 (by decide)
      · subst h
        exact h1 ▸ encrypt_encrypts toyCurve 5 0x0304 none 6 (by decide))
    (by
      intro i hi
      rcases Nat.lt_succ_iff_lt_or_eq.1 hi with h | h
      · have hi0 : i = 0 := by omega
        subst hi0
        decide
      · subst h
        decide)
    (by decide)

/-- Claim C6 fails as stated. One cipher of `2^31`, the integer with the little-endian
encoding `00 00 00 80`, with `packing = 4` and a built table of `2^31 + 1` entries:
the call returns `-1`. And `2^31` ciphers of `0` with `packing = 1`: the call returns
`-2^31`, not `n * packing = 2^31`. -/
theorem reply_decrypt_round_trip_counterexample :
    (leVal [0, 0, 0, 128] = 2 ^ 31 ∧
      ∃ mG d out, epir_ecelgamal_mg_generate toyCurve (2 ^ 31 + 1) 1
          (List.replicate (2 ^ 31 + 1) ⟨[], 0⟩) (2 ^ 31 + 1) true = .ok (mG, d) ∧
        epir_reply_decrypt toyCurve (2 ^ 31 + 1)
          (epir_ecelgamal_encrypt toyCurve (epir_pubkey_from_privkey toyCurve 5) (2 ^ 31)
            (some 7) 0)
          (1 * 64) 5 1 4 mG (2 ^ 31 + 1) = .ok (out, -1)) ∧
    (∃ mG d out, epir_ecelgamal_mg_generate toyCurve 2 1 [⟨[], 0⟩, ⟨[], 0⟩] 2 true
        = .ok (mG, d) ∧
      epir_reply_decrypt toyCurve 2
        (List.replicate (2 ^ 31)
          (epir_ecelgamal_encrypt toyCurve (epir_pubkey_from_privkey toyCurve 5) 0
            (some 7) 0)).flatten
        (2 ^ 31 * 64) 5 1 1 mG 2 = .ok (out, -2147483648)) := by
  refine ⟨⟨by decide, ?_⟩, ?_⟩
  · obtain ⟨d, hgen⟩ := mg_generate_spec toyCurve (2 ^ 31 + 1) 1 (2 ^ 31 + 1)
      (List.replicate (2 ^ 31 + 1) ⟨[], 0⟩) (by decide) (by decide) (by decide) (by decide)
      (List.length_replicate _ _) (le_refl _)
    obtain ⟨out, hrun⟩ := reply_decrypt_single_phase_fails toyCurve (2 ^ 31 + 1) 5 4
      (mG_table toyCurve (2 ^ 31 + 1)) (2 ^ 31 + 1) (fun _ => -2147483648)
      (epir_ecelgamal_encrypt toyCurve (epir_pubkey_from_privkey toyCurve 5) (2 ^ 31)
        (some 7) 0) 1 (by decide) (by rw [encrypt_length])
      (by
        intro j hj
        have hj0 : j = 0 := by omega
        subst hj0
        rw [slot_single _ (encrypt_length _ _ _ _ _),
          decrypt_encrypt toyCurve (2 ^ 31 + 1) (2 ^ 31) (2 ^ 31 + 1) 5 (some 7) 0 (by decide)
            (by decide) (by decide) (le_refl _), toInt32_two_pow_31])
      ⟨0, by decide, by decide⟩
    exact ⟨mG_table toyCurve (2 ^ 31 + 1), d, out, hgen, hrun⟩
  · obtain ⟨d, hgen⟩ := mg_generate_spec toyCurve 2 1 2 [⟨[], 0⟩, ⟨[], 0⟩] (by decide)
      (by decide) (by decide) (by decide) rfl (by decide)
    have hc := encrypt_length toyCurve (epir_pubkey_from_privkey toyCurve 5) 0 (some 7) 0
    obtain ⟨out, hrun, _⟩ := reply_decrypt_packed toyCurve 2 2 5 1 (2 ^ 31)
      (List.replicate (2 ^ 31)
        (epir_ecelgamal_encrypt toyCurve (epir_pubkey_from_privkey toyCurve 5) 0
          (some 7) 0)).flatten
      (List.replicate (2 ^ 31) 0) (by decide) (by decide) (by decide) (by decide)
      (by rw [List.length_replicate, Nat.mul_one])
      (by
        intro x hx
        rw [List.eq_of_mem_replicate hx]
        decide)
      (replicate_flatten_length _ _ hc)
      (by
        intro i hi
        rw [slot_replicate_flatten _ hc _ _ hi, leVal_zeros _ (fun x hx =>
          List.eq_of_mem_replicate (List.mem_of_mem_drop (List.mem_of_mem_take hx)))]
        exact encrypt_encrypts toyCurve 5 0 (some 7) 0 (by decide))
      (by
        intro i _
        rw [leVal_zeros _ (fun x hx =>
          List.eq_of_mem_replicate (List.mem_of_mem_drop (List.mem_of_mem_take hx)))]
        decide)
    have hv : toInt32 ((2 ^ 31 * 1) % U64) = -2147483648 := by decide
    rw [hv] at hrun
    exact ⟨mG_table toyCurve 2, d, out, hgen, hrun⟩

/-- Claim C7, as amended: for a 128-byte reply of two ciphers and a built table that
covers them, `epir_reply_decrypt` with `dimension = 1` and `packing = 3` returns 6;
when the ciphers encrypt `0x030201` and `0x060504`, the little-endian readings of
`01 02 03` and `04 05 06`, the buffer starts with `01 02 03 04 05 06`; when they
encrypt `0x010203` and `0x040506` it starts with `03 02 01 06 05 04`. -/
theorem reply_decrypt_scenario (C : Curve) (fuel_g fuel T mmax sk : Nat)
    (gbuf : List epir_mG_t) (c1 c2 e1 e2 : List Nat)
    (hT1 : 1 ≤ T) (hTm : T ≤ mmax) (hcov : 0x060504 < mmax) (hmm : mmax ≤ 2 ^ 31)
    (hgbuf : gbuf.length = mmax) (hfg : mmax ≤ fuel_g) (hf : mmax ≤ fuel)
    (hc1 : Encrypts C sk c1 0x030201) (hc2 : Encrypts C sk c2 0x060504)
    (he1 : Encrypts C sk e1 0x010203) (he2 : Encrypts C sk e2 0x040506) :
    ∃ mG d out out', epir_ecelgamal_mg_generate C fuel_g T gbuf mmax true = .ok (mG, d) ∧
      epir_reply_decrypt C fuel (c1 ++ c2) 128 sk 1 3 mG mmax = .ok (out, 6) ∧
      out.take 6 = [0x01, 0x02, 0x03, 0x04, 0x05, 0x06] ∧
      epir_reply_decrypt C fuel (e1 ++ e2) 128 sk 1 3 mG mmax = .ok (out', 6) ∧
      out'.take 6 = [0x03, 0x02, 0x01, 0x06, 0x05, 0x04] := by
  have hU32 : U32 = 2 ^ 32 := rfl
  have hU64 : U64 = 2 ^ 64 := rfl
  obtain ⟨d, hgen⟩ :=
    mg_generate_spec C fuel_g T mmax gbuf hT1 (by omega) hTm (by omega) hgbuf hfg
  have hv : toInt32 ((2 * 3) % U64) = 6 := by decide
  have key : ∀ (a b : List Nat) (x y : Nat) (bs : List Nat), Encrypts C sk a x →
      Encrypts C sk b y → bs.length = 2 * 3 → (∀ z ∈ bs, z < 256) →
      leVal ((bs.drop (0 * 3)).take 3) = x → leVal ((bs.drop (1 * 3)).take 3) = y →
      x < mmax → y < mmax →
      ∃ out, epir_reply_decrypt C fuel (a ++ b) 128 sk 1 3 (mG_table C mmax) mmax
        = .ok (out, 6) ∧ out.take 6 = bs := by
    intro a b x y bs ha hb hbl hbb hx hy hxm hym
    have h0 := slot_zero_append a b ha.length
    have h1 := slot_succ_append a b 0 ha.length
    rw [slot_single _ hb.length] at h1
    obtain ⟨out, hrun, hdata⟩ :=
      reply_decrypt_packed C fuel mmax sk 3 2 (a ++ b) bs (by omega) hmm hf (by decide) hbl hbb
        (by rw [List.length_append, ha.length, hb.length])
        (by
          intro i hi
          rcases Nat.lt_succ_iff_lt_or_eq.1 hi with h | h
          · have hi0 : i = 0 := by omega
            subst hi0
            rw [h0, hx]; exact ha
          · subst h
            rw [h1, hy]; exact hb)
        (by
          intro i hi
          rcases Nat.lt_succ_iff_lt_or_eq.1 hi with h | h
          · have hi0 : i = 0 := by omega
            subst hi0
            rw [hx]; exact hxm
          · subst h
            rw [hy]; exact hym)
    rw [hv] at hrun
    exact ⟨out, hrun, hdata⟩
  obtain ⟨out, hr1, hd1⟩ := key c1 c2 0x030201 0x060504 [1, 2, 3, 4, 5, 6] hc1 hc2 rfl
    (by decide) (by decide) (by decide) (by omega) (by omega)
  obtain ⟨out', hr2, hd2⟩ := key e1 e2 0x010203 0x040506 [3, 2, 1, 6, 5, 4] he1 he2 rfl
    (by decide) (by decide) (by decide) (by omega) (by omega)
  exact ⟨mG_table C mmax, d, out, out', hgen, hr1, hd1, hr2, hd2⟩

/-- Instance of `reply_decrypt_scenario`: a table of `2^19` entries, ciphers made by
`epir_ecelgamal_encrypt`. -/
theorem reply_decrypt_scenario_witness :
    ∃ mG d out out', epir_ecelgamal_mg_generate toyCurve (2 ^ 19) 1
        (List.replicate (2 ^ 19) ⟨[], 0⟩) (2 ^ 19) true = .ok (mG, d) ∧
      epir_reply_decrypt toyCurve (2 ^ 19)
        (epir_ecelgamal_encrypt toyCurve (epir_pubkey_from_privkey toyCurve 5) 0x030201 none 5
          ++ epir_ecelgamal_encrypt toyCurve (epir_pubkey_from_privkey toyCurve 5) 0x060504
            none 6) 128 5 1 3 mG (2 ^ 19) = .ok (out, 6) ∧
      out.take 6 = [0x01, 0x02, 0x03, 0x04, 0x05, 0x06] ∧
      epir_reply_decrypt toyCurve (2 ^ 19)
        (epir_ecelgamal_encrypt toyCurve (epir_pubkey_from_privkey toyCurve 5) 0x010203 none 7
          ++ epir_ecelgamal_encrypt toyCurve (epir_pubkey_from_privkey toyCurve 5) 0x040506
            none 8) 128 5 1 3 mG (2 ^ 19) = .ok (out', 6) ∧
      out'.take 6 = [0x03, 0x02, 0x01, 0x06, 0x05, 0x04] :=
  reply_decrypt_scenario toyCurve (2 ^ 19) (2 ^ 19) 1 (2 ^ 19) 5
    (List.replicate (2 ^ 19) ⟨[], 0⟩) _ _ _ _ (by decide) (by decide) (by decide) (by decide)
    (List.length_replicate _ _) (le_refl _) (le_refl _)
    (encrypt_encrypts toyCurve 5 0x030201 none 5 (by decide))
    (encrypt_encrypts toyCurve 5 0x060504 none 6 (by decide))
    (encrypt_encrypts toyCurve 5 0x010203 none 7 (by decide))
    (encrypt_encrypts toyCurve 5 0x040506 none 8 (by decide))

/-- Claim C7 fails as stated. Two ciphers of the values `0x010203` and `0x040506`,
`dimension = 1`, `packing = 3`, a built table of `2^19` entries: the call returns 6
and the buffer starts with `03 02 01 06 05 04`, not `01 02 03 04 05 06`. -/
theorem reply_decrypt_scenario_counterexample :
    ∃ mG d out, epir_ecelgamal_mg_generate toyCurve (2 ^ 19) 1
        (List.replicate (2 ^ 19) ⟨[], 0⟩) (2 ^ 19) true = .ok (mG, d) ∧
      epir_reply_decrypt toyCurve (2 ^ 19)
        (epir_ecelgamal_encrypt toyCurve (epir_pubkey_from_privkey toyCurve 5) 0x010203
            (some 7) 0
          ++ epir_ecelgamal_encrypt toyCurve (epir_pubkey_from_privkey toyCurve 5) 0x040506
            (some 8) 0) 128 5 1 3 mG (2 ^ 19) = .ok (out, 6) ∧
      out.take 6 = [0x03, 0x02, 0x01, 0x06, 0x05, 0x04] ∧
      out.take 6 ≠ [0x01, 0x02, 0x03, 0x04, 0x05, 0x06] := by
  obtain ⟨d, hgen⟩ := mg_generate_spec toyCurve (2 ^ 19) 1 (2 ^ 19)
    (List.replicate (2 ^ 19) ⟨[], 0⟩) (by decide) (by decide) (by decide) (by decide)
    (List.length_replicate _ _) (le_refl _)
  have ha := encrypt_encrypts toyCurve 5 0x010203 (some 7) 0 (by decide)
  have hb := encrypt_encrypts toyCurve 5 0x040506 (some 8) 0 (by decide)
  have h0 := slot_zero_append _ (epir_ecelgamal_encrypt toyCurve
    (epir_pubkey_from_privkey toyCurve 5) 0x040506 (some 8) 0) ha.length
  have h1 := slot_succ_append _ (epir_ecelgamal_encrypt toyCurve
    (epir_pubkey_from_privkey toyCurve 5) 0x040506 (some 8) 0) 0 ha.length
  rw [slot_single _ hb.length] at h1
  obtain ⟨out, hrun, hdata⟩ :=
    reply_decrypt_packed toyCurve (2 ^ 19) (2 ^ 19) 5 3 2 _ [3, 2, 1, 6, 5, 4] (by decide)
      (by decide) (le_refl _) (by decide) rfl (by decide)
      (show (epir_ecelgamal_encrypt toyCurve (epir_pubkey_from_privkey toyCurve 5) 0x010203
          (some 7) 0 ++ epir_ecelgamal_encrypt toyCurve (epir_pubkey_from_privkey toyCurve 5)
          0x040506 (some 8) 0).length = 2 * 64 by
        rw [List.length_append, ha.length, hb.length])
      (by
        intro i hi
        rcases Nat.lt_succ_iff_lt_or_eq.1 hi with h | h
        · have hi0 : i = 0 := by omega
          subst hi0
          rw [h0]; exact ha
        · subst h
          rw [h1]; exact hb)
      (by
        intro i hi
        rcases Nat.lt_succ_iff_lt_or_eq.1 hi with h | h
        · have hi0 : i = 0 := by omega
          subst hi0
          decide
        · subst h
          decide)
  have hv : toInt32 ((2 * 3) % U64) = 6 := by decide
  rw [hv] at hrun
  refine ⟨mG_table toyCurve (2 ^ 19), d, out, hgen, hrun, hdata, ?_⟩
  rw [hdata]
  decide

/-- The buffer `epir_ecelgamal_decrypt_to_mG` leaves, whatever the cipher holds:
the compressed point `c2 - sk*c1` of the decoded halves, then the old bytes
from offset 32 on. -/
theorem decrypt_to_mG_eq (C : Curve) (sk : Nat) (cipher : List Nat) :
    epir_ecelgamal_decrypt_to_mG C sk cipher
      = C.tobytes ((C.frombytes ((cipher.drop 32).take 32)).2
          - sk • (C.frombytes (cipher.take 32)).2) ++ cipher.drop 32 := by
  simp only [epir_ecelgamal_decrypt_to_mG, ge25519_frombytes, ge25519_scalarmult,
    ge25519_sub_p3_p3, ge25519_p3_tobytes, EPIR_POINT_SIZE]

/-- The function `epir_ecelgamal_decrypt` searches the table for the 32 bytes
`epir_ecelgamal_decrypt_to_mG` leaves at the head of the cipher buffer. -/
theorem decrypt_eq_search (C : Curve) (fuel sk : Nat) (cipher : List Nat)
    (mG : List epir_mG_t) (mmax : Nat) :
    epir_ecelgamal_decrypt C fuel sk cipher mG mmax
      = interpolation_search fuel ((epir_ecelgamal_decrypt_to_mG C sk cipher).take 32)
          mG mmax := by
  rw [decrypt_to_mG_eq, ← show EPIR_POINT_SIZE = 32 from rfl, take_tobytes_append]
  rfl

/-- Claim C11: for every private key `sk` and every cipher `(c1, c2)` of valid points,
`epir_ecelgamal_decrypt_to_mG` overwrites the first 32 bytes of the cipher buffer with
`compress(c2 - sk*c1)` and leaves the other 32 bytes; for every `m` of `uint64_t` and
every randomness, applied to `epir_ecelgamal_encrypt(sk*B, m, r)` it leaves
`compress(m*B)` in the first 32 bytes; and `epir_ecelgamal_decrypt` returns exactly the
result of `interpolation_search` on that 32-byte value. -/
theorem decrypt_to_mG_lifted_point (C : Curve) (sk : Nat) (c1 c2 : C.Pt) (m : Nat)
    (r : Option Nat) (rnd fuel : Nat) (mG : List epir_mG_t) (mmax : Nat) (hm : m < U64) :
    epir_ecelgamal_decrypt_to_mG C sk (C.tobytes c1 ++ C.tobytes c2)
      = C.tobytes (c2 - sk • c1) ++ C.tobytes c2 ∧
    epir_ecelgamal_decrypt C fuel sk (C.tobytes c1 ++ C.tobytes c2) mG mmax
      = interpolation_search fuel (C.tobytes (c2 - sk • c1)) mG mmax ∧
    (epir_ecelgamal_decrypt_to_mG C sk
        (epir_ecelgamal_encrypt C (epir_pubkey_from_privkey C sk) m r rnd)).take 32
      = C.tobytes (m • C.B) ∧
    epir_ecelgamal_decrypt C fuel sk
        (epir_ecelgamal_encrypt C (epir_pubkey_from_privkey C sk) m r rnd) mG mmax
      = interpolation_search fuel (C.tobytes (m • C.B)) mG mmax := by
  have h32 : EPIR_POINT_SIZE = 32 := rfl
  have hpt : ∀ c1 c2 : C.Pt, epir_ecelgamal_decrypt_to_mG C sk (C.tobytes c1 ++ C.tobytes c2)
      = C.tobytes (c2 - sk • c1) ++ C.tobytes c2 := by
    intro c1 c2
    rw [decrypt_to_mG_eq, ← h32, take_tobytes_append, drop_tobytes_append, take_tobytes,
      C.frombytes_tobytes, C.frombytes_tobytes]
  have hlift : ((r.getD rnd) * sk + m) • C.B - sk • (r.getD rnd) • C.B = m • C.B := by
    rw [add_nsmul, mul_nsmul, add_sub_cancel_left]
  refine ⟨hpt c1 c2, ?_, ?_, ?_⟩
  · rw [decrypt_eq_search, hpt, ← h32, take_tobytes_append]
  · rw [encrypt_eq, Nat.mod_eq_of_lt hm, hpt, hlift, ← h32, take_tobytes_append]
  · rw [encrypt_eq, Nat.mod_eq_of_lt hm, decrypt_cipher]

/-- Instance of `decrypt_to_mG_lifted_point`: the key `5`, the cipher `(7*B, 36*B)` and
the message `1` under the randomness `7`. -/
theorem decrypt_to_mG_lifted_point_witness :
    (1 : Nat) < U64 ∧
    epir_ecelgamal_decrypt_to_mG toyCurve 5
        (toyCurve.tobytes (7 • toyCurve.B) ++ toyCurve.tobytes (36 • toyCurve.B))
      = toyCurve.tobytes (36 • toyCurve.B - 5 • 7 • toyCurve.B)
        ++ toyCurve.tobytes (36 • toyCurve.B) ∧
    (epir_ecelgamal_decrypt_to_mG toyCurve 5
        (epir_ecelgamal_encrypt toyCurve (epir_pubkey_from_privkey toyCurve 5) 1 (some 7) 0)
      ).take 32 = toyCurve.tobytes (1 • toyCurve.B) :=
  have h := decrypt_to_mG_lifted_point toyCurve 5 (7 • toyCurve.B) (36 • toyCurve.B) 1
    (some 7) 0 2 (mG_table toyCurve 2) 2 (by decide)
  ⟨by decide, h.1, h.2.2.1⟩

/-! ## Parameters outside their range -/

/-- With no dimension the selector operations write nothing. -/
theorem selector_create_no_dimension {κ : Type} (ciphers : List Nat) (key : κ)
    (index_counts : List Nat) (idx : Nat) (encrypt : κ → Nat → Option Nat → Nat → List Nat)
    (rnd : Nat → Nat) :
    epir_selector_create_choice ciphers index_counts 0 idx = .ok ciphers ∧
    epir_selector_create_ ciphers key index_counts 0 idx encrypt rnd = .ok ciphers := by
  have h1 : epir_selector_create_choice ciphers index_counts 0 idx = .ok ciphers := by
    simp [epir_selector_create_choice, selector_create_choice_loop, bind, Except.bind]
  refine ⟨h1, ?_⟩
  simp [epir_selector_create_, h1, epir_selector_ciphers_count, selector_create_encrypt, bind,
    Except.bind]

/-- The pattern `epir_selector_create_choice` writes for any `idx`, in range or not:
dimension `0` is flagged at row `idx / prod_{k>0} d_k`, if there is such a row, and the
later dimensions are those of `idx mod prod_{k>0} d_k`. -/
theorem selector_create_choice_any_idx (ciphers cs : List Nat) (idx : Nat)
    (h0 : 0 < cs.length) (hpos : ∀ d ∈ cs, 1 ≤ d) (hprod : cs.prod < U64)
    (hbuf : cs.sum * 64 ≤ ciphers.length) (hsz : ciphers.length < U64) :
    ∃ out, epir_selector_create_choice ciphers cs cs.length idx = .ok out ∧
      out.length = ciphers.length ∧
      (∀ r, r < cs[0] → out[r * 64]? = some (if r = idx / (cs.drop 1).prod then 1 else 0)) ∧
      (∀ k (hk : k < cs.length), 1 ≤ k → ∀ r, r < cs[k] →
        out[((cs.take k).sum + r) * 64]?
          = some (if r = idx % (cs.drop 1).prod / (cs.drop (k + 1)).prod % cs[k]
              then 1 else 0)) := by
  have hd1 : 1 ≤ cs[0] := hpos _ (List.getElem_mem _)
  have hP := prod_drop_succ cs 0 h0
  have hP1 := prod_drop_pos cs hpos 1
  simp only [List.drop_zero, Nat.zero_add] at hP
  have hdiv : cs.prod / cs[0] = (cs.drop 1).prod := by
    rw [hP, Nat.mul_div_cancel_left _ (by omega)]
  have hS := sum_take_succ' cs 0 h0
  simp only [List.take_zero, List.sum_nil, Nat.zero_add] at hS
  have hSle := sum_take_le cs 1
  have hrem : idx - idx / (cs.drop 1).prod * (cs.drop 1).prod = idx % (cs.drop 1).prod := by
    have := Nat.div_add_mod idx (cs.drop 1).prod
    rw [Nat.mul_comm] at this
    omega
  obtain ⟨cph1, hrun1, hl1, hnew1, _⟩ :=
    selector_create_choice_rows_spec (idx / (cs.drop 1).prod) cs[0] 0 ciphers 0
      (by rw [Nat.zero_add, ← hS]; omega) hsz
  obtain ⟨cph', s, hrun, hl, hold, hnew⟩ :=
    selector_create_choice_loop_spec cs hpos (cs.length - 1) 1 cph1 (idx % (cs.drop 1).prod)
      (by omega) (Nat.mod_lt _ (by omega)) (by rw [hl1]; exact hbuf) (by rw [hl1]; exact hsz)
  obtain ⟨s1, s2, s3⟩ := s
  refine ⟨cph', ?_, by rw [hl, hl1], ?_, fun k hk hk1 r hr => hnew k hk hk1 r hr⟩
  · unfold epir_selector_create_choice epir_selector_elements_count
    rw [List.take_length, Nat.mod_eq_of_lt hprod]
    obtain ⟨n, hn⟩ : ∃ n, cs.length = n + 1 := ⟨cs.length - 1, by omega⟩
    rw [hn, Nat.add_sub_cancel, hS] at hrun
    dsimp only
    rw [hn, selector_create_choice_loop]
    simp only [load_ok (List.getElem?_eq_getElem h0), bind, Except.bind]
    rw [if_neg (by omega), hdiv, if_neg (by omega)]
    rw [Nat.zero_add] at hrun1
    simp only [hrun1, hrem, Nat.zero_add, hrun]
  · intro r hr
    have := hnew1 r hr
    simp only [Nat.zero_add] at this
    rw [hold _ (by rw [hS]; omega), this]

/-- With `packing = 0` the slot loop writes nothing. -/
theorem reply_decrypt_slots_packing_zero (C : Curve) (fuel sk : Nat) (mG : List epir_mG_t)
    (mmax : Nat) :
    ∀ (k i : Nat) (buf : List Nat) (s : Bool) (out : List Nat) (s' : Bool),
      reply_decrypt_slots C fuel sk 0 mG mmax k i (buf, s) = .ok (out, s') → out = buf := by
  intro k
  induction k with
  | zero =>
    intro i buf s out s' h
    rw [reply_decrypt_slots] at h
    cases h
    rfl
  | succ k ih =>
    intro i buf s out s' h
    rw [reply_decrypt_slots] at h
    cases hr : read_bytes buf (i * EPIR_CIPHER_SIZE) EPIR_CIPHER_SIZE with
    | error e => simp [hr, bind, Except.bind] at h
    | ok cipher =>
      cases hd : epir_ecelgamal_decrypt C fuel sk cipher mG mmax with
      | error e => simp [hr, hd, bind, Except.bind] at h
      | ok d =>
        simp only [hr, hd, bind, Except.bind, reply_decrypt_pack] at h
        split_ifs at h
        · exact ih _ _ _ _ _ h
        · exact ih _ _ _ _ _ h

/-- With `packing = 0` the compaction loop copies nothing. -/
theorem reply_decrypt_compact_packing_zero :
    ∀ (k i : Nat) (buf out : List Nat),
      reply_decrypt_compact 0 k i buf = .ok out → out = buf := by
  intro k
  induction k with
  | zero =>
    intro i buf out h
    rw [reply_decrypt_compact] at h
    cases h
    rfl
  | succ k ih =>
    intro i buf out h
    rw [reply_decrypt_compact] at h
    simp only [read_bytes, write_bytes, bind, Except.bind] at h
    split_ifs at h with h1
    simp only [List.take_zero, List.length_nil, Nat.mul_zero, Nat.add_zero, Nat.zero_le,
      if_true, List.append_nil, List.nil_append, List.drop_zero] at h
    exact ih _ _ _ h

/-- With `packing = 0` the phases leave the buffer as it is; the value returned after a
phase is `-1` or `0`. -/
theorem reply_decrypt_phases_packing_zero (C : Curve) (fuel sk dimension : Nat)
    (mG : List epir_mG_t) (mmax : Nat) :
    ∀ (k phase : Nat) (buf : List Nat) (n : Nat) (out : List Nat) (v : Int),
      reply_decrypt_phases C fuel sk dimension 0 mG mmax k phase (buf, n) = .ok (out, v) →
      out = buf ∧ (v = -1 ∨ v = 0 ∨ (k = 0 ∧ v = toInt32 n)) := by
  intro k
  induction k with
  | zero =>
    intro phase buf n out v h
    rw [reply_decrypt_phases] at h
    cases h
    exact ⟨rfl, Or.inr (Or.inr ⟨rfl, rfl⟩)⟩
  | succ k ih =>
    intro phase buf n out v h
    rw [reply_decrypt_phases] at h
    cases hs : reply_decrypt_slots C fuel sk 0 mG mmax n 0 (buf, true) with
    | error e => simp [hs, bind, Except.bind] at h
    | ok res =>
      obtain ⟨buf1, success⟩ := res
      have hb1 := reply_decrypt_slots_packing_zero C fuel sk mG mmax n 0 buf true buf1 success hs
      subst hb1
      simp only [hs, bind, Except.bind] at h
      cases success with
      | false =>
        simp only [Bool.not_false, if_true] at h
        cases h
        exact ⟨rfl, Or.inl rfl⟩
      | true =>
        simp only [Bool.not_true, Bool.false_eq_true, if_false] at h
        cases hc : reply_decrypt_compact 0 n 0 buf1 with
        | error e => simp [hc] at h
        | ok buf2 =>
          have hb2 := reply_decrypt_compact_packing_zero n 0 buf1 buf2 hc
          subst hb2
          simp only [hc, Nat.mul_zero, Nat.zero_mod, Nat.zero_div] at h
          split_ifs at h
          · cases h
            exact ⟨rfl, Or.inr (Or.inl (by decide))⟩
          · obtain ⟨ho, hv⟩ := ih _ _ _ _ _ h
            refine ⟨ho, ?_⟩
            rcases hv with hv | hv | ⟨_, hv⟩
            · exact Or.inl hv
            · exact Or.inr (Or.inl hv)
            · exact Or.inr (Or.inl (by rw [hv]; decide))

/-- The function `epir_reply_decrypt` looks at `reply_size` only through
`reply_size / 64`. -/
theorem reply_decrypt_size_rounded (C : Curve) (fuel : Nat) (reply : List Nat)
    (reply_size sk dimension packing : Nat) (mG : List epir_mG_t) (mmax : Nat) :
    epir_reply_decrypt C fuel reply reply_size sk dimension packing mG mmax
      = epir_reply_decrypt C fuel reply (reply_size / 64 * 64) sk dimension packing mG mmax := by
  unfold epir_reply_decrypt
  simp only [EPIR_CIPHER_SIZE, Nat.mul_div_cancel _ (show 0 < 64 by decide)]

/-- A single phase over a buffer that starts with one cipher of `m`, whatever follows
it and whatever `reply_size` between 64 and 127 is passed. -/
theorem reply_decrypt_one_cipher (C : Curve) (fuel mmax sk packing m reply_size : Nat)
    (r : Option Nat) (x : Nat) (rest : List Nat) (h2 : 2 ≤ mmax) (hmm : mmax ≤ U32)
    (hm : m < mmax) (hm31 : m < 2 ^ 31) (hf : mmax ≤ fuel) (hpk : packing ≤ 4)
    (hsz : reply_size / 64 = 1) :
    ∃ out, epir_reply_decrypt C fuel (epir_ecelgamal_encrypt_fast C sk m r x ++ rest)
        reply_size sk 1 packing (mG_table C mmax) mmax = .ok (out, (packing : Int)) ∧
      ∀ q, q < packing → out[q]? = some (packByte m q) := by
  have hU32 : U32 = 2 ^ 32 := rfl
  have hU64 : U64 = 2 ^ 64 := rfl
  have hlen := encrypt_fast_length C sk m r x
  have hdec : ∀ j, j < 1 →
      epir_ecelgamal_decrypt C fuel sk
        (slot (epir_ecelgamal_encrypt_fast C sk m r x ++ rest) j) (mG_table C mmax) mmax
        = .ok ((fun _ => (m : Int)) j) := by
    intro j hj
    have hj0 : j = 0 := by omega
    subst hj0
    rw [slot_zero_append _ _ hlen, decrypt_encrypt_fast C mmax m fuel sk r x h2 hmm hm hf,
      toInt32_small m hm31]
  obtain ⟨out, _, hdata, hrun⟩ :=
    (reply_decrypt_phase_spec C fuel sk 1 packing (mG_table C mmax) mmax (fun _ => (m : Int))
      hpk 0 0 (epir_ecelgamal_encrypt_fast C sk m r x ++ rest) 1
      (by rw [List.length_append, hlen]; omega) hdec).2 (fun _ _ => Int.natCast_nonneg m)
  refine ⟨out, ?_, ?_⟩
  · unfold epir_reply_decrypt
    simp only [EPIR_CIPHER_SIZE, hsz]
    rw [hrun, if_pos (by decide), Nat.one_mul, Nat.mod_eq_of_lt (by omega),
      toInt32_small packing (by omega)]
  · intro q hq
    rw [hdata q (by omega), phase_data_getElem? _ _ _ _ (by omega), Nat.mod_eq_of_lt hq]

/-- Claim C12, as amended: no parameter is validated at entry. With no dimension the
selector operations write no slot and return; with any `idx`, in range or not,
`epir_selector_create_choice` writes every slot: dimension `0` is flagged at row
`idx / prod_{k>0} d_k` if there is such a row, the later dimensions as for
`idx mod prod_{k>0} d_k`. The function `epir_reply_decrypt` treats `reply_size` as the
multiple of 64 below it; with `packing = 0` and `dimension ≥ 1`, whenever it returns, it
has left the buffer as it was and returns `0`, or `-1` when a cipher does not decrypt. -/
theorem parameters_not_validated {κ : Type} (C : Curve) (fuel sk dimension reply_size : Nat)
    (reply : List Nat) (mG : List epir_mG_t) (mmax : Nat) (ciphers cs : List Nat) (idx : Nat)
    (key : κ) (encrypt : κ → Nat → Option Nat → Nat → List Nat) (rnd : Nat → Nat)
    (out : List Nat) (v : Int)
    (h0 : 0 < cs.length) (hpos : ∀ d ∈ cs, 1 ≤ d) (hprod : cs.prod < U64)
    (hbuf : cs.sum * 64 ≤ ciphers.length) (hsz : ciphers.length < U64)
    (hdim : 1 ≤ dimension)
    (hrun : epir_reply_decrypt C fuel reply reply_size sk dimension 0 mG mmax = .ok (out, v)) :
    (epir_selector_create_choice ciphers cs 0 idx = .ok ciphers ∧
      epir_selector_create_ ciphers key cs 0 idx encrypt rnd = .ok ciphers) ∧
    (∃ out', epir_selector_create_choice ciphers cs cs.length idx = .ok out' ∧
      out'.length = ciphers.length ∧
      (∀ r, r < cs[0] → out'[r * 64]? = some (if r = idx / (cs.drop 1).prod then 1 else 0)) ∧
      (∀ k (hk : k < cs.length), 1 ≤ k → ∀ r, r < cs[k] →
        out'[((cs.take k).sum + r) * 64]?
          = some (if r = idx % (cs.drop 1).prod / (cs.drop (k + 1)).prod % cs[k]
              then 1 else 0))) ∧
    (∀ packing, epir_reply_decrypt C fuel reply reply_size sk dimension packing mG mmax
      = epir_reply_decrypt C fuel reply (reply_size / 64 * 64) sk dimension packing mG mmax) ∧
    out = reply ∧ (v = -1 ∨ v = 0) := by
  refine ⟨selector_create_no_dimension ciphers key cs idx encrypt rnd,
    selector_create_choice_any_idx ciphers cs idx h0 hpos hprod hbuf hsz,
    fun packing => reply_decrypt_size_rounded C fuel reply reply_size sk dimension packing mG mmax,
    ?_⟩
  unfold epir_reply_decrypt at hrun
  obtain ⟨ho, hv⟩ := reply_decrypt_phases_packing_zero C fuel sk dimension mG mmax dimension 0
    reply _ out v hrun
  refine ⟨ho, ?_⟩
  rcases hv with hv | hv | ⟨hk, _⟩
  · exact Or.inl hv
  · exact Or.inr hv
  · omega

/-- Instance of `parameters_not_validated`: one dimension of two rows with `idx = 5`, and
a reply of one cipher with `packing = 0`. -/
theorem parameters_not_validated_witness :
    (∃ out v, epir_reply_decrypt toyCurve 2 (epir_ecelgamal_encrypt_fast toyCurve 5 1 (some 7) 0)
        64 5 1 0 (mG_table toyCurve 2) 2 = .ok (out, v) ∧
      out = epir_ecelgamal_encrypt_fast toyCurve 5 1 (some 7) 0 ∧ (v = -1 ∨ v = 0)) ∧
    ∃ out', epir_selector_create_choice (List.replicate 128 7) [2] 1 5 = .ok out' ∧
      out'.length = 128 := by
  obtain ⟨out, hrun, _⟩ := reply_decrypt_one_cipher toyCurve 2 2 5 0 1 64 (some 7) 0 []
    (by decide) (by decide) (by decide) (by decide) (by decide) (by decide) (by decide)
  rw [List.append_nil] at hrun
  have h := parameters_not_validated toyCurve 2 5 1 64
    (epir_ecelgamal_encrypt_fast toyCurve 5 1 (some 7) 0) (mG_table toyCurve 2) 2
    (List.replicate 128 7) [2] 5 (5 : Nat) (epir_ecelgamal_encrypt_fast toyCurve)
    (fun _ => 0) out _ (by decide) (by decide) (by decide)
    (by rw [List.length_replicate]; decide) (by rw [List.length_replicate]; decide)
    (by decide) hrun
  obtain ⟨out', ho', hl', _⟩ := h.2.1
  exact ⟨⟨out, _, hrun, h.2.2.2.1, h.2.2.2.2⟩, out', ho', by rw [hl', List.length_replicate]⟩

/-- Claim C12 fails as stated: nothing is rejected. With no dimension
`epir_selector_create_choice` returns normally; with one dimension of two rows and
`idx = 5` it returns having written both slots of a buffer of sevens; with `packing = 0`
`epir_reply_decrypt` returns `0`; and with `reply_size = 65` it decrypts the first 64
bytes, returns `1` and has written the plaintext byte. -/
theorem parameters_not_validated_counterexample :
    epir_selector_create_choice (List.replicate 128 7) [] 0 5 = .ok (List.replicate 128 7) ∧
    (∃ out, epir_selector_create_choice (List.replicate 128 7) [2] 1 5 = .ok out ∧
      out[0]? = some 0 ∧ out[64]? = some 0) ∧
    (∃ out, epir_reply_decrypt toyCurve 2 (epir_ecelgamal_encrypt_fast toyCurve 5 1 (some 7) 0)
        64 5 1 0 (mG_table toyCurve 2) 2 = .ok (out, 0)) ∧
    (∃ out, epir_reply_decrypt toyCurve 2
        (epir_ecelgamal_encrypt_fast toyCurve 5 1 (some 7) 0 ++ [9])
        65 5 1 1 (mG_table toyCurve 2) 2 = .ok (out, 1) ∧ out[0]? = some 1) := by
  refine ⟨(selector_create_no_dimension _ (5 : Nat) _ _ (epir_ecelgamal_encrypt_fast toyCurve)
    (fun _ => 0)).1, ?_, ?_, ?_⟩
  · obtain ⟨out, hrun, _, hrow, _⟩ := selector_create_choice_any_idx (List.replicate 128 7) [2] 5
      (by decide) (by decide) (by decide) (by rw [List.length_replicate]; decide)
      (by rw [List.length_replicate]; decide)
    exact ⟨out, hrun, hrow 0 (by decide), hrow 1 (by decide)⟩
  · obtain ⟨out, hrun, _⟩ := reply_decrypt_one_cipher toyCurve 2 2 5 0 1 64 (some 7) 0 []
      (by decide) (by decide) (by decide) (by decide) (by decide) (by decide) (by decide)
    rw [List.append_nil] at hrun
    exact ⟨out, hrun⟩
  · obtain ⟨out, hrun, hq⟩ := reply_decrypt_one_cipher toyCurve 2 2 5 1 1 65 (some 7) 0 [9]
      (by decide) (by decide) (by decide) (by decide) (by decide) (by decide) (by decide)
    exact ⟨out, hrun, hq 0 (by decide)⟩

/-! ## Undecodable points -/

/-- The cipher the public-key path returns, whatever the key buffer decodes to. -/
theorem encrypt_any_key (C : Curve) (pubkey : List Nat) (m : Nat) (r : Option Nat)
    (rnd : Nat) :
    epir_ecelgamal_encrypt C pubkey m r rnd
      = C.tobytes ((r.getD rnd) • C.B)
        ++ C.tobytes ((r.getD rnd) • (C.frombytes pubkey).2 + (m % U64) • C.B) := by
  cases r <;>
  simp only [epir_ecelgamal_encrypt, ge25519_frombytes, ge25519_double_scalarmult_vartime,
    ge25519_scalarmult_base, ge25519_p3_tobytes, ge25519_tobytes, sc25519_load_uint64,
    crypto_core_ed25519_scalar_random, Option.getD]

/-- With the zero private key the first half of the cipher is multiplied by zero:
whatever its 32 bytes are, the lifted point is the second half. -/
theorem decrypt_to_mG_zero_key (C : Curve) (s1 : List Nat) (P : C.Pt)
    (hs1 : s1.length = 32) :
    epir_ecelgamal_decrypt_to_mG C 0 (s1 ++ C.tobytes P) = C.tobytes P ++ C.tobytes P := by
  rw [decrypt_to_mG_eq, List.drop_left' hs1, ← show EPIR_POINT_SIZE = 32 from rfl, take_tobytes,
    C.frombytes_tobytes, zero_nsmul, sub_zero]

/-- With the zero private key a cipher decrypts to the scalar of its second half,
whatever its first 32 bytes are. -/
theorem decrypt_zero_key (C : Curve) (fuel mmax m : Nat) (s1 : List Nat)
    (hs1 : s1.length = 32) (h2 : 2 ≤ mmax) (h31 : mmax ≤ 2 ^ 31) (hm : m < mmax)
    (hf : mmax ≤ fuel) :
    epir_ecelgamal_decrypt C fuel 0 (s1 ++ C.tobytes (m • C.B)) (mG_table C mmax) mmax
      = .ok (m : Int) := by
  have hU32 : U32 = 2 ^ 32 := rfl
  rw [decrypt_eq_search, decrypt_to_mG_zero_key C s1 _ hs1,
    ← show EPIR_POINT_SIZE = 32 from rfl, take_tobytes_append,
    search_mG_table C mmax m fuel h2 (by omega) hm hf, toInt32_small m (by omega)]

/-- With the randomness `0` the decoded key is multiplied by zero: whatever the key
buffer holds, the cipher is `compress(0) ++ compress(m*B)`. -/
theorem encrypt_zero_randomness (C : Curve) (pubkey : List Nat) (m rnd : Nat) (hm : m < U64) :
    epir_ecelgamal_encrypt C pubkey m (some 0) rnd = C.tobytes 0 ++ C.tobytes (m • C.B) := by
  rw [encrypt_any_key, Option.getD_some, zero_nsmul, zero_nsmul, zero_add,
    Nat.mod_eq_of_lt hm]

/-- The cipher `compress(0) ++ compress(m*B)` is a cipher of `m` under every private
key. -/
theorem encrypts_zero_randomness (C : Curve) (sk m : Nat) :
    Encrypts C sk (C.tobytes 0 ++ C.tobytes (m • C.B)) m :=
  ⟨0, m • C.B, rfl, by rw [smul_zero, sub_zero]⟩

/-- The three operations do not consult the status of the decoder. -/
theorem status_not_consulted (C : Curve) (st : List Nat → Int)
    (hst : ∀ P, st (C.tobytes P) = 0) (fuel sk : Nat) (cipher pubkey : List Nat)
    (mG : List epir_mG_t) (mmax msg : Nat) (r : Option Nat) (rnd : Nat) :
    epir_ecelgamal_decrypt_to_mG (C.with_status st hst) sk cipher
      = epir_ecelgamal_decrypt_to_mG C sk cipher ∧
    epir_ecelgamal_decrypt (C.with_status st hst) fuel sk cipher mG mmax
      = epir_ecelgamal_decrypt C fuel sk cipher mG mmax ∧
    epir_ecelgamal_encrypt (C.with_status st hst) pubkey msg r rnd
      = epir_ecelgamal_encrypt C pubkey msg r rnd :=
  ⟨rfl, rfl, rfl⟩

set_option maxRecDepth 100000 in
/-- The 32 bytes `fd … fd` are not the compressed form of a point of Ed25519. -/
theorem ed25519_rejects_fd : ed25519_on_curve (List.replicate 32 0xfd) = false := by
  decide

/-- The decoder of the model group rejects the 32 bytes `fd … fd` as well. -/
theorem toyCurve_rejects_fd : (toyCurve.frombytes (List.replicate 32 0xfd)).1 = -1 := by
  decide

/-- Claim C13, as amended: when a 32-byte half of a cipher, or the public key given to
`epir_ecelgamal_encrypt`, does not decode to a curve point, no error is signalled: the
status of `ge25519_frombytes` is not consulted (under any other status the three
operations return the same) and the computation goes on with what the decoder left. In
particular, whatever the 32 bytes `s1` of the first half are, decodable or not, with the
zero private key, which multiplies that half by zero, `epir_ecelgamal_decrypt_to_mG`
leaves `compress(m*B)` and `epir_ecelgamal_decrypt` returns `m` for the second half
`compress(m*B)`, `m` below `mmax ≤ 2^31` and a built table; and whatever the key buffer
holds, `epir_ecelgamal_encrypt` with the randomness `0` returns the cipher
`compress(0) ++ compress(m*B)`, which decrypts to `m` under every private key. -/
theorem bad_encoding_ignored (C : Curve) (st : List Nat → Int)
    (hst : ∀ P, st (C.tobytes P) = 0) (fuel sk mmax m : Nat) (s1 cipher pubkey : List Nat)
    (mG : List epir_mG_t) (n msg : Nat) (r : Option Nat) (rnd : Nat)
    (hs1 : s1.length = 32) (h2 : 2 ≤ mmax) (h31 : mmax ≤ 2 ^ 31) (hm : m < mmax)
    (hf : mmax ≤ fuel) :
    (epir_ecelgamal_decrypt_to_mG (C.with_status st hst) sk cipher
        = epir_ecelgamal_decrypt_to_mG C sk cipher ∧
      epir_ecelgamal_decrypt (C.with_status st hst) fuel sk cipher mG n
        = epir_ecelgamal_decrypt C fuel sk cipher mG n ∧
      epir_ecelgamal_encrypt (C.with_status st hst) pubkey msg r rnd
        = epir_ecelgamal_encrypt C pubkey msg r rnd) ∧
    epir_ecelgamal_decrypt_to_mG C 0 (s1 ++ C.tobytes (m • C.B))
      = C.tobytes (m • C.B) ++ C.tobytes (m • C.B) ∧
    epir_ecelgamal_decrypt C fuel 0 (s1 ++ C.tobytes (m • C.B)) (mG_table C mmax) mmax
      = .ok (m : Int) ∧
    epir_ecelgamal_encrypt C pubkey m (some 0) rnd = C.tobytes 0 ++ C.tobytes (m • C.B) ∧
    epir_ecelgamal_decrypt C fuel sk (epir_ecelgamal_encrypt C pubkey m (some 0) rnd)
      (mG_table C mmax) mmax = .ok (m : Int) := by
  have hU32 : U32 = 2 ^ 32 := rfl
  have hU64 : U64 = 2 ^ 64 := rfl
  have henc := encrypt_zero_randomness C pubkey m rnd (by omega)
  refine ⟨status_not_consulted C st hst fuel sk cipher pubkey mG n msg r rnd,
    decrypt_to_mG_zero_key C s1 _ hs1, decrypt_zero_key C fuel mmax m s1 hs1 h2 h31 hm hf,
    henc, ?_⟩
  rw [henc, decrypt_mG_table C mmax m fuel sk _ (encrypts_zero_randomness C sk m) h2 (by omega)
    hm hf, toInt32_small m (by omega)]

/-- Instance of `bad_encoding_ignored`: the bytes `fd … fd`, which the decoder rejects,
as the first half of a cipher of `1` and as the public key. -/
theorem bad_encoding_ignored_witness :
    (toyCurve.frombytes (List.replicate 32 0xfd)).1 = -1 ∧
    epir_ecelgamal_decrypt toyCurve 2 0
      (List.replicate 32 0xfd ++ toyCurve.tobytes (1 • toyCurve.B)) (mG_table toyCurve 2) 2
      = .ok ((1 : Nat) : Int) ∧
    epir_ecelgamal_encrypt toyCurve (List.replicate 32 0xfd) 1 (some 0) 0
      = toyCurve.tobytes 0 ++ toyCurve.tobytes (1 • toyCurve.B) :=
  have h := bad_encoding_ignored toyCurve (fun _ => 0) (fun _ => rfl) 2 5 2 1
    (List.replicate 32 0xfd) (List.replicate 64 0xfd) (List.replicate 32 0xfd)
    (mG_table toyCurve 2) 2 1 (some 0) 0 (List.length_replicate _ _) (by decide) (by decide)
    (by decide) (by decide)
  ⟨toyCurve_rejects_fd, h.2.2.1, h.2.2.2.1⟩

/-- Claim C13 fails as stated. The 32 bytes `fd … fd` are not the compressed form of a
point of Ed25519, and the decoder of the model group rejects them too. Yet with them as
first half and `compress(1*B)` as second half, `epir_ecelgamal_decrypt` with the zero
private key returns the scalar `1` and `epir_ecelgamal_decrypt_to_mG` leaves
`compress(1*B)`; and with them as public key and the randomness `0`,
`epir_ecelgamal_encrypt` returns the 64-byte cipher `compress(0) ++ compress(1*B)`: the
operations continue and return ordinary results. -/
theorem bad_encoding_ignored_counterexample :
    ed25519_on_curve (List.replicate 32 0xfd) = false ∧
    (toyCurve.frombytes (List.replicate 32 0xfd)).1 = -1 ∧
    epir_ecelgamal_decrypt toyCurve 2 0
      (List.replicate 32 0xfd ++ toyCurve.tobytes (1 • toyCurve.B)) (mG_table toyCurve 2) 2
      = .ok 1 ∧
    epir_ecelgamal_decrypt_to_mG toyCurve 0
      (List.replicate 32 0xfd ++ toyCurve.tobytes (1 • toyCurve.B))
      = toyCurve.tobytes (1 • toyCurve.B) ++ toyCurve.tobytes (1 • toyCurve.B) ∧
    epir_ecelgamal_encrypt toyCurve (List.replicate 32 0xfd) 1 (some 0) 0
      = toyCurve.tobytes 0 ++ toyCurve.tobytes (1 • toyCurve.B) ∧
    (epir_ecelgamal_encrypt toyCurve (List.replicate 32 0xfd) 1 (some 0) 0).length = 64 :=
  ⟨ed25519_rejects_fd, toyCurve_rejects_fd,
    decrypt_zero_key toyCurve 2 2 1 _ (List.length_replicate _ _) (by decide) (by decide)
      (by decide) (by decide),
    decrypt_to_mG_zero_key toyCurve _ _ (List.length_replicate _ _),
    encrypt_zero_randomness toyCurve _ 1 0 (by decide),
    encrypt_length toyCurve _ 1 (some 0) 0⟩

/-! ## Claims on the search: equal keys and the result range -/

/-- Claim C14, at the failing input: when the cached keys are equal on entry, that is
when the first and the last entry of the table have the same first four bytes (every
table of one entry; a table of several entries that share them), and more generally in
any iteration reached with `left == right`, `interpolation_search` does not probe
`imin`: it divides by `right - left = 0`. -/
theorem interpolation_search_equal_keys (fuel : Nat) (find : List Nat) (mG : List epir_mG_t)
    (mmax : Nat) (e0 e1 : epir_mG_t) (my imin imax key : Nat)
    (h0 : mG[0]? = some e0) (h1 : mG[(mmax + U64 - 1) % U64]? = some e1)
    (hkey : load_uint32_t e0.point = load_uint32_t e1.point) (hrange : imin ≤ imax) :
    interpolation_search (fuel + 1) find mG mmax = .error .div_by_zero ∧
    interpolation_search_loop find mG my (fuel + 1) imin imax key key
      = .error .div_by_zero := by
  have hden : ∀ k : Nat, (k + U32 - k) % U32 = 0 := by
    intro k
    rw [Nat.add_sub_cancel_left, Nat.mod_self]
  constructor
  · unfold interpolation_search
    simp only [h0, h1]
    rw [interpolation_search_loop, if_pos (Nat.zero_le _), hkey]
    simp only [hden, if_true]
  · rw [interpolation_search_loop, if_pos hrange]
    simp only [hden, if_true]

/-- Instance of `interpolation_search_equal_keys`: two points `01 02 03 04 00 … 00` and
`01 02 03 04 01 … 01`, strictly ascending, searched for the first of them. -/
theorem interpolation_search_equal_keys_witness :
    interpolation_search 2 ([1, 2, 3, 4] ++ List.replicate 28 0)
      [⟨[1, 2, 3, 4] ++ List.replicate 28 0, 0⟩, ⟨[1, 2, 3, 4] ++ List.replicate 28 1, 1⟩] 2
      = .error .div_by_zero :=
  (interpolation_search_equal_keys 1 ([1, 2, 3, 4] ++ List.replicate 28 0)
    [⟨[1, 2, 3, 4] ++ List.replicate 28 0, 0⟩, ⟨[1, 2, 3, 4] ++ List.replicate 28 1, 1⟩] 2
    ⟨[1, 2, 3, 4] ++ List.replicate 28 0, 0⟩ ⟨[1, 2, 3, 4] ++ List.replicate 28 1, 1⟩
    0 0 0 0 rfl (by decide) (by decide) (le_refl _)).1

/-- The `int32_t` reading of a stored scalar from `2^31` on is negative. -/
theorem toInt32_neg (s : Nat) (h1 : 2 ^ 31 ≤ s) (h2 : s < 2 ^ 32) :
    toInt32 s = (s : Int) - 2 ^ 32 ∧ toInt32 s < 0 := by
  have hU : U32 = 2 ^ 32 := rfl
  have hm : s % U32 = s := Nat.mod_eq_of_lt (by omega)
  have hv : toInt32 s = (s : Int) - 2 ^ 32 := by
    rw [toInt32, hm, if_neg (by omega), hU]
    norm_num
  refine ⟨hv, ?_⟩
  rw [hv]
  omega

/-- Claim C15, as amended: for every sorted table of at most `2^32` entries whose first
and last points differ in their first four bytes, looking up the point of an entry with
stored scalar `m < 2^31` (by `interpolation_search`, or by `epir_ecelgamal_decrypt` of a
cipher that lifts to that point) returns `m`, which is not negative and so
distinguishable from not-found; for a stored scalar from `2^31` on the value returned is
`m - 2^32`, negative. Accordingly `epir_reply_decrypt` with `packing = 4` accepts every
4-byte plaintext value below `2^31` present in a built table: it returns `4` and leaves
the four little-endian bytes. -/
theorem decrypt_result_range (C : Curve) (mG : List epir_mG_t) (e0 e1 et : epir_mG_t)
    (t fuel sk mmax m fuel_r : Nat) (c1 c2 : C.Pt) (r : Option Nat) (x : Nat)
    (hs : SortedTable mG) (hlen : mG.length ≤ U32)
    (h0 : mG[0]? = some e0) (h1 : mG[mG.length - 1]? = some e1)
    (hkey : load_uint32_t e0.point ≠ load_uint32_t e1.point)
    (het : mG[t]? = some et) (hf : mG.length ≤ fuel) (hsc : et.scalar < 2 ^ 32)
    (hc : C.tobytes (c2 - sk • c1) = et.point)
    (h2 : 2 ≤ mmax) (hmm : mmax ≤ U32) (hm : m < mmax) (hm31 : m < 2 ^ 31)
    (hfr : mmax ≤ fuel_r) :
    (et.scalar < 2 ^ 31 →
      interpolation_search fuel et.point mG mG.length = .ok (et.scalar : Int) ∧
      epir_ecelgamal_decrypt C fuel sk (C.tobytes c1 ++ C.tobytes c2) mG mG.length
        = .ok (et.scalar : Int) ∧
      (0 : Int) ≤ (et.scalar : Int) ∧ (et.scalar : Int) ≠ -1) ∧
    (2 ^ 31 ≤ et.scalar →
      interpolation_search fuel et.point mG mG.length = .ok ((et.scalar : Int) - 2 ^ 32) ∧
      (et.scalar : Int) - 2 ^ 32 < 0) ∧
    ∃ out, epir_reply_decrypt C fuel_r (epir_ecelgamal_encrypt_fast C sk m r x) 64 sk 1 4
        (mG_table C mmax) mmax = .ok (out, 4) ∧
      ∀ q, q < 4 → out[q]? = some (packByte m q) := by
  have hfound := interpolation_search_found mG hs hlen e0 e1 h0 h1 hkey t et het fuel hf
  refine ⟨fun h31 => ?_, fun h31 => ?_, ?_⟩
  · rw [toInt32_small _ h31] at hfound
    refine ⟨hfound, ?_, Int.natCast_nonneg _, by omega⟩
    have hd : epir_ecelgamal_decrypt C fuel sk (C.tobytes c1 ++ C.tobytes c2) mG mG.length
        = interpolation_search fuel (C.tobytes (c2 - sk • c1)) mG mG.length := by
      simp only [epir_ecelgamal_decrypt, ge25519_frombytes, ge25519_scalarmult,
        ge25519_sub_p3_p3, ge25519_p3_tobytes, take_tobytes_append, drop_tobytes_append,
        take_tobytes, C.frombytes_tobytes]
    rw [hd, hc, hfound]
  · obtain ⟨hv, hneg⟩ := toInt32_neg et.scalar h31 hsc
    rw [hv] at hfound hneg
    exact ⟨hfound, hneg⟩
  · obtain ⟨out, hrun, hq⟩ := reply_decrypt_one_cipher C fuel_r mmax sk 4 m 64 r x []
      h2 hmm hm hm31 hfr (le_refl _) (by decide)
    rw [List.append_nil] at hrun
    exact ⟨out, hrun, hq⟩

/-- Instance of `decrypt_result_range`: the built table of two entries, its entry of the
scalar `1`, and a reply of one cipher of `1`. -/
theorem decrypt_result_range_witness :
    (mG_entry toyCurve 1).scalar < 2 ^ 31 ∧
    interpolation_search 2 (mG_entry toyCurve 1).point (mG_table toyCurve 2)
      (mG_table toyCurve 2).length = .ok ((mG_entry toyCurve 1).scalar : Int) ∧
    ∃ out, epir_reply_decrypt toyCurve 2 (epir_ecelgamal_encrypt_fast toyCurve 5 1 (some 7) 0)
        64 5 1 4 (mG_table toyCurve 2) 2 = .ok (out, 4) ∧
      ∀ q, q < 4 → out[q]? = some (packByte 1 q) := by
  have hsc : (mG_entry toyCurve 1).scalar < 2 ^ 31 := by decide
  obtain ⟨e0, e1, h0, h1, hkey⟩ := mG_table_keys toyCurve 2 (by decide) (by decide)
  obtain ⟨t, ht⟩ := mG_table_index toyCurve 2 1 (by decide)
  have h := decrypt_result_range toyCurve (mG_table toyCurve 2) e0 e1 (mG_entry toyCurve 1)
    t 2 5 2 1 2 (0 : toyCurve.Pt) (1 • toyCurve.B) (some 7) 0
    (mG_table_sorted toyCurve 2 (by decide)) (by rw [mG_table_length]; decide) h0 h1 hkey ht
    (by rw [mG_table_length]) (by decide)
    (by rw [smul_zero, sub_zero]; rfl)
    (by decide) (by decide) (by decide) (by decide) (by decide)
  exact ⟨hsc, (h.1 hsc).1, h.2.2⟩

/-- Claim C15 fails as stated. The built table of `2^31 + 1` entries is sorted and holds
the entry of the scalar `2^31`; looking up its point returns `-2^31`, a negative value,
and `epir_reply_decrypt` with `packing = 4` rejects the cipher of that plaintext. -/
theorem decrypt_result_range_counterexample :
    SortedTable (mG_table toyCurve (2 ^ 31 + 1)) ∧
    (mG_table toyCurve (2 ^ 31 + 1)).length = 2 ^ 31 + 1 ∧
    mG_entry toyCurve (2 ^ 31) ∈ mG_table toyCurve (2 ^ 31 + 1) ∧
    (mG_entry toyCurve (2 ^ 31)).scalar = 2 ^ 31 ∧
    interpolation_search (2 ^ 31 + 1) (mG_entry toyCurve (2 ^ 31)).point
      (mG_table toyCurve (2 ^ 31 + 1)) (2 ^ 31 + 1) = .ok (-2147483648) ∧
    ∃ out, epir_reply_decrypt toyCurve (2 ^ 31 + 1)
      (epir_ecelgamal_encrypt_fast toyCurve 5 (2 ^ 31) (some 7) 0) 64 5 1 4
      (mG_table toyCurve (2 ^ 31 + 1)) (2 ^ 31 + 1) = .ok (out, -1) := by
  have hsearch : interpolation_search (2 ^ 31 + 1) (mG_entry toyCurve (2 ^ 31)).point
      (mG_table toyCurve (2 ^ 31 + 1)) (2 ^ 31 + 1) = .ok (-2147483648) := by
    have := search_mG_table toyCurve (2 ^ 31 + 1) (2 ^ 31) (2 ^ 31 + 1) (by decide) (by decide)
      (by decide) (le_refl _)
    rw [toInt32_two_pow_31] at this
    exact this
  refine ⟨mG_table_sorted toyCurve _ (by decide), mG_table_length toyCurve _,
    mem_mG_table.2 ⟨2 ^ 31, by decide, rfl⟩, by decide, hsearch, ?_⟩
  exact reply_decrypt_single_phase_fails toyCurve (2 ^ 31 + 1) 5 4
    (mG_table toyCurve (2 ^ 31 + 1)) (2 ^ 31 + 1) (fun _ => -2147483648)
    (epir_ecelgamal_encrypt_fast toyCurve 5 (2 ^ 31) (some 7) 0) 1 (by decide)
    (by rw [encrypt_fast_length])
    (by
      intro j hj
      have hj0 : j = 0 := by omega
      subst hj0
      rw [slot_single _ (encrypt_fast_length _ _ _ _ _),
        decrypt_encrypt_fast toyCurve (2 ^ 31 + 1) (2 ^ 31) (2 ^ 31 + 1) 5 (some 7) 0
          (by decide) (by decide) (by decide) (le_refl _), toInt32_two_pow_31])
    ⟨0, by decide, by decide⟩

/-! ## Claim on the table loader -/

/-- Claim C16: with the file taken as a sequence of `k` complete 36-byte entries and
`fread` delivering `min(requested, remaining)` entries, `epir_ecelgamal_load_mg` with the
requested `mmax` (`0` standing for the default `2^24`) on an array with room for the
entries returns `min(mmax, k)`, stores entry `j` of the file at `mG[j]` for every `j`
below that count and nothing from it on, so never more than `mmax` entries, and asks
`fread` for at most 1024 entries at a time; when the file cannot be opened it returns `0`
and stores nothing. -/
theorem load_mg_count (fuel mmax mmax_ : Nat) (mG file : List epir_mG_t)
    (hdef : mmax_ = if mmax = 0 then EPIR_DEFAULT_MG_MAX else mmax) (hmm : mmax < U64)
    (hcap : min mmax_ file.length ≤ mG.length)
    (hfuel : min mmax_ file.length / 1024 < fuel) :
    (∃ mG' requests, epir_ecelgamal_load_mg fuel mG mmax (some file)
        = .ok (mG', min mmax_ file.length, requests) ∧
      mG'.length = mG.length ∧
      (∀ j, j < min mmax_ file.length → mG'[j]? = file[j]?) ∧
      (∀ j, min mmax_ file.length ≤ j → mG'[j]? = mG[j]?) ∧
      min mmax_ file.length ≤ mmax_ ∧
      ∀ q ∈ requests, q ≤ 1024) ∧
    epir_ecelgamal_load_mg fuel mG mmax none = .ok (mG, 0, []) := by
  have hU : U64 = 2 ^ 64 := rfl
  have hlt : mmax_ < U64 := by
    rw [hdef]
    split_ifs
    · rw [hU]; decide
    · exact hmm
  obtain ⟨mG', fp', hrun, hl, hkeep, hcopy, hrq⟩ :=
    load_mg_loop_spec file mmax_ hlt fuel 0 mG ⟨file, 0, []⟩ rfl rfl (Nat.zero_le _)
      (by rw [Nat.sub_zero]; exact hfuel) hcap
  refine ⟨⟨mG', fp'.requests, ?_, hl, fun j hj => hcopy j (Nat.zero_le _) hj,
    fun j hj => hkeep j (Or.inr hj), Nat.min_le_left _ _, ?_⟩, rfl⟩
  · unfold epir_ecelgamal_load_mg
    simp only [← hdef, fopen, Option.map_some', hrun, bind, Except.bind]
  · intro q hq
    rcases hrq q hq with h | h
    · simp at h
    · exact h

/-- Instance of `load_mg_count`: a file of three entries read with `mmax = 2` into an
array of two entries. -/
theorem load_mg_count_witness :
    ∃ mG' requests, epir_ecelgamal_load_mg 1 [⟨[], 0⟩, ⟨[], 0⟩] 2
        (some [⟨[1], 7⟩, ⟨[2], 8⟩, ⟨[3], 9⟩]) = .ok (mG', 2, requests) ∧
      mG'[0]? = some ⟨[1], 7⟩ ∧ mG'[1]? = some ⟨[2], 8⟩ ∧ ∀ q ∈ requests, q ≤ 1024 := by
  obtain ⟨mG', requests, hrun, _, hcopy, _, _, hrq⟩ :=
    (load_mg_count 1 2 2 [⟨[], 0⟩, ⟨[], 0⟩] [⟨[1], 7⟩, ⟨[2], 8⟩, ⟨[3], 9⟩] (by decide)
      (by decide) (by decide) (by decide)).1
  exact ⟨mG', requests, hrun, hcopy 0 (by decide), hcopy 1 (by decide), hrq⟩

/-! ## Claims on the progress hook and on the lanes of the builder -/

/-- The builder with `1 ≤ omp_threads ≤ mmax`: the sorted table, and the hook called
`mmax` times with the counts `1, …, mmax` in order. -/
theorem mg_generate_calls (C : Curve) (fuel T mmax : Nat) (mG : List epir_mG_t)
    (hT1 : 1 ≤ T) (hT : T ≤ U32) (hTm : T ≤ mmax) (hmm : mmax + T ≤ U64)
    (hlen : mG.length = mmax) (hfuel : mmax ≤ fuel) :
    epir_ecelgamal_mg_generate C fuel T mG mmax true
      = .ok (mG_table C mmax, ⟨mmax, true, (List.range mmax).map (fun i => i + 1)⟩) := by
  rw [mg_generate_eq_stages, mg_generate_stages_spec C fuel T mmax mG hT1 hT hTm hmm hlen hfuel]
  simp only [bind, Except.bind, epir_ecelgamal_mg_generate_sort, mG_table]
  rw [List.take_of_length_le (by rw [rawTable_length]),
    List.drop_of_length_le (by rw [rawTable_length]), List.append_nil]

/-- A compute lane whose first index is not below `mG_count` does nothing. -/
theorem mg_generate_compute_done {σ : Type} (C : Curve)
    (ctx : epir_ecelgamal_mg_generate_context C) (mG_count off T : Nat)
    (cb : Option (σ → Except Fault σ)) (fuel m : Nat) (s : List epir_mG_t × C.Pt × σ)
    (h : mG_count ≤ ((m * T) % U64 + off) % U64) :
    epir_ecelgamal_mg_generate_compute C ctx mG_count off T cb fuel m s = .ok s := by
  obtain ⟨mG, p, d⟩ := s
  cases fuel <;> rw [epir_ecelgamal_mg_generate_compute] <;> simp only [ge_iff_le, h, if_true]

/-- Claim C17, at the failing input: with two lanes and `mmax = 1` the prepare stage,
which does not compare its index with `mmax`, produces the entries `0` and `1`: on an
array of one entry it writes `mG[1]` outside the array, and on an array with room for
two it calls the hook twice, with the counts `1, 2`, not `mmax = 1` times. Likewise with
`mmax = 0` and one lane the hook is called once. -/
theorem mg_generate_hook_count (C : Curve) (fuel : Nat) (e0 e1 : epir_mG_t) :
    epir_ecelgamal_mg_generate C fuel 2 [e0] 1 true = .error .out_of_bounds ∧
    epir_ecelgamal_mg_generate C fuel 2 [e0, e1] 1 true
      = .ok ([mG_entry C 0, mG_entry C 1], ⟨2, true, [1, 2]⟩) ∧
    epir_ecelgamal_mg_generate C fuel 1 [e0] 0 true
      = .ok ([mG_entry C 0], ⟨1, true, [1]⟩) := by
  have h2 : (1 * 2 % U64 + 0) % U64 = 2 := by decide
  have h3 : (1 * 2 % U64 + 1) % U64 = 3 := by decide
  have h1 : (1 * 1 % U64 + 0) % U64 = 1 := by decide
  have hm : (0 + 1) % U64 = 1 := by decide
  have hm2 : (1 + 1) % U64 = 2 := by decide
  have ht : (2 + U32 - 1) % U32 = 1 := by decide
  have ht1 : (1 + U32 - 1) % U32 = 0 := by decide
  have hu : (1 : Nat) % U32 = 1 := by decide
  have hc := fun (ctx : epir_ecelgamal_mg_generate_context C) (mG_count off T : Nat)
      (s : List epir_mG_t × C.Pt × mg_cb_data)
      (h : mG_count ≤ ((1 * T) % U64 + off) % U64) =>
    mg_generate_compute_done C ctx mG_count off T (some mg_cb) fuel 1 s h
  refine ⟨mg_generate_two_lanes_one_entry C fuel e0, ?_, ?_⟩
  · simp [hc _ 1 0 2 _ (by decide), hc _ 1 1 2 _ (by decide),
      epir_ecelgamal_mg_generate, epir_ecelgamal_mg_generate_prepare,
      mg_generate_prepare_loop, mg_generate_parallel,
      epir_ecelgamal_mg_generate_sort, mG_entry, ge25519_p3_0, ge25519_p3_tobytes,
      ge25519_add_p3_precomp, ge25519_p3_to_precomp, ge25519_scalarmult_base,
      store, load, call_cb, mg_cb, bind, Except.bind, h2, h3, hm, hm2, ht, hu, List.replicate]
  · simp [hc _ 0 0 1 _ (by decide),
      epir_ecelgamal_mg_generate, epir_ecelgamal_mg_generate_prepare,
      mg_generate_prepare_loop, mg_generate_parallel,
      epir_ecelgamal_mg_generate_sort, mG_entry, ge25519_p3_0, ge25519_p3_tobytes,
      ge25519_add_p3_precomp, ge25519_p3_to_precomp, ge25519_scalarmult_base,
      store, load, call_cb, mg_cb, bind, Except.bind, h1, hm, ht1, List.replicate]

theorem serial_table_getElem? (C : Curve) (mmax j : Nat) (hj : j < mmax) :
    (serial_table C mmax)[j]? = some ⟨C.tobytes (j • C.B), j⟩ := by
  simp [serial_table, List.getElem?_map, List.getElem?_range hj]

/-- Up to `2^32` entries the unsorted table is the serial table of the specification. -/
theorem rawTable_eq_serial_table (C : Curve) (mmax : Nat) (h : mmax ≤ U32) :
    rawTable C mmax = serial_table C mmax := by
  unfold rawTable serial_table
  apply List.map_congr_left
  intro m hm
  rw [List.mem_range] at hm
  rw [mG_entry, Nat.mod_eq_of_lt (by omega)]

/-- Claim C18, as amended: for every `mmax` and all lane counts `T`, `T'` with
`1 ≤ T, T' ≤ mmax` (lane counts are `uint32_t`, indices `size_t`), on arrays of `mmax`
entries with any content the prepare stage followed by the `T` compute lanes leaves the
same unsorted table as with `T'` lanes: entry `m` is `(compress(m*B), m mod 2^32)`, which
for `mmax ≤ 2^32` is the serial table `mG[m] = (compress(m*B), m)`. The result does not
depend on what the array held, so no index below `mmax` is left unwritten, and the
`mmax` indices are written by `mmax` writes, one per call of the hook, so none is written
twice: every index from `T` on is `t + k*T` for exactly one lane `t < T` and one
iteration `k ≥ 1`. -/
theorem lane_count_independence (C : Curve) (fuel T T' mmax : Nat) (mG mG' : List epir_mG_t)
    (hT1 : 1 ≤ T) (hT : T ≤ U32) (hTm : T ≤ mmax) (hmm : mmax + T ≤ U64)
    (hT1' : 1 ≤ T') (hT' : T' ≤ U32) (hTm' : T' ≤ mmax) (hmm' : mmax + T' ≤ U64)
    (hlen : mG.length = mmax) (hlen' : mG'.length = mmax) (hfuel : mmax ≤ fuel) :
    ∃ ctx ctx' tbl d,
      mg_generate_stages C fuel T mG mmax true = .ok (ctx, tbl, d) ∧
      mg_generate_stages C fuel T' mG' mmax true = .ok (ctx', tbl, d) ∧
      tbl.length = mmax ∧
      (∀ m, m < mmax → tbl[m]? = some ⟨C.tobytes (m • C.B), m % U32⟩) ∧
      (mmax ≤ U32 → tbl = serial_table C mmax) ∧
      d.points_computed = mmax ∧
      (∀ j, T ≤ j → j < mmax →
        ∃! tk : Nat × Nat, tk.1 < T ∧ 1 ≤ tk.2 ∧ tk.1 + tk.2 * T = j) := by
  refine ⟨_, _, rawTable C mmax, _,
    mg_generate_stages_spec C fuel T mmax mG hT1 hT hTm hmm hlen hfuel,
    mg_generate_stages_spec C fuel T' mmax mG' hT1' hT' hTm' hmm' hlen' hfuel,
    rawTable_length C mmax, fun m hm => rawTable_getElem? C mmax m hm,
    rawTable_eq_serial_table C mmax, rfl, ?_⟩
  intro j hj _
  refine ⟨(j % T, j / T), ⟨Nat.mod_lt _ (by omega), (Nat.one_le_div_iff (by omega)).2 hj,
    Nat.mod_add_div' j T⟩, ?_⟩
  rintro ⟨t, k⟩ ⟨ht, _, hk⟩
  simp only at ht hk
  subst hk
  rw [Nat.add_mul_mod_self_right, Nat.mod_eq_of_lt ht, Nat.add_mul_div_right _ _ (by omega),
    Nat.div_eq_of_lt ht, Nat.zero_add]

/-- Instance of `lane_count_independence`: three entries built by one lane and by two
lanes, on arrays of different content. -/
theorem lane_count_independence_witness :
    ∃ ctx ctx' tbl d,
      mg_generate_stages toyCurve 3 1 [⟨[], 0⟩, ⟨[], 0⟩, ⟨[], 0⟩] 3 true = .ok (ctx, tbl, d) ∧
      mg_generate_stages toyCurve 3 2 [⟨[1], 7⟩, ⟨[2], 8⟩, ⟨[3], 9⟩] 3 true
        = .ok (ctx', tbl, d) ∧
      tbl = serial_table toyCurve 3 ∧ d.points_computed = 3 := by
  obtain ⟨ctx, ctx', tbl, d, h1, h2, _, _, h3, h4, _⟩ :=
    lane_count_independence toyCurve 3 1 2 3 [⟨[], 0⟩, ⟨[], 0⟩, ⟨[], 0⟩]
      [⟨[1], 7⟩, ⟨[2], 8⟩, ⟨[3], 9⟩] (by decide) (by decide) (by decide) (by decide)
      (by decide) (by decide) (by decide) (by decide) rfl rfl (by decide)
  exact ⟨ctx, ctx', tbl, d, h1, h2, h3 (by decide), h4⟩

/-- Claim C18 fails as stated. With `mmax = 2^32 + 1` the stages run by one lane leave a
table whose entry `2^32` holds the scalar `0`, the `uint32_t` reading of `2^32`: the
table is not the serial table `mG[m] = (compress(m*B), m)`. -/
theorem lane_count_independence_counterexample :
    ∃ ctx tbl d,
      mg_generate_stages toyCurve (2 ^ 32 + 1) 1 (List.replicate (2 ^ 32 + 1) ⟨[], 0⟩)
        (2 ^ 32 + 1) true = .ok (ctx, tbl, d) ∧
      tbl[2 ^ 32]? = some ⟨toyCurve.tobytes ((2 ^ 32) • toyCurve.B), 0⟩ ∧
      (serial_table toyCurve (2 ^ 32 + 1))[2 ^ 32]?
        = some ⟨toyCurve.tobytes ((2 ^ 32) • toyCurve.B), 2 ^ 32⟩ ∧
      tbl ≠ serial_table toyCurve (2 ^ 32 + 1) := by
  have hrun := mg_generate_stages_spec toyCurve (2 ^ 32 + 1) 1 (2 ^ 32 + 1)
    (List.replicate (2 ^ 32 + 1) ⟨[], 0⟩) (by decide) (by decide) (by decide) (by decide)
    (List.length_replicate _ _) (le_refl _)
  have h1 : (rawTable toyCurve (2 ^ 32 + 1))[2 ^ 32]?
      = some ⟨toyCurve.tobytes ((2 ^ 32) • toyCurve.B), 0⟩ := by
    rw [rawTable_getElem? toyCurve _ _ (by decide)]
    rfl
  have h2 := serial_table_getElem? toyCurve (2 ^ 32 + 1) (2 ^ 32) (by decide)
  refine ⟨_, _, _, hrun, h1, h2, ?_⟩
  intro heq
  rw [heq, h2] at h1
  have := congrArg epir_mG_t.scalar (Option.some.inj h1)
  exact absurd this (by decide)

/-! ## Claims on the probes and the termination of the search -/

/-- A table of two well-formed points in strictly ascending order. -/
theorem sortedTable_pair (p q : List Nat) (s s' : Nat) (hp : IsPoint p) (hq : IsPoint q)
    (hlt : memcmp p q EPIR_POINT_SIZE < 0) : SortedTable [⟨p, s⟩, ⟨q, s'⟩] := by
  refine ⟨?_, ?_⟩
  · intro e he
    simp only [List.mem_cons, List.mem_singleton, List.not_mem_nil, or_false] at he
    rcases he with rfl | rfl
    · exact hp
    · exact hq
  · simp only [List.pairwise_cons, List.mem_singleton, forall_eq, List.not_mem_nil,
      false_implies, implies_true, List.Pairwise.nil, and_true, mG_compare]
    exact hlt

/-- Claim C19, at failing inputs. On the strictly ascending table of the two points
`01 00 … 00` and `58 66 … 66`, for every 32-byte target whose first four bytes are
`af cc cc cc` or above (a target behind the last entry) the first probe index is `2`,
outside the table. On the strictly ascending table of `01 00 00 00 01 … 01` and
`58 66 … 66`, for the target `01 00 … 00`, in front of the first entry with the same
first four bytes, the probe `imid = 0` compares above the target and the update
`imax = imid - 1` wraps around to `2^64 - 1`, after which the search divides by zero. -/
theorem interpolation_search_probe_out_of_range (fuel : Nat) (find : List Nat)
    (hp : IsPoint find) (hkey : 0xAFCCCCCC ≤ load_uint32_t find) :
    SortedTable [⟨[1] ++ List.replicate 31 0, 0⟩, ⟨[0x58] ++ List.replicate 31 0x66, 1⟩] ∧
    interpolation_search (fuel + 1) find
      [⟨[1] ++ List.replicate 31 0, 0⟩, ⟨[0x58] ++ List.replicate 31 0x66, 1⟩] 2
      = .error .out_of_bounds ∧
    SortedTable [⟨[1, 0, 0, 0] ++ List.replicate 28 1, 0⟩,
      ⟨[0x58] ++ List.replicate 31 0x66, 1⟩] ∧
    IsPoint ([1] ++ List.replicate 31 0) ∧
    interpolation_search_loop ([1] ++ List.replicate 31 0)
        [⟨[1, 0, 0, 0] ++ List.replicate 28 1, 0⟩, ⟨[0x58] ++ List.replicate 31 0x66, 1⟩]
        0x01000000 (fuel + 1) 0 1 0x01000000 0x58666666
      = interpolation_search_loop ([1] ++ List.replicate 31 0)
        [⟨[1, 0, 0, 0] ++ List.replicate 28 1, 0⟩, ⟨[0x58] ++ List.replicate 31 0x66, 1⟩]
        0x01000000 fuel 0 (2 ^ 64 - 1) 0x01000000 0x01000000 ∧
    interpolation_search (fuel + 2) ([1] ++ List.replicate 31 0)
      [⟨[1, 0, 0, 0] ++ List.replicate 28 1, 0⟩, ⟨[0x58] ++ List.replicate 31 0x66, 1⟩] 2
      = .error .div_by_zero := by
  have hU32 : U32 = 2 ^ 32 := rfl
  have hU64 : U64 = 2 ^ 64 := rfl
  have hpa : IsPoint ([1] ++ List.replicate 31 0) := ⟨by decide, by decide⟩
  have hp0 : IsPoint ([1, 0, 0, 0] ++ List.replicate 28 1) := ⟨by decide, by decide⟩
  have hp1 : IsPoint ([0x58] ++ List.replicate 31 0x66) := ⟨by decide, by decide⟩
  have hka : load_uint32_t ([1] ++ List.replicate 31 0) = 0x01000000 := by decide
  have hk0 : load_uint32_t ([1, 0, 0, 0] ++ List.replicate 28 1) = 0x01000000 := by decide
  have hk1 : load_uint32_t ([0x58] ++ List.replicate 31 0x66) = 0x58666666 := by decide
  have hlast : (2 + U64 - 1) % U64 = 1 := by decide
  have hmy := load_uint32_t_lt hp
  have hstep : ∀ f : Nat,
      interpolation_search_loop ([1] ++ List.replicate 31 0)
        [⟨[1, 0, 0, 0] ++ List.replicate 28 1, 0⟩, ⟨[0x58] ++ List.replicate 31 0x66, 1⟩]
        0x01000000 (f + 1) 0 1 0x01000000 0x58666666
      = interpolation_search_loop ([1] ++ List.replicate 31 0)
        [⟨[1, 0, 0, 0] ++ List.replicate 28 1, 0⟩, ⟨[0x58] ++ List.replicate 31 0x66, 1⟩]
        0x01000000 f 0 (2 ^ 64 - 1) 0x01000000 0x01000000 := by
    intro f
    have h := search_step_above ([1] ++ List.replicate 31 0)
      [⟨[1, 0, 0, 0] ++ List.replicate 28 1, 0⟩, ⟨[0x58] ++ List.replicate 31 0x66, 1⟩]
      0x01000000 f 0 1 0x01000000 0x58666666 0 ⟨[1, 0, 0, 0] ++ List.replicate 28 1, 0⟩
      (by decide) (by decide) (by decide) rfl (by decide)
    rw [hk0, show (0 + U64 - 1) % U64 = 2 ^ 64 - 1 by decide] at h
    exact h
  refine ⟨sortedTable_pair _ _ _ _ hpa hp1 (by decide), ?_,
    sortedTable_pair _ _ _ _ hp0 hp1 (by decide), hpa, hstep fuel, ?_⟩
  · unfold interpolation_search
    simp only [hlast, List.getElem?_cons_zero, List.getElem?_cons_succ, hka, hk1]
    apply search_step_out_of_bounds _ _ _ _ _ _ _ _ 2 (by decide) (by decide) _ rfl
    rw [hU32] at hmy ⊢
    rw [hU64, show (1483105894 + 2 ^ 32 - 16777216) % 2 ^ 32 = 1466328678 by norm_num]
    omega
  · unfold interpolation_search
    simp only [hlast, List.getElem?_cons_zero, List.getElem?_cons_succ, hk0, hk1, hka]
    rw [hstep (fuel + 1)]
    exact search_step_equal_keys _ _ _ _ _ _ _ (by decide)

/-- Instance of `interpolation_search_probe_out_of_range`: the target
`c9 a3 f8 6a 00 … 00`. -/
theorem interpolation_search_probe_out_of_range_witness :
    IsPoint ([0xc9, 0xa3, 0xf8, 0x6a] ++ List.replicate 28 0) ∧
    interpolation_search 1 ([0xc9, 0xa3, 0xf8, 0x6a] ++ List.replicate 28 0)
      [⟨[1] ++ List.replicate 31 0, 0⟩, ⟨[0x58] ++ List.replicate 31 0x66, 1⟩] 2
      = .error .out_of_bounds :=
  have hp : IsPoint ([0xc9, 0xa3, 0xf8, 0x6a] ++ List.replicate 28 0) :=
    ⟨by decide, by decide⟩
  ⟨hp, (interpolation_search_probe_out_of_range 0
    ([0xc9, 0xa3, 0xf8, 0x6a] ++ List.replicate 28 0) hp (by decide)).2.1⟩

/-- Claim C20, at the failing input: on the strictly ascending table of the four points
`00 00 00 01`, `00 00 00 02`, `80 00 00 00`, `ff ff ff ff` (each followed by 28 zero
bytes) and for the target of 32 zero bytes, from the third iteration on the loop of
`interpolation_search` probes index `2` and leaves `imin = 0`, `imax = 1` and the cached
keys as they were: the range does not shrink, no iteration returns, and whatever the
number of iterations allowed the search has not terminated. -/
theorem interpolation_search_never_returns (fuel : Nat) :
    SortedTable [⟨[0, 0, 0, 1] ++ List.replicate 28 0, 0⟩,
      ⟨[0, 0, 0, 2] ++ List.replicate 28 0, 1⟩, ⟨[128, 0, 0, 0] ++ List.replicate 28 0, 2⟩,
      ⟨[255, 255, 255, 255] ++ List.replicate 28 0, 3⟩] ∧
    IsPoint (List.replicate 32 0) ∧
    interpolation_search_loop (List.replicate 32 0)
        [⟨[0, 0, 0, 1] ++ List.replicate 28 0, 0⟩, ⟨[0, 0, 0, 2] ++ List.replicate 28 0, 1⟩,
          ⟨[128, 0, 0, 0] ++ List.replicate 28 0, 2⟩,
          ⟨[255, 255, 255, 255] ++ List.replicate 28 0, 3⟩]
        0 (fuel + 1) 0 1 1 0x80000000
      = interpolation_search_loop (List.replicate 32 0)
        [⟨[0, 0, 0, 1] ++ List.replicate 28 0, 0⟩, ⟨[0, 0, 0, 2] ++ List.replicate 28 0, 1⟩,
          ⟨[128, 0, 0, 0] ++ List.replicate 28 0, 2⟩,
          ⟨[255, 255, 255, 255] ++ List.replicate 28 0, 3⟩]
        0 fuel 0 1 1 0x80000000 ∧
    interpolation_search fuel (List.replicate 32 0)
      [⟨[0, 0, 0, 1] ++ List.replicate 28 0, 0⟩, ⟨[0, 0, 0, 2] ++ List.replicate 28 0, 1⟩,
        ⟨[128, 0, 0, 0] ++ List.replicate 28 0, 2⟩,
        ⟨[255, 255, 255, 255] ++ List.replicate 28 0, 3⟩] 4
      = .error .fuel := by
  have hsorted : SortedTable [⟨[0, 0, 0, 1] ++ List.replicate 28 0, 0⟩,
      ⟨[0, 0, 0, 2] ++ List.replicate 28 0, 1⟩, ⟨[128, 0, 0, 0] ++ List.replicate 28 0, 2⟩,
      ⟨[255, 255, 255, 255] ++ List.replicate 28 0, 3⟩] := by
    refine ⟨?_, by decide⟩
    intro e he
    simp only [List.mem_cons, List.mem_singleton, List.not_mem_nil, or_false] at he
    rcases he with rfl | rfl | rfl | rfl <;> exact ⟨by decide, by decide⟩
  have hk2 : load_uint32_t ([128, 0, 0, 0] ++ List.replicate 28 0) = 0x80000000 := by decide
  have hk3 : load_uint32_t ([255, 255, 255, 255] ++ List.replicate 28 0) = 0xFFFFFFFF := by
    decide
  have hcycle : ∀ f : Nat,
      interpolation_search_loop (List.replicate 32 0)
        [⟨[0, 0, 0, 1] ++ List.replicate 28 0, 0⟩, ⟨[0, 0, 0, 2] ++ List.replicate 28 0, 1⟩,
          ⟨[128, 0, 0, 0] ++ List.replicate 28 0, 2⟩,
          ⟨[255, 255, 255, 255] ++ List.replicate 28 0, 3⟩]
        0 (f + 1) 0 1 1 0x80000000
      = interpolation_search_loop (List.replicate 32 0)
        [⟨[0, 0, 0, 1] ++ List.replicate 28 0, 0⟩, ⟨[0, 0, 0, 2] ++ List.replicate 28 0, 1⟩,
          ⟨[128, 0, 0, 0] ++ List.replicate 28 0, 2⟩,
          ⟨[255, 255, 255, 255] ++ List.replicate 28 0, 3⟩]
        0 f 0 1 1 0x80000000 := by
    intro f
    have h := search_step_above (List.replicate 32 0)
      [⟨[0, 0, 0, 1] ++ List.replicate 28 0, 0⟩, ⟨[0, 0, 0, 2] ++ List.replicate 28 0, 1⟩,
        ⟨[128, 0, 0, 0] ++ List.replicate 28 0, 2⟩,
        ⟨[255, 255, 255, 255] ++ List.replicate 28 0, 3⟩]
      0 f 0 1 1 0x80000000 2 ⟨[128, 0, 0, 0] ++ List.replicate 28 0, 2⟩
      (by decide) (by decide) (by decide) rfl (by decide)
    rw [hk2, show (2 + U64 - 1) % U64 = 1 by decide] at h
    exact h
  have hloop : ∀ f : Nat,
      interpolation_search_loop (List.replicate 32 0)
        [⟨[0, 0, 0, 1] ++ List.replicate 28 0, 0⟩, ⟨[0, 0, 0, 2] ++ List.replicate 28 0, 1⟩,
          ⟨[128, 0, 0, 0] ++ List.replicate 28 0, 2⟩,
          ⟨[255, 255, 255, 255] ++ List.replicate 28 0, 3⟩]
        0 f 0 1 1 0x80000000 = .error .fuel := by
    intro f
    induction f with
    | zero => exact search_step_no_fuel _ _ _ _ _ _ _ (by decide)
    | succ f ih => rw [hcycle f, ih]
  refine ⟨hsorted, ⟨by decide, by decide⟩, hcycle fuel, ?_⟩
  have hstart : interpolation_search fuel (List.replicate 32 0)
      [⟨[0, 0, 0, 1] ++ List.replicate 28 0, 0⟩, ⟨[0, 0, 0, 2] ++ List.replicate 28 0, 1⟩,
        ⟨[128, 0, 0, 0] ++ List.replicate 28 0, 2⟩,
        ⟨[255, 255, 255, 255] ++ List.replicate 28 0, 3⟩] 4
      = interpolation_search_loop (List.replicate 32 0)
        [⟨[0, 0, 0, 1] ++ List.replicate 28 0, 0⟩, ⟨[0, 0, 0, 2] ++ List.replicate 28 0, 1⟩,
          ⟨[128, 0, 0, 0] ++ List.replicate 28 0, 2⟩,
          ⟨[255, 255, 255, 255] ++ List.replicate 28 0, 3⟩]
        0 fuel 0 3 1 0xFFFFFFFF := rfl
  rw [hstart]
  rcases fuel with _ | f
  · exact search_step_no_fuel _ _ _ _ _ _ _ (by decide)
  · have h1 := search_step_above (List.replicate 32 0)
      [⟨[0, 0, 0, 1] ++ List.replicate 28 0, 0⟩, ⟨[0, 0, 0, 2] ++ List.replicate 28 0, 1⟩,
        ⟨[128, 0, 0, 0] ++ List.replicate 28 0, 2⟩,
        ⟨[255, 255, 255, 255] ++ List.replicate 28 0, 3⟩]
      0 f 0 3 1 0xFFFFFFFF 3 ⟨[255, 255, 255, 255] ++ List.replicate 28 0, 3⟩
      (by decide) (by decide) (by decide) rfl (by decide)
    rw [hk3, show (3 + U64 - 1) % U64 = 2 by decide] at h1
    rw [h1]
    rcases f with _ | f
    · exact search_step_no_fuel _ _ _ _ _ _ _ (by decide)
    · have h2 := search_step_above (List.replicate 32 0)
        [⟨[0, 0, 0, 1] ++ List.replicate 28 0, 0⟩, ⟨[0, 0, 0, 2] ++ List.replicate 28 0, 1⟩,
          ⟨[128, 0, 0, 0] ++ List.replicate 28 0, 2⟩,
          ⟨[255, 255, 255, 255] ++ List.replicate 28 0, 3⟩]
        0 f 0 2 1 0xFFFFFFFF 2 ⟨[128, 0, 0, 0] ++ List.replicate 28 0, 2⟩
        (by decide) (by decide) (by decide) rfl (by decide)
      rw [hk2, show (2 + U64 - 1) % U64 = 1 by decide] at h2
      rw [h2]
      exact hloop f

end Epir
